import Mathlib

/-! # HI_LoadALAP: reassociation of integer Add / Mul chains into balanced trees

A shallow embedding of `src/Implementations/HI_LoadALAP/HI_LoadALAP.cc`.

* An `Instruction*` / `Value*` is a `Value`; an instruction pointer is dereferenced by looking
  its id up in the function body held by the `State`.
* `std::vector<Value*>` is `List Value`; out-of-range indexing yields `none`.
* Recursion and `while` loops of the source take a fuel argument and return `none` when it runs
  out, so a source loop that never exits has no result in the model either.
* `uint64_t` arithmetic is arithmetic on `Nat` reduced modulo `2 ^ 64`.
* `ConstantExpr` operators, undef and other non-`ConstantInt` constants are outside the model:
  every value is an instruction result, a `ConstantInt`, or a non-constant external value.
-/

namespace HI_LoadALAP

/-! ## The IR data model -/

/-- The two integer opcodes whose chains the pass rewrites. -/
inductive BinOp where
  | Add
  | Mul
  deriving DecidableEq, Repr

/-- A `Value*`: the result of the instruction with the given id, a `ConstantInt` of the given
bit width holding the given unsigned number, or any other non-constant value (a function
argument, say). -/
inductive Value where
  | inst (id : Nat)
  | constInt (bits : Nat) (val : Nat)
  | arg (n : Nat)
  deriving DecidableEq, Repr

/-- What an instruction is: an integer binary operator with operands 0 and 1, a load from a
pointer operand, or any other instruction with its operand list. -/
inductive InstKind where
  | binop (op : BinOp) (lhs rhs : Value)
  | load (ptr : Value) (isVolatile : Bool)
  | other (ops : List Value) (mayHaveSideEffects : Bool)
  deriving DecidableEq, Repr

/-- An instruction: its identity (the pointer), the bit width of its integer result type and
its kind. -/
structure Instruction where
  id : Nat
  ty : Nat
  kind : InstKind
  deriving DecidableEq, Repr

/-- The operand list of an instruction, in operand order. -/
def Instruction.operands (I : Instruction) : List Value :=
  match I.kind with
  | .binop _ a b => [a, b]
  | .load p _ => [p]
  | .other ops _ => ops

/-- The function `F` being transformed together with the pass object: the name of `F`, its
basic blocks (each an instruction list), the member `generatedI`, and the id the next created
instruction receives. -/
structure State where
  name : List Char
  blocks : List (List Instruction)
  generatedI : List Value
  nextId : Nat
  deriving DecidableEq, Repr

/-- All instructions of the function, block after block. -/
def State.insts (st : State) : List Instruction :=
  st.blocks.flatten

/-- Dereference an instruction pointer. -/
def State.getInst? (st : State) (id : Nat) : Option Instruction :=
  st.insts.find? (fun I => I.id == id)

/-- The model of `dyn_cast<AddOperator>(v)` (or `MulOperator`): the two operands when `v` is an
instruction of opcode `op`, `none` (a null pointer) otherwise. -/
def dynCastBinOp (st : State) (op : BinOp) (v : Value) : Option (Value × Value) :=
  match v with
  | .inst id =>
    match st.getInst? id with
    | some I =>
      match I.kind with
      | .binop op2 a b => if op2 = op then some (a, b) else none
      | _ => none
    | none => none
  | _ => none

/-- The model of `dyn_cast<LoadInst>(v)` as a test. -/
def isLoadInst (st : State) (v : Value) : Bool :=
  match v with
  | .inst id =>
    match st.getInst? id with
    | some I =>
      match I.kind with
      | .load _ _ => true
      | _ => false
    | none => false
  | _ => false

/-- The model of `dyn_cast<ConstantInt>(v)` as a test. -/
def isConstantInt (v : Value) : Bool :=
  match v with
  | .constInt _ _ => true
  | _ => false

/-- The bit width of the type of a value; `0` for a dangling pointer or an external value. -/
def typeOf (st : State) (v : Value) : Nat :=
  match v with
  | .inst id =>
    match st.getInst? id with
    | some I => I.ty
    | none => 0
  | .constInt bits _ => bits
  | .arg _ => 0

/-! ## The operand-chain flattener -/

/-- The body executed for one operand `x` of a chain node once it is known not to be a chain
node itself: a load goes to `LoadInsts`, anything else to `nonLoadInsts`. The pair is
`(nonLoadInsts, LoadInsts)`. -/
def pushLeaf (st : State) (x : Value) (acc : List Value × List Value) :
    List Value × List Value :=
  if isLoadInst st x then (acc.1, acc.2 ++ [x]) else (acc.1 ++ [x], acc.2)

/-- The functions `recursiveGetAddOperand` (at `op = Add`) and `recursiveGetMulOperand` (at
`op = Mul`), which differ in the operator class only. The two vectors passed by reference are
the pair `(nonLoadInsts, LoadInsts)`; the result is their contents on return. -/
def recursiveGetOperand (op : BinOp) (st : State) :
    Nat → Value → List Value × List Value → Option (List Value × List Value)
  | 0, _, _ => none
  | fuel + 1, v, acc =>
    match dynCastBinOp st op v with
    | none => some acc
    | some (a, b) =>
      let visit := fun (x : Value) (acc : List Value × List Value) =>
        if (dynCastBinOp st op x).isSome then recursiveGetOperand op st fuel x acc
        else some (pushLeaf st x acc)
      (visit a acc).bind (visit b)

/-- The source function `recursiveGetAddOperand`. -/
def recursiveGetAddOperand (st : State) (fuel : Nat) (AddI : Value)
    (acc : List Value × List Value) : Option (List Value × List Value) :=
  recursiveGetOperand .Add st fuel AddI acc

/-- The source function `recursiveGetMulOperand`. -/
def recursiveGetMulOperand (st : State) (fuel : Nat) (MulI : Value)
    (acc : List Value × List Value) : Option (List Value × List Value) :=
  recursiveGetOperand .Mul st fuel MulI acc

/-! ## Constant folding and the merged leaf list -/

/-- The word `*(constIntVal->getValue().getRawData())`: the low 64 bits of the constant. -/
def getRawData (val : Nat) : Nat :=
  val % 2 ^ 64

/-- The model of `ConstantInt::get(Ty, V)` for a `uint64_t` `V`: the value is reduced to the
width of the type. -/
def ConstantInt.get (bits : Nat) (V : Nat) : Value :=
  .constInt bits (V % 2 ^ bits)

/-- The initial value of `constIntTot`: `0` in `tryReorderIntAdd`, `1` in `tryReorderIntMul`. -/
def constInit (op : BinOp) : Nat :=
  match op with
  | .Add => 0
  | .Mul => 1

/-- The update `constIntTot += raw` (Add) or `constIntTot *= raw` (Mul) on a `uint64_t`. -/
def accumulate (op : BinOp) (tot raw : Nat) : Nat :=
  match op with
  | .Add => (tot + raw) % 2 ^ 64
  | .Mul => (tot * raw) % 2 ^ 64

/-- The local variables of the merge loop. -/
structure MergeState where
  constIntTot : Nat
  hasConst : Bool
  LoadInsts : List Value
  deriving DecidableEq, Repr

/-- One iteration of `for (auto nonLoadI : nonLoadInsts)`. -/
def mergeStep (op : BinOp) (m : MergeState) (nonLoadI : Value) : MergeState :=
  match nonLoadI with
  | .constInt _ val =>
    { m with hasConst := true, constIntTot := accumulate op m.constIntTot (getRawData val) }
  | _ => { m with LoadInsts := m.LoadInsts ++ [nonLoadI] }

/-- The merge loop run over all of `nonLoadInsts`. -/
def mergeLoop (op : BinOp) (nonLoadInsts LoadInsts : List Value) : MergeState :=
  nonLoadInsts.foldl (mergeStep op) ⟨constInit op, false, LoadInsts⟩

/-- The vector `LoadInsts` after the merge loop and the conditional push of the folded
constant, created at the type `ty` of the chain root. -/
def mergeLeaves (op : BinOp) (ty : Nat) (nonLoadInsts LoadInsts : List Value) : List Value :=
  let m := mergeLoop op nonLoadInsts LoadInsts
  if m.hasConst then m.LoadInsts ++ [ConstantInt.get ty m.constIntTot] else m.LoadInsts

/-! ## The balanced-tree builder

The pairing loop is the same text in `tryReorderIntAdd` and `tryReorderIntMul` apart from the
`Builder.Create...` call. It is translated once, over any value type `V` and any ambient state
`S`, with the two statements `new = Builder.Create...(x, y); generatedI.insert(new);` as the
argument `mk`. -/

section Builder

variable {S V : Type}

/-- One iteration of `for (int i = 0; i < numVal/2; i++)`: read slots `2*i` and `2*i+1`,
create the new value, overwrite slot `i`. -/
def forBody (mk : S → V → V → V × S) (i : Nat) (p : S × List V) : Option (S × List V) :=
  match p.2[2 * i]?, p.2[2 * i + 1]? with
  | some x, some y =>
    let r := mk p.1 x y
    if i < p.2.length then some (r.2, p.2.set i r.1) else none
  | _, _ => none

/-- The iterations `i, i+1, ..., i+cnt-1` of the inner `for` loop. -/
def forLoop (mk : S → V → V → V × S) : Nat → Nat → S × List V → Option (S × List V)
  | 0, _, p => some p
  | cnt + 1, i, p => (forBody mk i p).bind (forLoop mk cnt (i + 1))

/-- The statement `if (numVal%2) lastInstVec[(numVal+1)/2-1] = lastInstVec[numVal-1];`. -/
def carryOdd (numVal : Nat) (p : S × List V) : Option (S × List V) :=
  if numVal % 2 = 1 then
    match p.2[numVal - 1]? with
    | some x =>
      if (numVal + 1) / 2 - 1 < p.2.length then some (p.1, p.2.set ((numVal + 1) / 2 - 1) x)
      else none
    | none => none
  else some p

/-- The body of the `while` loop up to the update of `numVal`: one pass over a level. -/
def levelPass (mk : S → V → V → V × S) (numVal : Nat) (p : S × List V) :
    Option (S × List V) :=
  (forLoop mk (numVal / 2) 0 p).bind (carryOdd numVal)

/-- The loop `while (numVal != 1) { ...; numVal = (numVal+1)/2; }` on the state and
`lastInstVec`. -/
def whileLoop (mk : S → V → V → V × S) : Nat → Nat → S × List V → Option (S × List V)
  | 0, _, _ => none
  | fuel + 1, numVal, p =>
    if numVal = 1 then some p
    else (levelPass mk numVal p).bind (whileLoop mk fuel ((numVal + 1) / 2))

/-- The builder from `lastInstVec = LoadInsts` to the read of `lastInstVec[0]` after the loop:
the final state and the new root. -/
def buildTree (mk : S → V → V → V × S) (fuel : Nat) (s : S) (LoadInsts : List V) :
    Option (S × V) :=
  (whileLoop mk fuel LoadInsts.length (s, LoadInsts)).bind fun p =>
    p.2[0]?.map fun root => (p.1, root)

end Builder

/-! ## Creating instructions, replacing uses, deleting dead instructions -/

/-- Insert `newI` immediately before the instruction with id `before` in a block. -/
def insertBeforeInBlock (before : Nat) (newI : Instruction) : List Instruction → List Instruction
  | [] => []
  | I :: rest =>
    if I.id = before then newI :: I :: rest
    else I :: insertBeforeInBlock before newI rest

/-- The arithmetic of the constant folder of the IR builder on two `ConstantInt`s. -/
def foldConst (op : BinOp) (bits x y : Nat) : Nat :=
  match op with
  | .Add => (x + y) % 2 ^ bits
  | .Mul => (x * y) % 2 ^ bits

/-- The model of `Builder.CreateAdd(lhs, rhs)` / `Builder.CreateMul(lhs, rhs)` for a builder
positioned at the instruction `AddI`: two constants are folded by the builder and no
instruction is created; otherwise a new instruction of the type of `lhs` is inserted
immediately before `AddI`. -/
def CreateBinOp (op : BinOp) (AddI : Nat) (st : State) (lhs rhs : Value) : Value × State :=
  match lhs, rhs with
  | .constInt bits x, .constInt _ y => (.constInt bits (foldConst op bits x y), st)
  | _, _ =>
    (.inst st.nextId,
      { st with
        blocks := st.blocks.map
          (insertBeforeInBlock AddI ⟨st.nextId, typeOf st lhs, .binop op lhs rhs⟩)
        nextId := st.nextId + 1 })

/-- The two statements `Value *newAdd = Builder.CreateAdd(x, y); generatedI.insert(newAdd);`. -/
def createAndRecord (op : BinOp) (AddI : Nat) (st : State) (x y : Value) : Value × State :=
  let r := CreateBinOp op AddI st x y
  (r.1, { r.2 with generatedI := r.2.generatedI.insert r.1 })

/-- Replace the operand `old` by `new` in one instruction. -/
def Instruction.replaceUsesOfWith (old new : Value) (I : Instruction) : Instruction :=
  let r := fun (v : Value) => if v = old then new else v
  { I with
    kind :=
      match I.kind with
      | .binop op a b => .binop op (r a) (r b)
      | .load p vol => .load (r p) vol
      | .other ops se => .other (ops.map r) se }

/-- The model of `old->replaceAllUsesWith(new)`. -/
def replaceAllUsesWith (st : State) (old new : Value) : State :=
  { st with blocks := st.blocks.map (fun B => B.map (Instruction.replaceUsesOfWith old new)) }

/-- The negation of `v->use_empty()`: some instruction has `v` as an operand. -/
def hasUses (st : State) (v : Value) : Bool :=
  st.insts.any (fun J => decide (v ∈ J.operands))

/-- The model of `wouldInstructionBeTriviallyDead`: no side effects. -/
def wouldInstructionBeTriviallyDead (I : Instruction) : Bool :=
  match I.kind with
  | .binop _ _ _ => true
  | .load _ vol => !vol
  | .other _ se => !se

/-- The model of `isInstructionTriviallyDead`. -/
def isInstructionTriviallyDead (st : State) (I : Instruction) : Bool :=
  !hasUses st (.inst I.id) && wouldInstructionBeTriviallyDead I

/-- The operand loop of the dead-instruction worklist for the instruction `I` being deleted:
operand slots are nulled from left to right; an operand left without any use (in another
instruction, or in a slot of `I` not yet nulled) that is a trivially dead instruction is pushed
on the worklist. -/
def nullOperands (st : State) (I : Instruction) : List Value → List Nat → List Nat
  | [], work => work
  | OpV :: later, work =>
    let usedElsewhere :=
      st.insts.any (fun J => decide (J.id ≠ I.id) && decide (OpV ∈ J.operands))
    if usedElsewhere || decide (OpV ∈ later) then nullOperands st I later work
    else
      match OpV with
      | .inst j =>
        match st.getInst? j with
        | some OpI =>
          if wouldInstructionBeTriviallyDead OpI then nullOperands st I later (work ++ [j])
          else nullOperands st I later work
        | none => nullOperands st I later work
      | _ => nullOperands st I later work

/-- Remove the instruction with the given id from its block (`eraseFromParent`). -/
def eraseFromParent (st : State) (id : Nat) : State :=
  { st with blocks := st.blocks.map (fun B => B.filter (fun J => J.id != id)) }

/-- The worklist loop `while (!DeadInsts.empty())` of
`RecursivelyDeleteTriviallyDeadInstructions`; the worklist is a stack whose top is the last
element. -/
def deleteDeadLoop : Nat → State → List Nat → Option State
  | 0, st, work => if work.isEmpty then some st else none
  | fuel + 1, st, work =>
    match work.getLast? with
    | none => some st
    | some i =>
      match st.getInst? i with
      | none => none
      | some I =>
        let work1 := nullOperands st I I.operands work.dropLast
        deleteDeadLoop fuel (eraseFromParent st i) work1

/-- The model of `RecursivelyDeleteTriviallyDeadInstructions(V)`. -/
def RecursivelyDeleteTriviallyDeadInstructions (fuel : Nat) (st : State) (V : Value) :
    Option State :=
  match V with
  | .inst i =>
    match st.getInst? i with
    | some I =>
      if isInstructionTriviallyDead st I then deleteDeadLoop fuel st [i] else some st
    | none => some st
  | _ => some st

/-! ## The rewrite of one chain root -/

/-- The first part of `tryReorderIntAdd` / `tryReorderIntMul`, up to the vector `LoadInsts`
handed to the builder: the operand guard, the flattener, the size check, the merge loop and the
push of the folded constant. `some none` stands for `return false`, `some (some l)` for
reaching the builder with `LoadInsts = l`, and `none` for a run without result (fuel, a
dangling `AddI`, or an `AddI` that is not a binary operator and so has no operands 0 and 1). -/
def collectLeaves (op : BinOp) (fuel : Nat) (st : State) (AddI : Nat) :
    Option (Option (List Value)) :=
  match st.getInst? AddI with
  | none => none
  | some I =>
    match I.kind with
    | .binop _ op0 op1 =>
      if !((dynCastBinOp st op op0).isSome || (dynCastBinOp st op op1).isSome) then some none
      else
        (recursiveGetOperand op st fuel (.inst AddI) ([], [])).bind fun leaves =>
          let nonLoadInsts := leaves.1
          let LoadInsts := leaves.2
          if LoadInsts.length + nonLoadInsts.length < 3 then some none
          else some (some (mergeLeaves op I.ty nonLoadInsts LoadInsts))
    | _ => none

/-- The last part of `tryReorderIntAdd` / `tryReorderIntMul`, from the assertion on: the new
root must be an instruction or a `ConstantInt`; every use of `AddI` is redirected to it and
`AddI` is deleted with the operands it leaves dead. -/
def replaceAndDelete (fuel : Nat) (st : State) (AddI : Nat) (newAddAll_V : Value) :
    Option (Bool × State) :=
  match newAddAll_V with
  | .arg _ => none
  | _ =>
    let st1 := replaceAllUsesWith st (.inst AddI) newAddAll_V
    (RecursivelyDeleteTriviallyDeadInstructions fuel st1 (.inst AddI)).map fun st2 => (true, st2)

/-- The functions `tryReorderIntAdd` (at `op = Add`) and `tryReorderIntMul` (at `op = Mul`),
which differ in the operator class, the initial value and update of `constIntTot`, and the
`Builder.Create...` call. `AddI` is the instruction pointer. The result is the returned
`bool` and the state on return; `none` stands for a run that does not return (fuel), reads
out of range, or fails `assert(newAddAll || newAddAll_C)`. -/
def tryReorderInt (op : BinOp) (fuel : Nat) (st : State) (AddI : Nat) :
    Option (Bool × State) :=
  match collectLeaves op fuel st AddI with
  | none => none
  | some none => some (false, st)
  | some (some LoadInsts) =>
    (buildTree (createAndRecord op AddI) fuel st LoadInsts).bind fun built =>
      replaceAndDelete fuel built.1 AddI built.2

/-- The source function `tryReorderIntAdd`. -/
def tryReorderIntAdd (fuel : Nat) (st : State) (AddI : Nat) : Option (Bool × State) :=
  tryReorderInt .Add fuel st AddI

/-- The source function `tryReorderIntMul`. -/
def tryReorderIntMul (fuel : Nat) (st : State) (MulI : Nat) : Option (Bool × State) :=
  tryReorderInt .Mul fuel st MulI

/-- The run of `tryReorderInt` stopped just before `replaceAllUsesWith`, when the old chain and
the new tree are both present: the leaf list handed to the builder, the state, and the new
root. It is `none` when `tryReorderInt` returns `false` or has no result up to there. -/
def buildStage (op : BinOp) (fuel : Nat) (st : State) (AddI : Nat) :
    Option (List Value × State × Value) :=
  match collectLeaves op fuel st AddI with
  | some (some LoadInsts) =>
    (buildTree (createAndRecord op AddI) fuel st LoadInsts).map fun built =>
      (LoadInsts, built.1, built.2)
  | _ => none

/-! ## The driver -/

/-- The test `F.getName().find(needle) != std::string::npos`. -/
def nameContains (needle : List Char) : List Char → Bool
  | [] => needle.isEmpty
  | c :: cs => needle.isPrefixOf (c :: cs) || nameContains needle cs

/-- The loop `for (it = B.rbegin(); it != B.rend(); it++)` over the instructions of a block in
reverse order, given as the list still to visit. The result is the value of `action` when the
loop is left and the state. -/
def scanBlock (fuel : Nat) : State → List Instruction → Option (Bool × State)
  | st, [] => some (false, st)
  | st, I :: rest =>
    if Value.inst I.id ∈ st.generatedI then scanBlock fuel st rest
    else
      let r : Option (Bool × State) :=
        match I.kind with
        | .binop .Add _ _ => tryReorderIntAdd fuel st I.id
        | .binop .Mul _ _ => tryReorderIntMul fuel st I.id
        | _ => some (false, st)
      match r with
      | none => none
      | some (action, st1) => if action then some (true, st1) else scanBlock fuel st1 rest

/-- The loop `while (action)` for the block with index `b`. -/
def whileAction (fuel : Nat) : Nat → State → Nat → Option State
  | 0, _, _ => none
  | n + 1, st, b =>
    match st.blocks[b]? with
    | none => none
    | some B =>
      match scanBlock fuel st B.reverse with
      | none => none
      | some (action, st1) => if action then whileAction fuel n st1 b else some st1

/-- The loop `for (BasicBlock &B : F)` from block index `b` on, for `cnt` blocks. -/
def forBlocks (fuel : Nat) : Nat → Nat → State → Option State
  | 0, _, st => some st
  | cnt + 1, b, st => (whileAction fuel fuel st b).bind (forBlocks fuel cnt (b + 1))

/-- The source function `runOnFunction`: the returned `bool` and the state on return. -/
def runOnFunction (fuel : Nat) (st : State) : Option (Bool × State) :=
  if nameContains "llvm.".toList st.name then some (false, st)
  else
    let changed := false
    (forBlocks fuel st.blocks.length 0 st).map fun st1 => (changed, st1)

/-! ## Symbolic expressions for the builder -/

/-- A binary tree over leaves of type `α`: the shape of what the builder creates. -/
inductive Tree (α : Type) where
  | leaf (a : α)
  | node (l r : Tree α)
  deriving DecidableEq, Repr

/-- The longest root-to-leaf path: a leaf has depth 0 and a node is one more than the deeper
of its two operands. -/
def Tree.depth {α : Type} : Tree α → Nat
  | .leaf _ => 0
  | .node l r => max l.depth r.depth + 1

/-- The leaves of a tree from left to right. -/
def Tree.leaves {α : Type} : Tree α → List α
  | .leaf a => [a]
  | .node l r => l.leaves ++ r.leaves

/-- The number of binary nodes of a tree. -/
def Tree.nodes {α : Type} : Tree α → Nat
  | .leaf _ => 0
  | .node l r => l.nodes + r.nodes + 1

/-- The value of a tree under a binary operation. -/
def Tree.eval {α β : Type} (f : α → β) (OP : β → β → β) : Tree α → β
  | .leaf a => f a
  | .node l r => OP (l.eval f OP) (r.eval f OP)

/-- The stateless symbolic `Create` call: build the node, leave the (unit) state alone. -/
def mkNode {α : Type} (_ : Unit) (x y : Tree α) : Tree α × Unit :=
  (.node x y, ())

/-- The stateless `Create` call of a binary operation on its own values. -/
def mkPure {β : Type} (OP : β → β → β) (_ : Unit) (x y : β) : β × Unit :=
  (OP x y, ())

/-! ## The pure builder, for comparison with the in-place loop -/

section PureBuilder

variable {S V : Type}

/-- The pure level function the in-place pass is compared with: consecutive elements are
paired from the left, each pair replaced by the created value, and an unpaired last element is
kept as it is. The state is threaded through the `Create` calls from left to right. -/
def pairLevel (mk : S → V → V → V × S) : S → List V → S × List V
  | s, x :: y :: rest =>
    let r := mk s x y
    let q := pairLevel mk r.2 rest
    (q.1, r.1 :: q.2)
  | s, [x] => (s, [x])
  | s, [] => (s, [])

/-- The pure builder: apply `pairLevel` until one value is left. A list that never reaches
length one (the empty list) uses up the fuel. -/
def reduceLevels (mk : S → V → V → V × S) : Nat → S → List V → Option (S × V)
  | 0, _, _ => none
  | fuel + 1, s, l =>
    match l with
    | [x] => some (s, x)
    | _ => reduceLevels mk fuel (pairLevel mk s l).1 (pairLevel mk s l).2

end PureBuilder

/-- The maximal same-opcode operand tree rooted at a value, as a relation: a value that is not
an instruction of opcode `op` is a leaf, and is not looked into; an instruction of opcode `op`
is a node over the trees of its operands 0 and 1. -/
inductive ChainTree (st : State) (op : BinOp) : Value → Tree Value → Prop where
  | leaf (x : Value) : dynCastBinOp st op x = none → ChainTree st op x (.leaf x)
  | node (x a b : Value) (ta tb : Tree Value) :
    dynCastBinOp st op x = some (a, b) → ChainTree st op a ta → ChainTree st op b tb →
    ChainTree st op x (.node ta tb)


/-! ## Example functions -/

/-- A block with the Add chain `((load0 + mul2) + 5) + load1`, where `mul2 = arg0 * arg1` is a
multiplication used as an operand of the chain, and a user of the chain root. -/
def exampleMixedChain : State :=
  { name := "f".toList
    generatedI := []
    nextId := 10
    blocks :=
      [[⟨0, 32, .load (.arg 10) false⟩,
        ⟨1, 32, .load (.arg 11) false⟩,
        ⟨2, 32, .binop .Mul (.arg 0) (.arg 1)⟩,
        ⟨3, 32, .binop .Add (.inst 0) (.inst 2)⟩,
        ⟨4, 32, .binop .Add (.inst 3) (.constInt 32 5)⟩,
        ⟨5, 32, .binop .Add (.inst 4) (.inst 1)⟩,
        ⟨6, 32, .other [.inst 5] true⟩]] }

/-! ## Reference functions for the merged leaf list -/

/-- The numbers held by the `ConstantInt` elements of a list, in list order. -/
def constVals : List Value → List Nat
  | [] => []
  | .constInt _ val :: rest => val :: constVals rest
  | .inst _ :: rest => constVals rest
  | .arg _ :: rest => constVals rest

/-- The sum (Add) or product (Mul) of a list of numbers modulo `2 ^ 64`. -/
def foldedConstant (op : BinOp) (vals : List Nat) : Nat :=
  match op with
  | .Add => vals.sum % 2 ^ 64
  | .Mul => vals.prod % 2 ^ 64

/-- The block of the example of the specification: the Add chain
`(((load_a + 3) + load_b) + 4) + load_c` and a user of its root. -/
def exampleConstChain : State :=
  { name := "f".toList
    generatedI := []
    nextId := 10
    blocks :=
      [[⟨0, 32, .load (.arg 0) false⟩,
        ⟨1, 32, .load (.arg 1) false⟩,
        ⟨2, 32, .load (.arg 2) false⟩,
        ⟨3, 32, .binop .Add (.inst 0) (.constInt 32 3)⟩,
        ⟨4, 32, .binop .Add (.inst 3) (.inst 1)⟩,
        ⟨5, 32, .binop .Add (.inst 4) (.constInt 32 4)⟩,
        ⟨6, 32, .binop .Add (.inst 5) (.inst 2)⟩,
        ⟨7, 32, .other [.inst 6] true⟩]] }

/-! ## Values of instructions in `w`-bit wraparound arithmetic -/

/-- The result of an integer Add or Mul on `w`-bit operands. -/
def evalOp (w : Nat) (op : BinOp) (x y : Nat) : Nat :=
  match op with
  | .Add => (x + y) % 2 ^ w
  | .Mul => (x * y) % 2 ^ w

/-- The `w`-bit value of an operand under an assignment `env` of numbers to the values that are
not constants: a constant has its own value, reduced to `w` bits. -/
def valueOf (w : Nat) (env : Value → Nat) : Value → Nat
  | .constInt _ val => val % 2 ^ w
  | .inst id => env (.inst id)
  | .arg n => env (.arg n)

/-- The assignment gives an Add or Mul instruction the value computed from its operands; other
instructions (loads, calls, ...) may have any value. -/
def InstHolds (w : Nat) (env : Value → Nat) (I : Instruction) : Prop :=
  match I.kind with
  | .binop op a b => env (.inst I.id) = evalOp w op (valueOf w env a) (valueOf w env b)
  | .load _ _ => True
  | .other _ _ => True

instance (w : Nat) (env : Value → Nat) (I : Instruction) : Decidable (InstHolds w env I) := by
  unfold InstHolds
  split <;> infer_instance

/-- The assignment is a run of the function body read as a function on `w`-bit integers: every
Add and Mul instruction in it has the `w`-bit value computed from its operands. -/
def Sat (w : Nat) (env : Value → Nat) (st : State) : Prop :=
  ∀ I ∈ st.insts, InstHolds w env I

instance (w : Nat) (env : Value → Nat) (st : State) : Decidable (Sat w env st) := by
  unfold Sat
  infer_instance


section Semantics

variable (w : Nat) (env : Value → Nat)

/-- The value of an operand as a residue modulo `2 ^ w`. -/
def den (v : Value) : ZMod (2 ^ w) :=
  (valueOf w env v : ZMod (2 ^ w))

/-- The operation of a chain on residues. -/
def opZ (op : BinOp) (x y : ZMod (2 ^ w)) : ZMod (2 ^ w) :=
  match op with
  | .Add => x + y
  | .Mul => x * y

/-- The neutral element of the operation of a chain. -/
def unitZ (op : BinOp) : ZMod (2 ^ w) :=
  match op with
  | .Add => 0
  | .Mul => 1

/-- The operation of a chain applied to the values of a list of operands. -/
def combineZ (op : BinOp) (l : List Value) : ZMod (2 ^ w) :=
  l.foldr (fun v acc => opZ w op (den w env v) acc) (unitZ w op)

end Semantics


/-- The instruction with id `R` is in the function body. -/
def HasInst (st : State) (R : Nat) : Prop :=
  ∃ J ∈ st.insts, J.id = R

/-- The number of `ConstantInt` elements of a list. -/
def numConst (l : List Value) : Nat :=
  (l.filter isConstantInt).length


/-- The function `exampleConstChain` in the middle of the rewrite of its root, after the
builder and before `replaceAllUsesWith`. -/
def exampleConstChainBuilt : State :=
  { name := "f".toList
    generatedI := [.inst 12, .inst 11, .inst 10]
    nextId := 13
    blocks :=
      [[⟨0, 32, .load (.arg 0) false⟩,
        ⟨1, 32, .load (.arg 1) false⟩,
        ⟨2, 32, .load (.arg 2) false⟩,
        ⟨3, 32, .binop .Add (.inst 0) (.constInt 32 3)⟩,
        ⟨4, 32, .binop .Add (.inst 3) (.inst 1)⟩,
        ⟨5, 32, .binop .Add (.inst 4) (.constInt 32 4)⟩,
        ⟨10, 32, .binop .Add (.inst 0) (.inst 1)⟩,
        ⟨11, 32, .binop .Add (.inst 2) (.constInt 32 7)⟩,
        ⟨12, 32, .binop .Add (.inst 10) (.inst 11)⟩,
        ⟨6, 32, .binop .Add (.inst 5) (.inst 2)⟩,
        ⟨7, 32, .other [.inst 6] true⟩]] }

/-- The function `exampleConstChain` after the rewrite of its root. -/
def exampleConstChainAfter : State :=
  { name := "f".toList
    generatedI := [.inst 12, .inst 11, .inst 10]
    nextId := 13
    blocks :=
      [[⟨0, 32, .load (.arg 0) false⟩,
        ⟨1, 32, .load (.arg 1) false⟩,
        ⟨2, 32, .load (.arg 2) false⟩,
        ⟨10, 32, .binop .Add (.inst 0) (.inst 1)⟩,
        ⟨11, 32, .binop .Add (.inst 2) (.constInt 32 7)⟩,
        ⟨12, 32, .binop .Add (.inst 10) (.inst 11)⟩,
        ⟨7, 32, .other [.inst 12] true⟩]] }

/-- A run of `exampleConstChainBuilt` on 32-bit values in which the additions wrap around:
`load_a = 2^32 - 1`, `load_b = 5`, `load_c = 7`. -/
def exampleEnv : Value → Nat
  | .inst 0 => 4294967295
  | .inst 1 => 5
  | .inst 2 => 7
  | .inst 3 => 2
  | .inst 4 => 7
  | .inst 5 => 11
  | .inst 6 => 18
  | .inst 10 => 4
  | .inst 11 => 14
  | .inst 12 => 18
  | _ => 0

/-- A block with the single addition `load_a + load_b` and a user of it. -/
def exampleTwoLeaves : State :=
  { name := "f".toList
    generatedI := []
    nextId := 10
    blocks :=
      [[⟨0, 32, .load (.arg 0) false⟩,
        ⟨1, 32, .load (.arg 1) false⟩,
        ⟨2, 32, .binop .Add (.inst 0) (.inst 1)⟩,
        ⟨3, 32, .other [.inst 2] true⟩]] }

/-- A block with the single multiplication `load_a * load_b` and a user of it. -/
def exampleTwoFactors : State :=
  { name := "f".toList
    generatedI := []
    nextId := 10
    blocks :=
      [[⟨0, 32, .load (.arg 0) false⟩,
        ⟨1, 32, .load (.arg 1) false⟩,
        ⟨2, 32, .binop .Mul (.inst 0) (.inst 1)⟩,
        ⟨3, 32, .other [.inst 2] true⟩]] }

/-- A block with the chain `(a + 3) + 4` and a user of its root. -/
def exampleFoldToTwo : State :=
  { name := "f".toList
    generatedI := []
    nextId := 10
    blocks :=
      [[⟨0, 32, .load (.arg 0) false⟩,
        ⟨1, 32, .binop .Add (.inst 0) (.constInt 32 3)⟩,
        ⟨2, 32, .binop .Add (.inst 1) (.constInt 32 4)⟩,
        ⟨3, 32, .other [.inst 2] true⟩]] }

/-- The function `exampleFoldToTwo` after the rewrite of its root: `a + 7`. -/
def exampleFoldToTwoAfter : State :=
  { name := "f".toList
    generatedI := [.inst 10]
    nextId := 11
    blocks :=
      [[⟨0, 32, .load (.arg 0) false⟩,
        ⟨10, 32, .binop .Add (.inst 0) (.constInt 32 7)⟩,
        ⟨3, 32, .other [.inst 10] true⟩]] }

/-- The left-leaning chain `((x + r0) + r1) + ...` over the leaves `x :: rest`: the shape of the
cascade of binary operations the pass starts from. -/
def leftChain {α : Type} (x : α) (rest : List α) : Tree α :=
  rest.foldl (fun t a => .node t (.leaf a)) (.leaf x)


/-- The sum (Add) or product (Mul) of a list of numbers computed directly in `w`-bit wraparound
arithmetic: every intermediate result is reduced modulo `2 ^ w`. -/
def narrowFold (w : Nat) (op : BinOp) (vals : List Nat) : Nat :=
  vals.foldl (fun acc v => evalOp w op acc v) (constInit op % 2 ^ w)

/-! ## Well-formed function bodies -/

/-- The ids of all instructions of the function, block after block. -/
def State.ids (st : State) : List Nat :=
  st.insts.map (fun I => I.id)

/-- The function body is well formed as a pointer structure: no two instructions share an id
(an address), every id is below the id the next created instruction receives, and so is every
instruction id used as an operand. -/
structure WF (st : State) : Prop where
  nodup : st.ids.Nodup
  fresh : ∀ I ∈ st.insts, I.id < st.nextId
  closed : ∀ I ∈ st.insts, ∀ j, Value.inst j ∈ I.operands → j < st.nextId


/-- An operand of an instruction created by the builder for the leaf list `L`, when the counter
stood at `lo` on entry: a leaf, or an instruction created before the one with id `i`. -/
def BuiltOperand (lo : Nat) (L : List Value) (a : Value) (i : Nat) : Prop :=
  a ∈ L ∨ ∃ j, a = .inst j ∧ lo ≤ j ∧ j < i

/-- The state `s` and the current level `cur` in the middle of the builder run that started in
the state `st` with the leaf list `L` for the root `R`. -/
structure Building (op : BinOp) (R : Nat) (st : State) (L : List Value) (s : State)
    (cur : List Value) : Prop where
  wf : WF s
  hasR : HasInst s R
  name_eq : s.name = st.name
  nextId_le : st.nextId ≤ s.nextId
  gen_iff : ∀ v, v ∈ s.generatedI ↔
    v ∈ st.generatedI ∨ ∃ i, v = .inst i ∧ st.nextId ≤ i ∧ i < s.nextId
  blocks_rel : List.Forall₂
    (fun B B1 => (∀ I ∈ B, I ∈ B1) ∧ ∀ I ∈ B1, I ∈ B ∨ st.nextId ≤ I.id) st.blocks s.blocks
  count : s.insts.length = st.insts.length + (s.nextId - st.nextId)
  created : ∀ I ∈ s.insts, st.nextId ≤ I.id →
    ∃ a b, I.kind = .binop op a b ∧ BuiltOperand st.nextId L a I.id ∧
      BuiltOperand st.nextId L b I.id
  created_ex : ∀ i, st.nextId ≤ i → i < s.nextId → ∃ I ∈ s.insts, I.id = i
  cur_ok : ∀ x ∈ cur, BuiltOperand st.nextId L x s.nextId
  cur_const : numConst cur ≤ 1
  used : ∀ x ∈ L, x ∈ cur ∨ ∃ I ∈ s.insts, st.nextId ≤ I.id ∧ x ∈ I.operands


/-- The tree the builder has made above a value: a value that existed when the counter stood at
`lo` is a leaf; an instruction created since then is a node over the trees of its two
operands. -/
inductive NewTree (lo : Nat) (s : State) : Value → Tree Value → Prop where
  | leaf (x : Value) : (∀ j, x = .inst j → j < lo) → NewTree lo s x (.leaf x)
  | node (i ty : Nat) (op : BinOp) (a b : Value) (ta tb : Tree Value) :
    lo ≤ i → (⟨i, ty, .binop op a b⟩ : Instruction) ∈ s.insts →
    NewTree lo s a ta → NewTree lo s b tb → NewTree lo s (.inst i) (.node ta tb)

/-- The trees above the values of a level. -/
def LevelTrees (lo : Nat) (s : State) (L : List Value) (out todo : List Value) : Prop :=
  ∃ Tout Ttodo : List (Tree Value),
    List.Forall₂ (NewTree lo s) out Tout ∧ List.Forall₂ (NewTree lo s) todo Ttodo ∧
    ((Tout ++ Ttodo).map Tree.leaves).flatten = L ∧
    ((Tout ++ Ttodo).map Tree.nodes).sum = s.nextId - lo

/-- A value is not an instruction with an id from `n` on. -/
def valueBelow (n : Nat) (v : Value) : Bool :=
  match v with
  | .inst j => decide (j < n)
  | _ => true

/-- A decision procedure for `WF`. -/
def wfCheck (st : State) : Bool :=
  decide st.ids.Nodup &&
    st.insts.all (fun I => decide (I.id < st.nextId) && I.operands.all (valueBelow st.nextId))


/-- A block with the all-constant chain `(1 + 2) + 3` and a user of its root. -/
def exampleAllConst : State :=
  { name := "f".toList
    generatedI := []
    nextId := 10
    blocks :=
      [[⟨0, 32, .binop .Add (.constInt 32 1) (.constInt 32 2)⟩,
        ⟨1, 32, .binop .Add (.inst 0) (.constInt 32 3)⟩,
        ⟨2, 32, .other [.inst 1] true⟩]] }

/-- The function `exampleAllConst` after the rewrite of its root: the user reads `6`. -/
def exampleAllConstAfter : State :=
  { name := "f".toList
    generatedI := []
    nextId := 10
    blocks := [[⟨2, 32, .other [.constInt 32 6] true⟩]] }

/-- The worklist of the dead-instruction loop is sound: ids are distinct, and every instruction
on the worklist is in the function and has no use. -/
structure WorkOK (st : State) (work : List Nat) : Prop where
  ids : st.ids.Nodup
  nodup : work.Nodup
  present : ∀ i ∈ work, ∃ I ∈ st.insts, I.id = i
  unused : ∀ i ∈ work, hasUses st (.inst i) = false

/-- The instructions of the chain rooted at `R`: the root, when it is an instruction of opcode
`op`, and every operand of opcode `op` of an instruction of the chain. -/
inductive ChainNode (st : State) (op : BinOp) (R : Nat) : Nat → Prop where
  | root : (dynCastBinOp st op (.inst R)).isSome → ChainNode st op R R
  | step (x j : Nat) (a b : Value) : ChainNode st op R x →
    dynCastBinOp st op (.inst x) = some (a, b) → (a = .inst j ∨ b = .inst j) →
    (dynCastBinOp st op (.inst j)).isSome → ChainNode st op R j

/-- What is known of a successful run of `tryReorderInt` on the root `R` of a well-formed
body: the instruction `I` of the root and its operands, the chain tree `T`, the leaf list `L`
handed to the builder, the state `st1` and the new root `V` after the builder, and the run of
the dead-instruction loop from the state after `replaceAllUsesWith` to the state `st2` on
return. -/
structure Rewritten (op : BinOp) (fuel : Nat) (st : State) (R : Nat) (st2 : State)
    (L : List Value) (st1 : State) (V : Value) (T : Tree Value) (I : Instruction)
    (op0 op1 : Value) : Prop where
  wf : WF st
  hI : st.getInst? R = some I
  hk : I.kind = .binop op op0 op1
  hv : dynCastBinOp st op (.inst R) = some (op0, op1)
  hguard : (dynCastBinOp st op op0).isSome ∨ (dynCastBinOp st op op1).isSome
  hT : ChainTree st op (.inst R) T
  hdepth : T.depth ≤ fuel
  h3 : 3 ≤ T.leaves.length
  hshape : L = (T.leaves.filter (isLoadInst st) ++
        T.leaves.filter (fun x => !isLoadInst st x && !isConstantInt x)) ++
      (if T.leaves.any isConstantInt then
        [ConstantInt.get I.ty (foldedConstant op (constVals T.leaves))]
      else [])
  hne : L ≠ []
  hclosed : ∀ x ∈ L, ∀ j, x = .inst j → j < st.nextId
  hcollect : collectLeaves op fuel st R = some (some L)
  hbuild : buildTree (createAndRecord op R) fuel st L = some (st1, V)
  building : Building op R st L st1 [V]
  rootNew : 2 ≤ L.length → ∃ i, V = .inst i ∧ st.nextId ≤ i
  rootConst : L.length = 1 → isConstantInt V = true
  hdel : deleteDeadLoop fuel (replaceAllUsesWith st1 (.inst R) V) [R] = some st2

/-- The invariant of the dead-instruction loop started at the replaced root `R`, where `st` is
the state on entry of the rewrite and `sp` the state right after `replaceAllUsesWith`: only
instructions of the old chain are on the worklist or deleted, an instruction of the chain
still present is on the worklist or has a use, and the root is on the worklist or gone. -/
structure Cascade (op : BinOp) (st : State) (R : Nat) (sp s : State) (work : List Nat) :
    Prop where
  ok : WorkOK s work
  chain : ∀ i ∈ work, ChainNode st op R i
  blocks : List.Forall₂ (fun B1 B => List.Sublist B B1) sp.blocks s.blocks
  kept : ∀ J ∈ sp.insts, ¬ ChainNode st op R J.id → J ∈ s.insts
  dead : ∀ x, ChainNode st op R x → HasInst s x → x ∈ work ∨ hasUses s (.inst x) = true
  rootGone : R ∈ work ∨ ¬ HasInst s R
  name_eq : s.name = sp.name
  gen_eq : s.generatedI = sp.generatedI
  nextId_eq : s.nextId = sp.nextId

/-- A function with two basic blocks: the chain `(load0 + load1) + load2` in the first block,
and in the second block the addition `%6 = %4 + load5` of the root of that chain and a load,
with a user of `%6`. -/
def exampleTwoBlocks : State :=
  { name := "f".toList
    generatedI := []
    nextId := 10
    blocks :=
      [[⟨0, 32, .load (.arg 0) false⟩,
        ⟨1, 32, .load (.arg 1) false⟩,
        ⟨2, 32, .load (.arg 2) false⟩,
        ⟨3, 32, .binop .Add (.inst 0) (.inst 1)⟩,
        ⟨4, 32, .binop .Add (.inst 3) (.inst 2)⟩],
       [⟨5, 32, .load (.arg 3) false⟩,
        ⟨6, 32, .binop .Add (.inst 4) (.inst 5)⟩,
        ⟨7, 32, .other [.inst 6] true⟩]] }

/-- The function `exampleTwoBlocks` when the `while (action)` loop of the first block is left:
the chain of the first block is replaced by the generated instructions `%10` and `%11`. -/
def exampleTwoBlocksMid : State :=
  { name := "f".toList
    generatedI := [.inst 11, .inst 10]
    nextId := 12
    blocks :=
      [[⟨0, 32, .load (.arg 0) false⟩,
        ⟨1, 32, .load (.arg 1) false⟩,
        ⟨2, 32, .load (.arg 2) false⟩,
        ⟨10, 32, .binop .Add (.inst 0) (.inst 1)⟩,
        ⟨11, 32, .binop .Add (.inst 10) (.inst 2)⟩],
       [⟨5, 32, .load (.arg 3) false⟩,
        ⟨6, 32, .binop .Add (.inst 11) (.inst 5)⟩,
        ⟨7, 32, .other [.inst 6] true⟩]] }

/-- The function `exampleTwoBlocks` on return of the pass: the rewrite of `%6` in the second
block has deleted the instructions `%10` and `%11` generated in the first block. -/
def exampleTwoBlocksAfter : State :=
  { name := "f".toList
    generatedI := [.inst 14, .inst 13, .inst 12, .inst 11, .inst 10]
    nextId := 15
    blocks :=
      [[⟨0, 32, .load (.arg 0) false⟩,
        ⟨1, 32, .load (.arg 1) false⟩,
        ⟨2, 32, .load (.arg 2) false⟩],
       [⟨5, 32, .load (.arg 3) false⟩,
        ⟨12, 32, .binop .Add (.inst 0) (.inst 1)⟩,
        ⟨13, 32, .binop .Add (.inst 2) (.inst 5)⟩,
        ⟨14, 32, .binop .Add (.inst 12) (.inst 13)⟩,
        ⟨7, 32, .other [.inst 14] true⟩]] }

/-- The operand relation of the Add and Mul instructions of the function is well founded: a
rank can be given to every id such that an instruction operand of an Add or Mul instruction
has a smaller rank than the instruction. Other instructions (a phi, for one) are not
constrained. -/
def Acyclic (st : State) : Prop :=
  ∃ rank : Nat → Nat, ∀ I ∈ st.insts, ∀ op a b, I.kind = .binop op a b →
    ∀ j, (a = .inst j ∨ b = .inst j) → rank j < rank I.id

/-- A sufficient test for `Acyclic`: every instruction operand of an Add or Mul instruction
has a smaller id than the instruction. -/
def acyclicCheck (st : State) : Bool :=
  st.insts.all fun I =>
    match I.kind with
    | .binop _ a b => valueBelow I.id a && valueBelow I.id b
    | _ => true

/-- The effect of a successful rewrite of the root `R`, with `V` the new root, on the function
body: `s` is the state on entry and `s2` the state on return. -/
structure RewriteStep (op : BinOp) (R : Nat) (V : Value) (s s2 : State) : Prop where
  wf : WF s2
  name_eq : s2.name = s.name
  nextId_le : s.nextId ≤ s2.nextId
  gen_iff : ∀ v, v ∈ s2.generatedI ↔
    v ∈ s.generatedI ∨ ∃ i, v = .inst i ∧ s.nextId ≤ i ∧ i < s2.nextId
  blocks : List.Forall₂
    (fun B B2 => ∀ J2 ∈ B2, (∃ J ∈ B, J2 = J.replaceUsesOfWith (.inst R) V) ∨ s.nextId ≤ J2.id)
    s.blocks s2.blocks
  insts : ∀ J2 ∈ s2.insts,
    (∃ J ∈ s.insts, J2 = J.replaceUsesOfWith (.inst R) V) ∨ s.nextId ≤ J2.id
  created : ∀ J2 ∈ s2.insts, s.nextId ≤ J2.id →
    J2.id < s2.nextId ∧ ∃ a b, J2.kind = .binop op a b
  root : (dynCastBinOp s op (.inst R)).isSome
  rootGone : ¬ HasInst s2 R
  newRoot : isConstantInt V = true ∨ ∃ j, V = .inst j ∧ s.nextId ≤ j
  acyclic : Acyclic s → Acyclic s2

/-- The instruction passes the operand guard of the rewrite for its own opcode: it is an Add
with an Add operand, or a Mul with a Mul operand. -/
def Candidate (s : State) (I : Instruction) : Prop :=
  ∃ op a b, I.kind = .binop op a b ∧
    ((dynCastBinOp s op a).isSome ∨ (dynCastBinOp s op b).isSome)

/-- No instruction of the list is rewritten by a scan: each is in `generatedI` or fails the
operand guard. -/
def Quiet (s : State) (B : List Instruction) : Prop :=
  ∀ I ∈ B, Value.inst I.id ∈ s.generatedI ∨ ¬ Candidate s I

/-- The block with index `b`, when there is one, is quiet. -/
def QuietAt (s : State) (b : Nat) : Prop :=
  ∀ B, s.blocks[b]? = some B → Quiet s B

/-! ## The driver over arbitrary rewrite functions -/

/-- The loop of `scanBlock` with the two calls `tryReorderIntAdd(AddI)` and
`tryReorderIntMul(MulI)` left open: `tryAdd` and `tryMul` are given the state and the root. -/
def scanBlockWith (tryAdd tryMul : State → Nat → Option (Bool × State)) :
    State → List Instruction → Option (Bool × State)
  | st, [] => some (false, st)
  | st, I :: rest =>
    if Value.inst I.id ∈ st.generatedI then scanBlockWith tryAdd tryMul st rest
    else
      let r : Option (Bool × State) :=
        match I.kind with
        | .binop .Add _ _ => tryAdd st I.id
        | .binop .Mul _ _ => tryMul st I.id
        | _ => some (false, st)
      match r with
      | none => none
      | some (action, st1) =>
        if action then some (true, st1) else scanBlockWith tryAdd tryMul st1 rest

/-- The loop `while (action)` over `scanBlockWith`. -/
def whileActionWith (tryAdd tryMul : State → Nat → Option (Bool × State)) :
    Nat → State → Nat → Option State
  | 0, _, _ => none
  | n + 1, st, b =>
    match st.blocks[b]? with
    | none => none
    | some B =>
      match scanBlockWith tryAdd tryMul st B.reverse with
      | none => none
      | some (action, st1) =>
        if action then whileActionWith tryAdd tryMul n st1 b else some st1

/-- The loop over the blocks over `whileActionWith`. -/
def forBlocksWith (tryAdd tryMul : State → Nat → Option (Bool × State)) (fuel : Nat) :
    Nat → Nat → State → Option State
  | 0, _, st => some st
  | cnt + 1, b, st =>
    (whileActionWith tryAdd tryMul fuel st b).bind (forBlocksWith tryAdd tryMul fuel cnt (b + 1))

/-- The function `runOnFunction` over `forBlocksWith`. -/
def runOnFunctionWith (tryAdd tryMul : State → Nat → Option (Bool × State)) (fuel : Nat)
    (st : State) : Option (Bool × State) :=
  if nameContains "llvm.".toList st.name then some (false, st)
  else
    let changed := false
    (forBlocksWith tryAdd tryMul fuel st.blocks.length 0 st).map fun st1 => (changed, st1)

/-- A rewrite function that has no result when its root is a member of `generatedI`, and is
`f` on every other root. -/
def guarded (f : State → Nat → Option (Bool × State)) (st : State) (R : Nat) :
    Option (Bool × State) :=
  if Value.inst R ∈ st.generatedI then none else f st R

/-- The Add and Mul instructions of the function that are not in `generatedI`: the
instructions the driver can pass to a rewrite as a root. -/
def pendingRoots (s : State) : List Instruction :=
  s.insts.filter fun I =>
    match I.kind with
    | .binop _ _ _ => decide (Value.inst I.id ∉ s.generatedI)
    | _ => false

/-- The number of non-generated Add and Mul instructions. -/
def numPending (s : State) : Nat :=
  (pendingRoots s).length

/-! # Theorems -/

/-! ## The in-place pairing loop refines the pure level function -/

section BuilderLemmas

variable {S V : Type}

theorem pairLevel_cons_cons (mk : S → V → V → V × S) (s : S) (x y : V) (rest : List V) :
    pairLevel mk s (x :: y :: rest) =
      ((pairLevel mk (mk s x y).2 rest).1, (mk s x y).1 :: (pairLevel mk (mk s x y).2 rest).2) :=
  rfl

theorem pairLevel_length (mk : S → V → V → V × S) :
    ∀ (n : Nat) (s : S) (l : List V), l.length ≤ n → (pairLevel mk s l).2.length = (l.length + 1) / 2
  | _, s, [], _ => by simp [pairLevel]
  | _, s, [x], _ => by simp [pairLevel]
  | 0, s, x :: y :: rest, h => by simp at h
  | n + 1, s, x :: y :: rest, h => by
    have ih := pairLevel_length mk n (mk s x y).2 rest (by simp at h; omega)
    simp only [pairLevel, List.length_cons, ih]
    omega

theorem forLoop_spec (mk : S → V → V → V × S) (orig : List V) :
    ∀ (cnt i : Nat) (s : S) (pre : List V), pre.length = i → 2 * (i + cnt) ≤ orig.length →
      forLoop mk cnt i (s, pre ++ orig.drop i) =
        some ((pairLevel mk s ((orig.drop (2 * i)).take (2 * cnt))).1,
          pre ++ (pairLevel mk s ((orig.drop (2 * i)).take (2 * cnt))).2 ++ orig.drop (i + cnt)) := by
  intro cnt
  induction cnt with
  | zero => intro i s pre _ _; simp [forLoop, pairLevel]
  | succ k ih =>
    intro i s pre hpre hlen
    have h0 : 2 * i < orig.length := by omega
    have h1 : 2 * i + 1 < orig.length := by omega
    have hi : i < orig.length := by omega
    have e0 : (pre ++ orig.drop i)[2 * i]? = some orig[2 * i] := by
      rw [List.getElem?_append_right (by omega), List.getElem?_drop, hpre]
      rw [show i + (2 * i - i) = 2 * i by omega, List.getElem?_eq_getElem h0]
    have e1 : (pre ++ orig.drop i)[2 * i + 1]? = some orig[2 * i + 1] := by
      rw [List.getElem?_append_right (by omega), List.getElem?_drop, hpre]
      rw [show i + (2 * i + 1 - i) = 2 * i + 1 by omega, List.getElem?_eq_getElem h1]
    have hset : ∀ v : V, (pre ++ orig.drop i).set i v = (pre ++ [v]) ++ orig.drop (i + 1) := by
      intro v
      rw [List.set_append_right _ _ (by omega), hpre, Nat.sub_self]
      rw [List.drop_eq_getElem_cons hi]
      simp [List.set]
    have hlt : i < (pre ++ orig.drop i).length := by simp; omega
    have hdrop : (orig.drop (2 * i)).take (2 * (k + 1)) =
        orig[2 * i] :: orig[2 * i + 1] :: (orig.drop (2 * (i + 1))).take (2 * k) := by
      rw [List.drop_eq_getElem_cons h0, List.drop_eq_getElem_cons h1]
      rw [show 2 * (k + 1) = 2 * k + 1 + 1 by ring, List.take_succ_cons, List.take_succ_cons]
      rw [show 2 * i + 1 + 1 = 2 * (i + 1) by ring]
    rw [forLoop, forBody]
    simp only [e0, e1, hlt, if_true, Option.some_bind, hset]
    rw [ih (i + 1) _ (pre ++ [_]) (by simp [hpre]) (by omega), hdrop]
    simp only [pairLevel, List.append_assoc, List.singleton_append, List.cons_append]
    rw [show i + 1 + k = i + (k + 1) by ring]
    simp


theorem pairLevel_append_even (mk : S → V → V → V × S) (l2 : List V) :
    ∀ (k : Nat) (s : S) (l1 : List V), l1.length = 2 * k →
      pairLevel mk s (l1 ++ l2) =
        ((pairLevel mk (pairLevel mk s l1).1 l2).1,
          (pairLevel mk s l1).2 ++ (pairLevel mk (pairLevel mk s l1).1 l2).2) := by
  intro k
  induction k with
  | zero =>
    intro s l1 h
    have : l1 = [] := List.length_eq_zero.mp (by omega)
    subst this
    simp [pairLevel]
  | succ k ih =>
    intro s l1 h
    match l1, h with
    | x :: y :: rest, h =>
      have hr : rest.length = 2 * k := by simp at h; omega
      rw [List.cons_append, List.cons_append, pairLevel_cons_cons, pairLevel_cons_cons,
        ih _ rest hr]
      rfl

theorem levelPass_spec (mk : S → V → V → V × S) (n : Nat) (s : S) (vec : List V)
    (hn : n ≤ vec.length) :
    ∃ vec1, levelPass mk n (s, vec) = some ((pairLevel mk s (vec.take n)).1, vec1) ∧
      vec1.take ((n + 1) / 2) = (pairLevel mk s (vec.take n)).2 ∧ vec1.length = vec.length := by
  have hfor := forLoop_spec mk vec (n / 2) 0 s [] rfl (by omega)
  simp only [List.drop_zero, Nat.mul_zero, List.nil_append, Nat.zero_add] at hfor
  have hreslen : (pairLevel mk s (vec.take (2 * (n / 2)))).2.length = n / 2 := by
    rw [pairLevel_length mk _ s _ le_rfl, List.length_take]
    omega
  rcases Nat.mod_two_eq_zero_or_one n with hpar | hpar
  · -- even level: nothing is carried
    have h2 : 2 * (n / 2) = n := by omega
    refine ⟨(pairLevel mk s (vec.take (2 * (n / 2)))).2 ++ vec.drop (n / 2), ?_, ?_, ?_⟩
    · simp only [levelPass, hfor, Option.some_bind, carryOdd, hpar]
      simp only [h2]
      rfl
    · rw [h2] at hreslen
      rw [h2, show (n + 1) / 2 = n / 2 by omega, List.take_append_of_le_length (by omega)]
      rw [List.take_of_length_le (by omega)]
    · rw [h2] at hreslen
      simp only [List.length_append, List.length_drop, h2, hreslen]
      omega
  · -- odd level: the last element is carried to slot n / 2
    have h2 : n = 2 * (n / 2) + 1 := by omega
    have hk : n / 2 < vec.length := by omega
    have h2k : 2 * (n / 2) < vec.length := by omega
    have hget : ((pairLevel mk s (vec.take (2 * (n / 2)))).2 ++ vec.drop (n / 2))[n - 1]? =
        some vec[2 * (n / 2)] := by
      rw [List.getElem?_append_right (by omega), List.getElem?_drop, hreslen]
      rw [show n / 2 + (n - 1 - n / 2) = 2 * (n / 2) by omega, List.getElem?_eq_getElem h2k]
    have hset : ((pairLevel mk s (vec.take (2 * (n / 2)))).2 ++ vec.drop (n / 2)).set
        ((n + 1) / 2 - 1) vec[2 * (n / 2)] =
        ((pairLevel mk s (vec.take (2 * (n / 2)))).2 ++ [vec[2 * (n / 2)]]) ++
          vec.drop (n / 2 + 1) := by
      rw [show (n + 1) / 2 - 1 = n / 2 by omega, List.set_append_right _ _ (by omega), hreslen,
        Nat.sub_self, List.drop_eq_getElem_cons hk]
      simp [List.set]
    have htake : vec.take n = vec.take (2 * (n / 2)) ++ [vec[2 * (n / 2)]] := by
      conv_lhs => rw [h2]
      rw [List.take_succ, List.getElem?_eq_getElem h2k]
      rfl
    have hlen2 : (vec.take (2 * (n / 2))).length = 2 * (n / 2) := by
      rw [List.length_take]; omega
    have hpl := pairLevel_append_even mk [vec[2 * (n / 2)]] (n / 2) s _ hlen2
    refine ⟨((pairLevel mk s (vec.take (2 * (n / 2)))).2 ++ [vec[2 * (n / 2)]]) ++
      vec.drop (n / 2 + 1), ?_, ?_, ?_⟩
    · simp only [levelPass, hfor, Option.some_bind, carryOdd, hpar, if_true, hget]
      rw [if_pos (by simp only [List.length_append, List.length_drop, hreslen]; omega), hset]
      rw [htake, hpl]
      simp [pairLevel]
    · rw [htake, hpl]
      simp only [pairLevel]
      rw [List.take_append_of_le_length (by simp [hreslen]; omega)]
      rw [List.take_of_length_le (by simp [hreslen]; omega)]
    · simp only [List.length_append, List.length_drop, hreslen, List.length_singleton]
      omega


theorem reduceLevels_succ_of_length_ne_one (mk : S → V → V → V × S) (fuel : Nat) (s : S)
    (l : List V) (h : l.length ≠ 1) :
    reduceLevels mk (fuel + 1) s l =
      reduceLevels mk fuel (pairLevel mk s l).1 (pairLevel mk s l).2 := by
  match l, h with
  | [], _ => rfl
  | [x], h => simp at h
  | x :: y :: rest, _ => rfl

theorem whileLoop_eq_reduceLevels (mk : S → V → V → V × S) :
    ∀ (fuel n : Nat) (s : S) (vec : List V), n ≤ vec.length →
      ((whileLoop mk fuel n (s, vec)).bind fun p => p.2[0]?.map fun root => (p.1, root)) =
        reduceLevels mk fuel s (vec.take n) := by
  intro fuel
  induction fuel with
  | zero => intro n s vec _; rfl
  | succ fuel ih =>
    intro n s vec hn
    by_cases h1 : n = 1
    · subst h1
      match vec, hn with
      | x :: rest, _ => simp [whileLoop, reduceLevels]
    · obtain ⟨vec1, hpass, htake, hlen⟩ := levelPass_spec mk n s vec hn
      rw [reduceLevels_succ_of_length_ne_one mk fuel s _ (by rw [List.length_take]; omega)]
      rw [← htake, ← ih ((n + 1) / 2) _ vec1 (by omega)]
      simp only [whileLoop, h1, if_false, hpass, Option.some_bind]

theorem buildTree_eq_reduceLevels (mk : S → V → V → V × S) (fuel : Nat) (s : S)
    (LoadInsts : List V) :
    buildTree mk fuel s LoadInsts = reduceLevels mk fuel s LoadInsts := by
  have h := whileLoop_eq_reduceLevels mk fuel LoadInsts.length s LoadInsts le_rfl
  rw [List.take_length] at h
  exact h

theorem reduceLevels_induct (mk : S → V → V → V × S) (Inv : S → List V → Prop)
    (hstep : ∀ s l, 2 ≤ l.length → Inv s l → Inv (pairLevel mk s l).1 (pairLevel mk s l).2) :
    ∀ (fuel : Nat) (s : S) (l : List V), l ≠ [] → Nat.clog 2 l.length < fuel → Inv s l →
      ∃ s1 v, reduceLevels mk fuel s l = some (s1, v) ∧ Inv s1 [v] := by
  intro fuel
  induction fuel with
  | zero => intro s l _ h; omega
  | succ fuel ih =>
    intro s l hne hfuel hinv
    match l, hne with
    | [x], _ => exact ⟨s, x, rfl, hinv⟩
    | x :: y :: rest, _ =>
      have hlen : 2 ≤ (x :: y :: rest).length := by simp
      rw [reduceLevels_succ_of_length_ne_one mk fuel s _ (by simp)]
      have hl := pairLevel_length mk _ s (x :: y :: rest) le_rfl
      have hclog := Nat.clog_of_two_le (b := 2) (by omega) hlen
      apply ih
      · intro h0
        rw [h0] at hl
        simp at hl
        omega
      · rw [hl]
        simp only [Nat.reduceAdd, Nat.add_one_sub_one] at hclog
        omega
      · exact hstep s _ hlen hinv

theorem reduceLevels_fuel_le (mk : S → V → V → V × S) :
    ∀ (fuel : Nat) (s : S) (l : List V), fuel ≤ Nat.clog 2 l.length →
      reduceLevels mk fuel s l = none := by
  intro fuel
  induction fuel with
  | zero => intro s l _; rfl
  | succ fuel ih =>
    intro s l hfuel
    match l, hfuel with
    | [], h => simp at h
    | [x], h => simp at h
    | x :: y :: rest, h =>
      have hlen : 2 ≤ (x :: y :: rest).length := by simp
      rw [reduceLevels_succ_of_length_ne_one mk fuel s _ (by simp)]
      have hl := pairLevel_length mk _ s (x :: y :: rest) le_rfl
      have hclog := Nat.clog_of_two_le (b := 2) (by omega) hlen
      apply ih
      rw [hl]
      simp only [Nat.reduceAdd, Nat.add_one_sub_one] at hclog
      omega


theorem foldl_pairLevel {β : Type} (mk : S → V → V → V × S) (den : V → β) (OP : β → β → β)
    (hassoc : ∀ a b c, OP (OP a b) c = OP a (OP b c))
    (hmk : ∀ s x y, den (mk s x y).1 = OP (den x) (den y)) :
    ∀ (n : Nat) (s : S) (l : List V) (a : β), l.length ≤ n →
      ((pairLevel mk s l).2.map den).foldl OP a = (l.map den).foldl OP a
  | _, _, [], _, _ => rfl
  | _, _, [_], _, _ => rfl
  | 0, _, _ :: _ :: _, _, h => by simp at h
  | n + 1, s, x :: y :: rest, a, h => by
    have ih := foldl_pairLevel mk den OP hassoc hmk n (mk s x y).2 rest (OP a (OP (den x) (den y)))
      (by simp at h; omega)
    rw [pairLevel_cons_cons]
    simp only [List.map_cons, List.foldl_cons, hmk, ih, hassoc]

theorem depth_pairLevel (mk : S → V → V → V × S) (d : V → Nat)
    (hmk : ∀ s x y, d (mk s x y).1 = max (d x) (d y) + 1) (k : Nat) :
    ∀ (n : Nat) (s : S) (l : List V), l.length ≤ n → (∀ v ∈ l, d v ≤ k) →
      ∀ v ∈ (pairLevel mk s l).2, d v ≤ k + 1
  | _, _, [], _, _ => by simp [pairLevel]
  | _, _, [x], _, hk => by
    intro v hv
    simp only [pairLevel, List.mem_singleton] at hv
    have := hk x (by simp)
    subst hv
    omega
  | 0, _, _ :: _ :: _, h, _ => by simp at h
  | n + 1, s, x :: y :: rest, h, hk => by
    have ih := depth_pairLevel mk d hmk k n (mk s x y).2 rest (by simp at h; omega)
      (fun v hv => hk v (by simp [hv]))
    intro v hv
    rw [pairLevel_cons_cons] at hv
    simp only [List.mem_cons] at hv
    rcases hv with hv | hv
    · have hx := hk x (by simp)
      have hy := hk y (by simp)
      rw [hv, hmk]
      omega
    · exact ih v hv

/-! ## The builder: claims C7, C2 and C3 -/

/-- C7 (level pairing with odd-count carry). For every level of `n` values (`n ≥ 2` included)
held in the first `n` slots of `lastInstVec`, one pass of the in-place loop returns, leaves in the first
`ceil(n/2)` slots exactly the result of the pure level function `pairLevel` on the original
values (consecutive pairs combined from the left, an unpaired last value kept unchanged) with
the same final state, and after any number `i ≤ n/2` of iterations of the inner loop all slots
from `i` on, among them the slots `2*i` and `2*i+1` read next, still hold their original
values. -/
theorem levelPass_refines_pairLevel (mk : S → V → V → V × S) (n : Nat) (s : S) (vec : List V)
    (hn : n ≤ vec.length) :
    ∃ vec1, levelPass mk n (s, vec) = some ((pairLevel mk s (vec.take n)).1, vec1) ∧
      vec1.take ((n + 1) / 2) = (pairLevel mk s (vec.take n)).2 ∧
      ∀ i, i ≤ n / 2 → ∃ p, forLoop mk i 0 (s, vec) = some p ∧ p.2.drop i = vec.drop i := by
  obtain ⟨vec1, hpass, htake, _⟩ := levelPass_spec mk n s vec hn
  refine ⟨vec1, hpass, htake, ?_⟩
  intro i hi
  have hfor := forLoop_spec mk vec i 0 s [] rfl (by omega)
  simp only [List.drop_zero, Nat.mul_zero, List.nil_append, Nat.zero_add] at hfor
  refine ⟨_, hfor, ?_⟩
  have hreslen : (pairLevel mk s (vec.take (2 * i))).2.length = i := by
    rw [pairLevel_length mk _ s _ le_rfl, List.length_take]
    omega
  rw [List.drop_append_of_le_length (by omega), List.drop_of_length_le (by omega)]
  rfl

/-- The witness of C7: the five leaves `[L0,L1,L2,L3,L4]` give `[L0+L1, L2+L3, L4]`, then
`[(L0+L1)+(L2+L3), L4]`, then the root `((L0+L1)+(L2+L3))+L4`. -/
theorem levelPass_refines_pairLevel_witness :
    5 ≤ ([0, 1, 2, 3, 4].map Tree.leaf : List (Tree Nat)).length ∧
    (∃ vec1, levelPass mkNode 5 ((), [0, 1, 2, 3, 4].map Tree.leaf) =
        some ((pairLevel mkNode () (([0, 1, 2, 3, 4].map Tree.leaf).take 5)).1, vec1) ∧
      vec1.take ((5 + 1) / 2) = (pairLevel mkNode () (([0, 1, 2, 3, 4].map Tree.leaf).take 5)).2 ∧
      ∀ i, i ≤ 5 / 2 → ∃ p, forLoop mkNode i 0 ((), [0, 1, 2, 3, 4].map Tree.leaf) = some p ∧
        p.2.drop i = ([0, 1, 2, 3, 4].map Tree.leaf).drop i) ∧
    (pairLevel mkNode () ([0, 1, 2, 3, 4].map Tree.leaf)).2 =
      [.node (.leaf 0) (.leaf 1), .node (.leaf 2) (.leaf 3), .leaf 4] ∧
    (pairLevel mkNode () [.node (.leaf 0) (.leaf 1), .node (.leaf 2) (.leaf 3), .leaf 4]).2 =
      [.node (.node (.leaf 0) (.leaf 1)) (.node (.leaf 2) (.leaf 3)), .leaf (4 : Nat)] ∧
    buildTree mkNode 4 () ([0, 1, 2, 3, 4].map Tree.leaf) =
      some ((), .node (.node (.node (.leaf 0) (.leaf 1)) (.node (.leaf 2) (.leaf 3))) (.leaf 4)) :=
  ⟨by decide,
    levelPass_refines_pairLevel mkNode 5 () ([0, 1, 2, 3, 4].map Tree.leaf) (by decide),
    by decide, by decide, by decide⟩

/-- C2 (the builder equals the ordered fold). For every non-empty leaf list `v0 :: rest`, every
associative operation `OP` (commutativity is not assumed) and every reading `den` of values
under which a created value denotes `OP` of its two operands, the pairing loop returns once the
fuel exceeds `ceil(log2 N)`, and the value left in `lastInstVec[0]` denotes `OP` folded over
the leaves from left to right. -/
theorem buildTree_eq_foldl {β : Type} (mk : S → V → V → V × S) (den : V → β) (OP : β → β → β)
    (hassoc : ∀ a b c, OP (OP a b) c = OP a (OP b c))
    (hmk : ∀ s x y, den (mk s x y).1 = OP (den x) (den y))
    (s : S) (v0 : V) (rest : List V) (fuel : Nat)
    (hfuel : Nat.clog 2 (rest.length + 1) < fuel) :
    ∃ s1 root, buildTree mk fuel s (v0 :: rest) = some (s1, root) ∧
      den root = (rest.map den).foldl OP (den v0) := by
  rw [buildTree_eq_reduceLevels]
  have key := reduceLevels_induct mk
    (fun _ l => ∃ x r, l = x :: r ∧
      (r.map den).foldl OP (den x) = (rest.map den).foldl OP (den v0))
    (by
      rintro s l hlen ⟨x, r, rfl, hx⟩
      match r, hlen, hx with
      | y :: r2, _, hx =>
        refine ⟨(mk s x y).1, (pairLevel mk (mk s x y).2 r2).2, rfl, ?_⟩
        rw [foldl_pairLevel mk den OP hassoc hmk _ _ r2 _ le_rfl, hmk]
        exact hx)
    fuel s (v0 :: rest) (by simp) (by simpa using hfuel) ⟨v0, rest, rfl, rfl⟩
  obtain ⟨s1, v, hres, x, r, hxr, hfold⟩ := key
  refine ⟨s1, v, hres, ?_⟩
  simp only [List.cons.injEq] at hxr
  obtain ⟨rfl, rfl⟩ := hxr
  simpa using hfold

/-- The witness of C2: list concatenation is associative and not commutative; the tree built
over five leaves reads them back in their order. -/
theorem buildTree_eq_foldl_witness :
    ∃ s1 root, buildTree mkNode 4 () (Tree.leaf 0 :: [1, 2, 3, 4].map Tree.leaf) = some (s1, root) ∧
      Tree.leaves root =
        (([1, 2, 3, 4].map Tree.leaf).map Tree.leaves).foldl (· ++ ·) (Tree.leaves (Tree.leaf 0)) :=
  buildTree_eq_foldl mkNode Tree.leaves (· ++ ·) List.append_assoc (fun _ _ _ => rfl) ()
    (Tree.leaf 0) ([1, 2, 3, 4].map Tree.leaf) 4 (by simp [Nat.clog])

/-- C3 (depth of the built tree). For every leaf list of size `N ≥ 3` and every depth measure
that is `0` on the leaves and, on a created value, one more than the deeper of its two
operands, the pairing loop needs exactly `ceil(log2 N)` passes (it has no result with that much
fuel and returns with any more) and the root it returns has depth exactly `ceil(log2 N)`. -/
theorem buildTree_depth (mk : S → V → V → V × S) (d : V → Nat)
    (hmk : ∀ s x y, d (mk s x y).1 = max (d x) (d y) + 1)
    (s : S) (leaves : List V) (hleaf : ∀ v ∈ leaves, d v = 0) (h3 : 3 ≤ leaves.length) :
    buildTree mk (Nat.clog 2 leaves.length) s leaves = none ∧
    ∀ fuel, Nat.clog 2 leaves.length < fuel →
      ∃ s1 root, buildTree mk fuel s leaves = some (s1, root) ∧
        d root = Nat.clog 2 leaves.length := by
  refine ⟨?_, ?_⟩
  · rw [buildTree_eq_reduceLevels]
    exact reduceLevels_fuel_le mk _ s leaves le_rfl
  intro fuel hfuel
  rw [buildTree_eq_reduceLevels]
  have hne : leaves ≠ [] := by
    intro h
    rw [h] at h3
    simp at h3
  have key := reduceLevels_induct mk
    (fun _ l => ∃ x r k, l = x :: r ∧ d x = k ∧ (∀ v ∈ l, d v ≤ k) ∧
      k + Nat.clog 2 l.length = Nat.clog 2 leaves.length)
    (by
      rintro s l hlen ⟨x, r, k, rfl, hx, hall, hk⟩
      match r, hlen, hall, hk with
      | y :: r2, hlen, hall, hk =>
        refine ⟨(mk s x y).1, (pairLevel mk (mk s x y).2 r2).2, k + 1, rfl, ?_, ?_, ?_⟩
        · have hy := hall y (by simp)
          rw [hmk]
          omega
        · exact depth_pairLevel mk d hmk k _ s (x :: y :: r2) le_rfl hall
        · have hl := pairLevel_length mk _ s (x :: y :: r2) le_rfl
          have hclog := Nat.clog_of_two_le (b := 2) (by omega) hlen
          simp only [Nat.reduceAdd, Nat.add_one_sub_one] at hclog
          rw [hl]
          omega)
    fuel s leaves hne hfuel
    (by
      match leaves, hne, hleaf with
      | x :: r, _, hleaf =>
        refine ⟨x, r, 0, rfl, hleaf x (by simp), ?_, by simp⟩
        intro v hv
        rw [hleaf v hv])
  obtain ⟨s1, v, hres, x, r, k, hxr, hx, _, hk⟩ := key
  refine ⟨s1, v, hres, ?_⟩
  simp only [List.cons.injEq] at hxr
  obtain ⟨rfl, rfl⟩ := hxr
  simp only [List.length_singleton, Nat.clog_one_right, Nat.add_zero] at hk
  omega

/-- The witness of C3: the tree over five leaves has depth `3 = ceil(log2 5)`. -/
theorem buildTree_depth_witness :
    buildTree mkNode (Nat.clog 2 ([0, 1, 2, 3, 4].map Tree.leaf : List (Tree Nat)).length) ()
        ([0, 1, 2, 3, 4].map Tree.leaf) = none ∧
    ∀ fuel, Nat.clog 2 ([0, 1, 2, 3, 4].map Tree.leaf : List (Tree Nat)).length < fuel →
      ∃ s1 root, buildTree mkNode fuel () ([0, 1, 2, 3, 4].map Tree.leaf) = some (s1, root) ∧
        Tree.depth root = Nat.clog 2 ([0, 1, 2, 3, 4].map Tree.leaf : List (Tree Nat)).length :=
  buildTree_depth mkNode Tree.depth (fun _ _ _ => rfl) () ([0, 1, 2, 3, 4].map Tree.leaf)
    (by simp [Tree.depth]) (by decide)

end BuilderLemmas

theorem ChainTree.leaves_not_chain {st : State} {op : BinOp} {v : Value} {T : Tree Value}
    (h : ChainTree st op v T) : ∀ x ∈ T.leaves, dynCastBinOp st op x = none := by
  induction h with
  | leaf x hx =>
    intro y hy
    simp only [Tree.leaves, List.mem_singleton] at hy
    rw [hy]
    exact hx
  | node x a b ta tb _ _ _ iha ihb =>
    intro y hy
    simp only [Tree.leaves, List.mem_append] at hy
    rcases hy with hy | hy
    · exact iha y hy
    · exact ihb y hy

theorem recursiveGetOperand_chainTree {st : State} {op : BinOp} {v : Value} {T : Tree Value}
    (h : ChainTree st op v T) :
    (dynCastBinOp st op v).isSome → ∀ (fuel : Nat) (acc : List Value × List Value),
      T.depth ≤ fuel →
      recursiveGetOperand op st fuel v acc =
        some (acc.1 ++ T.leaves.filter (fun x => !isLoadInst st x),
          acc.2 ++ T.leaves.filter (isLoadInst st)) := by
  induction h with
  | leaf x hx => intro hsome; rw [hx] at hsome; simp at hsome
  | node x a b ta tb hx ha hb iha ihb =>
    intro _ fuel acc hfuel
    match fuel, hfuel with
    | f + 1, hfuel =>
      simp only [Tree.depth] at hfuel
      have hfa : ta.depth ≤ f := by omega
      have hfb : tb.depth ≤ f := by omega
      have visit : ∀ (y : Value) (ty : Tree Value), ChainTree st op y ty →
          ((dynCastBinOp st op y).isSome → ∀ (fuel : Nat) (acc : List Value × List Value),
            ty.depth ≤ fuel → recursiveGetOperand op st fuel y acc =
              some (acc.1 ++ ty.leaves.filter (fun x => !isLoadInst st x),
                acc.2 ++ ty.leaves.filter (isLoadInst st))) →
          ty.depth ≤ f → ∀ acc : List Value × List Value,
          (if (dynCastBinOp st op y).isSome then recursiveGetOperand op st f y acc
            else some (pushLeaf st y acc)) =
            some (acc.1 ++ ty.leaves.filter (fun x => !isLoadInst st x),
              acc.2 ++ ty.leaves.filter (isLoadInst st)) := by
        intro y ty hy ih hdep acc
        by_cases hs : (dynCastBinOp st op y).isSome
        · rw [if_pos hs]
          exact ih hs f acc hdep
        · rw [if_neg hs]
          cases hy with
          | leaf _ _ =>
            by_cases hl : isLoadInst st y <;> simp [pushLeaf, Tree.leaves, hl]
          | node _ a2 b2 _ _ h2 _ _ => rw [h2] at hs; simp at hs
      rw [recursiveGetOperand]
      simp only [hx]
      rw [visit a ta ha iha hfa acc]
      simp only [Option.some_bind]
      rw [visit b tb hb ihb hfb]
      simp [Tree.leaves, List.filter_append]

/-- C6 (flattener classification and coverage). Let `v` be an instruction of opcode `op`
(Add for `recursiveGetAddOperand`, Mul for `recursiveGetMulOperand`) and `T` its maximal
same-opcode operand tree. With fuel for the depth of `T` the flattener returns; it has appended
to `LoadInsts` exactly the leaves of `T` that are loads and to `nonLoadInsts` exactly the other
leaves of `T`, each bucket in depth-first left-to-right order behind what it held before; no
leaf is an instruction of opcode `op`; and an operand of `v` that is not an instruction of
opcode `op` is itself among the appended values. -/
theorem recursiveGetOperand_classifies (st : State) (op : BinOp) (v op0 op1 : Value)
    (T : Tree Value) (hv : dynCastBinOp st op v = some (op0, op1)) (hT : ChainTree st op v T)
    (fuel : Nat) (hfuel : T.depth ≤ fuel) (acc : List Value × List Value) :
    recursiveGetOperand op st fuel v acc =
        some (acc.1 ++ T.leaves.filter (fun x => !isLoadInst st x),
          acc.2 ++ T.leaves.filter (isLoadInst st)) ∧
      (∀ x ∈ T.leaves, dynCastBinOp st op x = none) ∧
      (∀ x, (x = op0 ∨ x = op1) → dynCastBinOp st op x = none → x ∈ T.leaves) := by
  refine ⟨recursiveGetOperand_chainTree hT (by simp [hv]) fuel acc hfuel, hT.leaves_not_chain, ?_⟩
  intro x hx hnone
  cases hT with
  | leaf _ h => rw [hv] at h; simp at h
  | node _ a b ta tb h ha hb =>
    rw [hv] at h
    simp only [Option.some.injEq, Prod.mk.injEq] at h
    obtain ⟨rfl, rfl⟩ := h
    simp only [Tree.leaves, List.mem_append]
    rcases hx with rfl | rfl
    · left
      cases ha with
      | leaf _ _ => simp [Tree.leaves]
      | node _ _ _ _ _ h2 _ _ => rw [hnone] at h2; simp at h2
    · right
      cases hb with
      | leaf _ _ => simp [Tree.leaves]
      | node _ _ _ _ _ h2 _ _ => rw [hnone] at h2; simp at h2


/-- The witness of C6: in `((load0 + mul2) + 5) + load1` the loads are collected in order, the
multiplication and the constant are collected as non-load leaves, and the multiplication is not
looked into. -/
theorem recursiveGetOperand_classifies_witness :
    recursiveGetAddOperand exampleMixedChain 3 (.inst 5) ([], []) =
        some ([.inst 2, .constInt 32 5], [.inst 0, .inst 1]) ∧
      (∀ x ∈ [Value.inst 0, .inst 2, .constInt 32 5, .inst 1],
        dynCastBinOp exampleMixedChain .Add x = none) := by
  have h := recursiveGetOperand_classifies exampleMixedChain .Add (.inst 5) (.inst 4) (.inst 1)
    (.node (.node (.node (.leaf (.inst 0)) (.leaf (.inst 2))) (.leaf (.constInt 32 5)))
      (.leaf (.inst 1)))
    (by decide)
    (.node _ (.inst 4) (.inst 1) _ _ (by decide)
      (.node _ (.inst 3) (.constInt 32 5) _ _ (by decide)
        (.node _ (.inst 0) (.inst 2) _ _ (by decide) (.leaf _ (by decide)) (.leaf _ (by decide)))
        (.leaf _ (by decide)))
      (.leaf _ (by decide)))
    3 (by decide) ([], [])
  exact ⟨h.1.trans (by decide), h.2.1⟩

theorem mergeLoop_foldl (op : BinOp) :
    ∀ (nonLoadInsts : List Value) (m : MergeState),
      (nonLoadInsts.foldl (mergeStep op) m).hasConst =
          (m.hasConst || nonLoadInsts.any isConstantInt) ∧
        (nonLoadInsts.foldl (mergeStep op) m).LoadInsts =
          m.LoadInsts ++ nonLoadInsts.filter (fun x => !isConstantInt x) ∧
        (nonLoadInsts.foldl (mergeStep op) m).constIntTot % 2 ^ 64 =
          (match op with
            | .Add => (m.constIntTot + (constVals nonLoadInsts).sum) % 2 ^ 64
            | .Mul => (m.constIntTot * (constVals nonLoadInsts).prod) % 2 ^ 64) ∧
        (m.constIntTot < 2 ^ 64 → (nonLoadInsts.foldl (mergeStep op) m).constIntTot < 2 ^ 64) := by
  intro l
  induction l with
  | nil => intro m; cases op <;> simp [constVals]
  | cons x rest ih =>
    intro m
    obtain ⟨h1, h2, h3, h4⟩ := ih (mergeStep op m x)
    rw [List.foldl_cons]
    cases x with
    | constInt bits val =>
      refine ⟨?_, ?_, ?_, ?_⟩
      · rw [h1]; simp [mergeStep, isConstantInt]
      · rw [h2]; simp [mergeStep, isConstantInt]
      · rw [h3]
        cases op with
        | Add =>
          simp only [mergeStep, accumulate, getRawData, constVals, List.sum_cons]
          omega
        | Mul =>
          simp only [mergeStep, accumulate, getRawData, constVals, List.prod_cons]
          rw [Nat.mul_mod, Nat.mod_mod, Nat.mul_mod m.constIntTot, Nat.mod_mod,
            ← Nat.mul_mod m.constIntTot, ← Nat.mul_mod, Nat.mul_assoc]
      · intro _
        apply h4
        cases op <;> simp only [mergeStep, accumulate] <;> exact Nat.mod_lt _ (by norm_num)
    | inst id =>
      refine ⟨?_, ?_, ?_, ?_⟩
      · rw [h1]; simp [mergeStep, isConstantInt]
      · rw [h2]; simp [mergeStep, isConstantInt]
      · rw [h3]; cases op <;> simp [mergeStep, constVals]
      · intro hm; exact h4 (by simpa [mergeStep] using hm)
    | arg n =>
      refine ⟨?_, ?_, ?_, ?_⟩
      · rw [h1]; simp [mergeStep, isConstantInt]
      · rw [h2]; simp [mergeStep, isConstantInt]
      · rw [h3]; cases op <;> simp [mergeStep, constVals]
      · intro hm; exact h4 (by simpa [mergeStep] using hm)

theorem mergeLoop_spec (op : BinOp) (nonLoadInsts LoadInsts : List Value) :
    (mergeLoop op nonLoadInsts LoadInsts).constIntTot =
        foldedConstant op (constVals nonLoadInsts) ∧
      (mergeLoop op nonLoadInsts LoadInsts).hasConst = nonLoadInsts.any isConstantInt ∧
      (mergeLoop op nonLoadInsts LoadInsts).LoadInsts =
        LoadInsts ++ nonLoadInsts.filter (fun x => !isConstantInt x) := by
  obtain ⟨h1, h2, h3, h4⟩ := mergeLoop_foldl op nonLoadInsts ⟨constInit op, false, LoadInsts⟩
  refine ⟨?_, by simpa using h1, h2⟩
  have hlt : (mergeLoop op nonLoadInsts LoadInsts).constIntTot < 2 ^ 64 :=
    h4 (by cases op <;> simp [constInit])
  rw [← Nat.mod_eq_of_lt hlt]
  show (nonLoadInsts.foldl (mergeStep op) ⟨constInit op, false, LoadInsts⟩).constIntTot % 2 ^ 64 = _
  rw [h3]
  cases op <;> simp [constInit, foldedConstant]

theorem mergeLeaves_eq (op : BinOp) (ty : Nat) (nonLoadInsts LoadInsts : List Value) :
    mergeLeaves op ty nonLoadInsts LoadInsts =
      (LoadInsts ++ nonLoadInsts.filter (fun x => !isConstantInt x)) ++
        (if nonLoadInsts.any isConstantInt then
          [ConstantInt.get ty (foldedConstant op (constVals nonLoadInsts))]
        else []) := by
  obtain ⟨h1, h2, h3⟩ := mergeLoop_spec op nonLoadInsts LoadInsts
  simp only [mergeLeaves, h1, h2, h3]
  split <;> simp

/-- C5 (value of the folded constant). For every pair of buckets the accumulator `constIntTot`
ends as the sum (Add chain, starting from `0`) or the product (Mul chain, starting from `1`) of
all constant leaves modulo `2 ^ 64`; `hasConst` tells whether there is a constant leaf; with a
constant leaf exactly one element is pushed behind the non-constant leaves, the constant
`ConstantInt::get` makes of that value at the type of the root, and without one nothing is
pushed. -/
theorem mergeLeaves_folded_constant (op : BinOp) (ty : Nat) (nonLoadInsts LoadInsts : List Value) :
    (mergeLoop op nonLoadInsts LoadInsts).constIntTot =
        foldedConstant op (constVals nonLoadInsts) ∧
      (mergeLoop .Add nonLoadInsts LoadInsts).constIntTot = (constVals nonLoadInsts).sum % 2 ^ 64 ∧
      (mergeLoop .Mul nonLoadInsts LoadInsts).constIntTot =
        (constVals nonLoadInsts).prod % 2 ^ 64 ∧
      (mergeLoop op nonLoadInsts LoadInsts).hasConst = nonLoadInsts.any isConstantInt ∧
      mergeLeaves op ty nonLoadInsts LoadInsts =
        (LoadInsts ++ nonLoadInsts.filter (fun x => !isConstantInt x)) ++
          (if nonLoadInsts.any isConstantInt then
            [ConstantInt.get ty (foldedConstant op (constVals nonLoadInsts))]
          else []) := by
  exact ⟨(mergeLoop_spec op nonLoadInsts LoadInsts).1,
    (mergeLoop_spec .Add nonLoadInsts LoadInsts).1,
    (mergeLoop_spec .Mul nonLoadInsts LoadInsts).1,
    (mergeLoop_spec op nonLoadInsts LoadInsts).2.1,
    mergeLeaves_eq op ty nonLoadInsts LoadInsts⟩


theorem isConstantInt_of_isLoadInst (st : State) (x : Value) (h : isLoadInst st x = true) :
    isConstantInt x = false := by
  cases x <;> simp_all [isLoadInst, isConstantInt]

theorem constVals_filter (p : Value → Bool) (hp : ∀ x, isConstantInt x = true → p x = true) :
    ∀ l : List Value, constVals (l.filter p) = constVals l ∧
      (l.filter p).any isConstantInt = l.any isConstantInt := by
  intro l
  induction l with
  | nil => simp
  | cons x rest ih =>
    cases x with
    | constInt bits val =>
      have := hp (.constInt bits val) rfl
      simp [List.filter_cons, this, constVals, ih.1, isConstantInt]
    | inst id =>
      by_cases h : p (.inst id) <;> simp [List.filter_cons, h, constVals, ih.1, ih.2, isConstantInt]
    | arg n =>
      by_cases h : p (.arg n) <;> simp [List.filter_cons, h, constVals, ih.1, ih.2, isConstantInt]

theorem Tree.leaves_length_pos {α : Type} (t : Tree α) : 1 ≤ t.leaves.length := by
  induction t with
  | leaf a => simp [Tree.leaves]
  | node l r ihl _ => simp only [Tree.leaves, List.length_append]; omega

theorem ChainTree.leaves_length_of_isSome {st : State} {op : BinOp} {v : Value}
    {T : Tree Value} (h : ChainTree st op v T) (hs : (dynCastBinOp st op v).isSome) :
    2 ≤ T.leaves.length := by
  cases h with
  | leaf _ hx => rw [hx] at hs; simp at hs
  | node _ a b ta tb _ _ _ =>
    have := ta.leaves_length_pos
    have := tb.leaves_length_pos
    simp only [Tree.leaves, List.length_append]
    omega

theorem ChainTree.three_leaves {st : State} {op : BinOp} {v op0 op1 : Value} {T : Tree Value}
    (h : ChainTree st op v T) (hv : dynCastBinOp st op v = some (op0, op1))
    (hguard : (dynCastBinOp st op op0).isSome ∨ (dynCastBinOp st op op1).isSome) :
    3 ≤ T.leaves.length := by
  cases h with
  | leaf _ hx => rw [hx] at hv; simp at hv
  | node _ a b ta tb hx ha hb =>
    rw [hv] at hx
    simp only [Option.some.injEq, Prod.mk.injEq] at hx
    obtain ⟨rfl, rfl⟩ := hx
    have h1 := ta.leaves_length_pos
    have h2 := tb.leaves_length_pos
    simp only [Tree.leaves, List.length_append]
    rcases hguard with hg | hg
    · have := ha.leaves_length_of_isSome hg
      omega
    · have := hb.leaves_length_of_isSome hg
      omega

theorem getInst?_of_dynCastBinOp {st : State} {op : BinOp} {R : Nat} {op0 op1 : Value}
    (hv : dynCastBinOp st op (.inst R) = some (op0, op1)) :
    ∃ I, st.getInst? R = some I ∧ I.kind = .binop op op0 op1 := by
  unfold dynCastBinOp at hv
  simp only at hv
  split at hv
  · rename_i I hI
    split at hv
    · rename_i op2 a b hk
      split at hv
      · rename_i hop
        simp only [Option.some.injEq, Prod.mk.injEq] at hv
        obtain ⟨rfl, rfl⟩ := hv
        exact ⟨I, hI, by rw [hk, hop]⟩
      · simp at hv
    · simp at hv
  · simp at hv

theorem collectLeaves_eq {st : State} {op : BinOp} {R : Nat} {op0 op1 : Value} {T : Tree Value}
    {I : Instruction} (hI : st.getInst? R = some I)
    (hv : dynCastBinOp st op (.inst R) = some (op0, op1))
    (hguard : (dynCastBinOp st op op0).isSome ∨ (dynCastBinOp st op op1).isSome)
    (hT : ChainTree st op (.inst R) T) (fuel : Nat) (hfuel : T.depth ≤ fuel) :
    collectLeaves op fuel st R =
      some (some (mergeLeaves op I.ty (T.leaves.filter (fun x => !isLoadInst st x))
        (T.leaves.filter (isLoadInst st)))) := by
  obtain ⟨I2, hI2, hk⟩ := getInst?_of_dynCastBinOp hv
  rw [hI] at hI2
  simp only [Option.some.injEq] at hI2
  subst hI2
  have hflat := recursiveGetOperand_chainTree hT (by simp [hv]) fuel ([], []) hfuel
  have h3 := hT.three_leaves hv hguard
  have hsplit : (T.leaves.filter (isLoadInst st)).length +
      (T.leaves.filter (fun x => !isLoadInst st x)).length = T.leaves.length := by
    have := List.length_eq_length_filter_add (l := T.leaves) (isLoadInst st)
    omega
  have hg : (!((dynCastBinOp st op op0).isSome || (dynCastBinOp st op op1).isSome)) = false := by
    rcases hguard with hg | hg <;> simp [hg]
  simp only [collectLeaves, hI, hk, hg, hflat, List.nil_append, Option.some_bind]
  rw [if_neg (by simp), if_neg (by omega)]

theorem collectLeaves_shape (st : State) (op : BinOp) (R : Nat) (op0 op1 : Value)
    (T : Tree Value) (I : Instruction) (hI : st.getInst? R = some I)
    (hv : dynCastBinOp st op (.inst R) = some (op0, op1))
    (hguard : (dynCastBinOp st op op0).isSome ∨ (dynCastBinOp st op op1).isSome)
    (hT : ChainTree st op (.inst R) T) (fuel : Nat) (hfuel : T.depth ≤ fuel) :
    collectLeaves op fuel st R =
        some (some ((T.leaves.filter (isLoadInst st) ++
            T.leaves.filter (fun x => !isLoadInst st x && !isConstantInt x)) ++
          (if T.leaves.any isConstantInt then
            [ConstantInt.get I.ty (foldedConstant op (constVals T.leaves))]
          else []))) ∧
      ∀ x ∈ T.leaves.filter (isLoadInst st) ++
          T.leaves.filter (fun x => !isLoadInst st x && !isConstantInt x),
        isConstantInt x = false := by
  have hc := constVals_filter (fun x => !isLoadInst st x)
    (fun x hx => by
      cases hl : isLoadInst st x
      · simp [hl]
      · rw [isConstantInt_of_isLoadInst st x hl] at hx
        cases hx)
    T.leaves
  refine ⟨?_, ?_⟩
  · rw [collectLeaves_eq hI hv hguard hT fuel hfuel,
      mergeLeaves_eq op I.ty, hc.1, hc.2, List.filter_filter]
    simp only [Bool.and_comm]
  · intro x hx
    simp only [List.mem_append, List.mem_filter, Bool.and_eq_true, Bool.not_eq_true'] at hx
    rcases hx with ⟨_, hx⟩ | ⟨_, _, hx⟩
    · exact isConstantInt_of_isLoadInst st x hx
    · exact hx


/-- C4 (final leaf order). For every chain root `R` of opcode `op` that passes the operand
guard, with maximal same-opcode operand tree `T`, the leaf list handed to the builder is
exactly the load leaves of `T` in depth-first left-to-right order, then the leaves that are
neither loads nor integer constants in that order, then the single folded constant, present
if and only if `T` has an integer-constant leaf; no element before the folded constant is an
integer constant. -/
theorem collectLeaves_order (st : State) (op : BinOp) (R : Nat) (op0 op1 : Value)
    (T : Tree Value) (I : Instruction) (hI : st.getInst? R = some I)
    (hv : dynCastBinOp st op (.inst R) = some (op0, op1))
    (hguard : (dynCastBinOp st op op0).isSome ∨ (dynCastBinOp st op op1).isSome)
    (hT : ChainTree st op (.inst R) T) (fuel : Nat) (hfuel : T.depth ≤ fuel) :
    collectLeaves op fuel st R =
        some (some ((T.leaves.filter (isLoadInst st) ++
            T.leaves.filter (fun x => !isLoadInst st x && !isConstantInt x)) ++
          (if T.leaves.any isConstantInt then
            [ConstantInt.get I.ty (foldedConstant op (constVals T.leaves))]
          else []))) ∧
      ∀ x ∈ T.leaves.filter (isLoadInst st) ++
          T.leaves.filter (fun x => !isLoadInst st x && !isConstantInt x),
        isConstantInt x = false :=
  collectLeaves_shape st op R op0 op1 T I hI hv hguard hT fuel hfuel

/-- The witness of C4: the leaves `[load_a, 3, load_b, 4, load_c]` under Add give the list
`[load_a, load_b, load_c, 7]` and the tree `(load_a + load_b) + (load_c + 7)`. -/
theorem collectLeaves_order_witness :
    collectLeaves .Add 4 exampleConstChain 6 =
        some (some [.inst 0, .inst 1, .inst 2, .constInt 32 7]) ∧
      (buildStage .Add 4 exampleConstChain 6).map (fun r => (r.1, r.2.2)) =
        some ([.inst 0, .inst 1, .inst 2, .constInt 32 7], .inst 12) ∧
      (buildStage .Add 4 exampleConstChain 6).map
          (fun r => (r.2.1.getInst? 10, r.2.1.getInst? 11, r.2.1.getInst? 12)) =
        some (some ⟨10, 32, .binop .Add (.inst 0) (.inst 1)⟩,
          some ⟨11, 32, .binop .Add (.inst 2) (.constInt 32 7)⟩,
          some ⟨12, 32, .binop .Add (.inst 10) (.inst 11)⟩) := by
  have h := collectLeaves_order exampleConstChain .Add 6 (.inst 5) (.inst 2)
    (.node (.node (.node (.node (.leaf (.inst 0)) (.leaf (.constInt 32 3))) (.leaf (.inst 1)))
      (.leaf (.constInt 32 4))) (.leaf (.inst 2)))
    ⟨6, 32, .binop .Add (.inst 5) (.inst 2)⟩ (by decide) (by decide) (Or.inl (by decide))
    (.node _ (.inst 5) (.inst 2) _ _ (by decide)
      (.node _ (.inst 4) (.constInt 32 4) _ _ (by decide)
        (.node _ (.inst 3) (.inst 1) _ _ (by decide)
          (.node _ (.inst 0) (.constInt 32 3) _ _ (by decide)
            (.leaf _ (by decide)) (.leaf _ (by decide)))
          (.leaf _ (by decide)))
        (.leaf _ (by decide)))
      (.leaf _ (by decide)))
    4 (by decide)
  exact ⟨h.1.trans (by decide), by decide, by decide⟩

/-! ## Semantic equivalence of the rewrite: claim C1 -/


section SemanticsLemmas

variable (w : Nat) (env : Value → Nat)

theorem opZ_assoc (op : BinOp) (x y z : ZMod (2 ^ w)) :
    opZ w op (opZ w op x y) z = opZ w op x (opZ w op y z) := by
  cases op <;> simp only [opZ] <;> ring

theorem opZ_comm (op : BinOp) (x y : ZMod (2 ^ w)) : opZ w op x y = opZ w op y x := by
  cases op <;> simp only [opZ] <;> ring

theorem opZ_unit_left (op : BinOp) (x : ZMod (2 ^ w)) : opZ w op (unitZ w op) x = x := by
  cases op <;> simp [opZ, unitZ]

theorem opZ_unit_right (op : BinOp) (x : ZMod (2 ^ w)) : opZ w op x (unitZ w op) = x := by
  cases op <;> simp [opZ, unitZ]

theorem combineZ_nil (op : BinOp) : combineZ w env op [] = unitZ w op := rfl

theorem combineZ_cons (op : BinOp) (v : Value) (l : List Value) :
    combineZ w env op (v :: l) = opZ w op (den w env v) (combineZ w env op l) := rfl

theorem combineZ_append (op : BinOp) (l1 l2 : List Value) :
    combineZ w env op (l1 ++ l2) = opZ w op (combineZ w env op l1) (combineZ w env op l2) := by
  induction l1 with
  | nil => rw [List.nil_append, combineZ_nil, opZ_unit_left]
  | cons v l ih => rw [List.cons_append, combineZ_cons, ih, combineZ_cons, opZ_assoc]

theorem combineZ_singleton (op : BinOp) (v : Value) :
    combineZ w env op [v] = den w env v := by
  rw [combineZ_cons, combineZ_nil, opZ_unit_right]

theorem combineZ_filter (op : BinOp) (p : Value → Bool) (l : List Value) :
    opZ w op (combineZ w env op (l.filter p)) (combineZ w env op (l.filter fun x => !p x)) =
      combineZ w env op l := by
  induction l with
  | nil => simp [combineZ_nil, opZ_unit_left]
  | cons v l ih =>
    by_cases h : p v
    · simp only [List.filter_cons, h, if_true, Bool.not_true, Bool.false_eq_true, if_false,
        combineZ_cons]
      rw [opZ_assoc, ih]
    · simp only [List.filter_cons, h, if_false, Bool.not_false, if_true, combineZ_cons,
        Bool.false_eq_true]
      rw [← ih, ← opZ_assoc, ← opZ_assoc, opZ_comm w op (combineZ w env op (l.filter p))]

theorem den_evalOp (op : BinOp) (x y : Nat) :
    ((evalOp w op x y : Nat) : ZMod (2 ^ w)) = opZ w op (x : ZMod (2 ^ w)) (y : ZMod (2 ^ w)) := by
  cases op <;> simp [evalOp, opZ, ZMod.natCast_mod]

theorem den_constInt (bits val : Nat) : den w env (.constInt bits val) = (val : ZMod (2 ^ w)) := by
  simp [den, valueOf, ZMod.natCast_mod]

theorem natCast_mod_pow_of_le {k : Nat} (hk : w ≤ k) (x : Nat) :
    ((x % 2 ^ k : Nat) : ZMod (2 ^ w)) = (x : ZMod (2 ^ w)) := by
  rw [ZMod.natCast_eq_natCast_iff]
  exact (Nat.mod_modEq x (2 ^ k)).of_dvd (pow_dvd_pow 2 hk)

theorem mem_insts_of_getInst? {st : State} {id : Nat} {I : Instruction}
    (h : st.getInst? id = some I) : I ∈ st.insts ∧ I.id = id := by
  unfold State.getInst? at h
  exact ⟨List.mem_of_find?_eq_some h, by simpa using List.find?_some h⟩

theorem den_of_dynCastBinOp {st : State} {op : BinOp} {v a b : Value}
    (hsat : Sat w env st) (hv : dynCastBinOp st op v = some (a, b)) :
    den w env v = opZ w op (den w env a) (den w env b) := by
  cases v with
  | inst id =>
    obtain ⟨I, hI, hk⟩ := getInst?_of_dynCastBinOp hv
    obtain ⟨hmem, hid⟩ := mem_insts_of_getInst? hI
    have := hsat I hmem
    simp only [InstHolds, hk, hid] at this
    simp only [den, valueOf, this, den_evalOp]
  | constInt bits val => simp [dynCastBinOp] at hv
  | arg n => simp [dynCastBinOp] at hv

theorem ChainTree.den_eq {st : State} {op : BinOp} {v : Value} {T : Tree Value}
    (h : ChainTree st op v T) (hsat : Sat w env st) :
    den w env v = combineZ w env op T.leaves := by
  induction h with
  | leaf x _ => simp only [Tree.leaves, combineZ_singleton]
  | node x a b ta tb hx _ _ iha ihb =>
    rw [den_of_dynCastBinOp w env hsat hx, iha, ihb]
    simp only [Tree.leaves, combineZ_append]

end SemanticsLemmas

theorem exists_chainTree_of_recursiveGetOperand (st : State) (op : BinOp) :
    ∀ (fuel : Nat) (v : Value) (acc acc1 : List Value × List Value),
      recursiveGetOperand op st fuel v acc = some acc1 → (dynCastBinOp st op v).isSome →
      ∃ T, ChainTree st op v T ∧ T.depth ≤ fuel := by
  intro fuel
  induction fuel with
  | zero => intro v acc acc1 h; simp [recursiveGetOperand] at h
  | succ f ih =>
    intro v acc acc1 h hs
    obtain ⟨⟨a, b⟩, hv⟩ := Option.isSome_iff_exists.mp hs
    have visit : ∀ (y : Value) (acc acc1 : List Value × List Value),
        (if (dynCastBinOp st op y).isSome then recursiveGetOperand op st f y acc
          else some (pushLeaf st y acc)) = some acc1 →
        ∃ T, ChainTree st op y T ∧ T.depth ≤ f := by
      intro y acc acc1 hy
      by_cases hys : (dynCastBinOp st op y).isSome
      · rw [if_pos hys] at hy
        exact ih y acc acc1 hy hys
      · refine ⟨.leaf y, .leaf y ?_, by simp [Tree.depth]⟩
        simpa using hys
    rw [recursiveGetOperand] at h
    simp only [hv] at h
    obtain ⟨acc2, h1, h2⟩ := Option.bind_eq_some.mp h
    obtain ⟨ta, hta, hda⟩ := visit a acc acc2 h1
    obtain ⟨tb, htb, hdb⟩ := visit b acc2 acc1 h2
    refine ⟨.node ta tb, .node v a b ta tb hv hta htb, ?_⟩
    simp only [Tree.depth]
    omega


section MergeSemantics

variable (w : Nat) (env : Value → Nat)

theorem combineZ_filter_const (op : BinOp) :
    ∀ l : List Value, combineZ w env op (l.filter isConstantInt) =
      (constVals l).foldr (fun (v : Nat) (acc : ZMod (2 ^ w)) => opZ w op (v : ZMod (2 ^ w)) acc) (unitZ w op) := by
  intro l
  induction l with
  | nil => rfl
  | cons x rest ih =>
    cases x with
    | constInt bits val =>
      simp only [List.filter_cons, isConstantInt, if_true, combineZ_cons, constVals,
        List.foldr_cons, ih, den_constInt]
    | inst id => simpa [List.filter_cons, isConstantInt, constVals] using ih
    | arg n => simpa [List.filter_cons, isConstantInt, constVals] using ih

theorem natCast_foldedConstant (hw : w ≤ 64) (op : BinOp) (vals : List Nat) :
    ((foldedConstant op vals : Nat) : ZMod (2 ^ w)) =
      vals.foldr (fun (v : Nat) (acc : ZMod (2 ^ w)) => opZ w op (v : ZMod (2 ^ w)) acc) (unitZ w op) := by
  cases op with
  | Add =>
    simp only [foldedConstant, natCast_mod_pow_of_le w hw]
    induction vals with
    | nil => simp [unitZ]
    | cons v rest ih => simp only [List.sum_cons, Nat.cast_add, ih, List.foldr_cons, opZ]
  | Mul =>
    simp only [foldedConstant, natCast_mod_pow_of_le w hw]
    induction vals with
    | nil => simp [unitZ]
    | cons v rest ih => simp only [List.prod_cons, Nat.cast_mul, ih, List.foldr_cons, opZ]

theorem constVals_eq_nil_of_any_false :
    ∀ l : List Value, l.any isConstantInt = false → constVals l = [] := by
  intro l
  induction l with
  | nil => intro _; rfl
  | cons x rest ih =>
    intro h
    cases x with
    | constInt bits val => simp [isConstantInt] at h
    | inst id => simpa [constVals] using ih (by simpa [isConstantInt] using h)
    | arg n => simpa [constVals] using ih (by simpa [isConstantInt] using h)

theorem combineZ_mergeLeaves (hw : w ≤ 64) (op : BinOp) (nonLoadInsts LoadInsts : List Value) :
    combineZ w env op (mergeLeaves op w nonLoadInsts LoadInsts) =
      opZ w op (combineZ w env op LoadInsts) (combineZ w env op nonLoadInsts) := by
  rw [mergeLeaves_eq op w nonLoadInsts LoadInsts]
  have hconst : combineZ w env op
      (if nonLoadInsts.any isConstantInt then
        [ConstantInt.get w (foldedConstant op (constVals nonLoadInsts))] else []) =
      combineZ w env op (nonLoadInsts.filter isConstantInt) := by
    rw [combineZ_filter_const]
    by_cases h : nonLoadInsts.any isConstantInt
    · rw [if_pos h, combineZ_singleton, ConstantInt.get, den_constInt, ZMod.natCast_mod,
        natCast_foldedConstant w hw]
    · rw [if_neg h, constVals_eq_nil_of_any_false _ (by simpa using h)]
      rfl
  rw [combineZ_append, combineZ_append, hconst, opZ_assoc,
    opZ_comm w op (combineZ w env op (nonLoadInsts.filter fun x => !isConstantInt x)),
    combineZ_filter]

end MergeSemantics


theorem mem_insertBeforeInBlock_of_mem (before : Nat) (newI : Instruction) :
    ∀ (B : List Instruction) (J : Instruction), J ∈ B → J ∈ insertBeforeInBlock before newI B := by
  intro B
  induction B with
  | nil => intro J h; simp at h
  | cons K rest ih =>
    intro J h
    rw [insertBeforeInBlock]
    split
    · exact List.mem_cons_of_mem _ h
    · rcases List.mem_cons.mp h with h | h
      · rw [h]; exact List.mem_cons_self _ _
      · exact List.mem_cons_of_mem _ (ih J h)

theorem new_mem_insertBeforeInBlock (before : Nat) (newI : Instruction) :
    ∀ B : List Instruction, (∃ K ∈ B, K.id = before) → newI ∈ insertBeforeInBlock before newI B := by
  intro B
  induction B with
  | nil => rintro ⟨K, h, _⟩; simp at h
  | cons K rest ih =>
    rintro ⟨K2, h, hid⟩
    rw [insertBeforeInBlock]
    split
    · exact List.mem_cons_self _ _
    · rename_i hne
      rcases List.mem_cons.mp h with h | h
      · rw [h] at hid; exact absurd hid hne
      · exact List.mem_cons_of_mem _ (ih ⟨K2, h, hid⟩)

theorem createAndRecord_spec (op : BinOp) (R : Nat) (st : State) (x y : Value)
    (hxy : (isConstantInt x && isConstantInt y) = false) (hR : HasInst st R) :
    isConstantInt (createAndRecord op R st x y).1 = false ∧
      (∀ J ∈ st.insts, J ∈ (createAndRecord op R st x y).2.insts) ∧
      HasInst (createAndRecord op R st x y).2 R ∧
      ∀ (w : Nat) (env : Value → Nat), Sat w env (createAndRecord op R st x y).2 →
        den w env (createAndRecord op R st x y).1 = opZ w op (den w env x) (den w env y) := by
  have hval : (createAndRecord op R st x y).1 = .inst st.nextId := by
    cases x <;> cases y <;> simp_all [createAndRecord, CreateBinOp, isConstantInt]
  have hinsts : (createAndRecord op R st x y).2.insts =
      (st.blocks.map
        (insertBeforeInBlock R ⟨st.nextId, typeOf st x, .binop op x y⟩)).flatten := by
    cases x <;> cases y <;> simp_all [createAndRecord, CreateBinOp, isConstantInt, State.insts]
  have hmono : ∀ J ∈ st.insts, J ∈ (createAndRecord op R st x y).2.insts := by
    intro J hJ
    rw [hinsts]
    simp only [State.insts, List.mem_flatten, List.mem_map] at hJ ⊢
    obtain ⟨B, hB, hJB⟩ := hJ
    exact ⟨_, ⟨B, hB, rfl⟩, mem_insertBeforeInBlock_of_mem _ _ B J hJB⟩
  have hnew : (⟨st.nextId, typeOf st x, .binop op x y⟩ : Instruction) ∈
      (createAndRecord op R st x y).2.insts := by
    rw [hinsts]
    obtain ⟨K, hK, hid⟩ := hR
    simp only [State.insts, List.mem_flatten, List.mem_map] at hK ⊢
    obtain ⟨B, hB, hKB⟩ := hK
    exact ⟨_, ⟨B, hB, rfl⟩, new_mem_insertBeforeInBlock _ _ B ⟨K, hKB, hid⟩⟩
  refine ⟨by rw [hval]; rfl, hmono, ?_, ?_⟩
  · obtain ⟨K, hK, hid⟩ := hR
    exact ⟨K, hmono K hK, hid⟩
  · intro w env hsat
    have := hsat _ hnew
    simp only [InstHolds] at this
    rw [hval]
    simp only [den, valueOf, this, den_evalOp]

theorem pairLevel_createAndRecord (op : BinOp) (R : Nat) :
    ∀ (n : Nat) (st : State) (l : List Value), l.length ≤ n → HasInst st R → numConst l ≤ 1 →
      (∀ J ∈ st.insts, J ∈ (pairLevel (createAndRecord op R) st l).1.insts) ∧
        HasInst (pairLevel (createAndRecord op R) st l).1 R ∧
        numConst (pairLevel (createAndRecord op R) st l).2 ≤ numConst l ∧
        ∀ (w : Nat) (env : Value → Nat), Sat w env (pairLevel (createAndRecord op R) st l).1 →
          combineZ w env op (pairLevel (createAndRecord op R) st l).2 = combineZ w env op l
  | _, st, [], _, hR, _ => ⟨fun _ h => h, hR, le_rfl, fun _ _ _ => rfl⟩
  | _, st, [x], _, hR, _ => ⟨fun _ h => h, hR, le_rfl, fun _ _ _ => rfl⟩
  | 0, _, _ :: _ :: _, h, _, _ => by simp at h
  | n + 1, st, x :: y :: rest, h, hR, hc => by
    have hxy : (isConstantInt x && isConstantInt y) = false := by
      cases hx : isConstantInt x <;> cases hy : isConstantInt y <;>
        simp_all [numConst, List.filter_cons]
    have hrest : numConst rest ≤ numConst (x :: y :: rest) := by
      simp only [numConst, List.filter_cons]
      split <;> split <;> (try simp only [List.length_cons]) <;> omega
    obtain ⟨c1, c2, c3, c4⟩ := createAndRecord_spec op R st x y hxy hR
    obtain ⟨i1, i2, i3, i4⟩ := pairLevel_createAndRecord op R n (createAndRecord op R st x y).2
      rest (by simp at h; omega) c3 (by omega)
    rw [pairLevel_cons_cons]
    refine ⟨fun J hJ => i1 J (c2 J hJ), i2, ?_, ?_⟩
    · have hnew : numConst ((createAndRecord op R st x y).1 ::
          (pairLevel (createAndRecord op R) (createAndRecord op R st x y).2 rest).2) =
          numConst (pairLevel (createAndRecord op R) (createAndRecord op R st x y).2 rest).2 := by
        simp only [numConst, List.filter_cons, c1, Bool.false_eq_true, if_false]
      rw [hnew]
      omega
    · intro w env hsat
      have hsat1 : Sat w env (createAndRecord op R st x y).2 := fun J hJ => hsat J (i1 J hJ)
      simp only [combineZ_cons, i4 w env hsat, c4 w env hsat1, opZ_assoc]

theorem reduceLevels_invariant {S V : Type} (mk : S → V → V → V × S) (Inv : S → List V → Prop)
    (hstep : ∀ s l, 2 ≤ l.length → Inv s l → Inv (pairLevel mk s l).1 (pairLevel mk s l).2) :
    ∀ (fuel : Nat) (s : S) (l : List V) (s1 : S) (v : V),
      reduceLevels mk fuel s l = some (s1, v) → Inv s l → Inv s1 [v] := by
  intro fuel
  induction fuel with
  | zero => intro s l s1 v h; simp [reduceLevels] at h
  | succ fuel ih =>
    intro s l s1 v h hinv
    match l, h, hinv with
    | [], h, hinv => exact ih s [] s1 v h hinv
    | [x], h, hinv =>
      simp only [reduceLevels, Option.some.injEq, Prod.mk.injEq] at h
      obtain ⟨rfl, rfl⟩ := h
      exact hinv
    | x :: y :: rest, h, hinv =>
      rw [reduceLevels_succ_of_length_ne_one mk fuel s _ (by simp)] at h
      exact ih _ _ s1 v h (hstep s _ (by simp) hinv)

theorem buildTree_createAndRecord (op : BinOp) (R : Nat) (fuel : Nat) (st st1 : State)
    (L : List Value) (V : Value) (hR : HasInst st R) (hc : numConst L ≤ 1)
    (h : buildTree (createAndRecord op R) fuel st L = some (st1, V)) :
    (∀ J ∈ st.insts, J ∈ st1.insts) ∧
      ∀ (w : Nat) (env : Value → Nat), Sat w env st1 →
        den w env V = combineZ w env op L := by
  rw [buildTree_eq_reduceLevels] at h
  have key := reduceLevels_invariant (createAndRecord op R)
    (fun s l => (∀ J ∈ st.insts, J ∈ s.insts) ∧ HasInst s R ∧ numConst l ≤ 1 ∧
      ∀ (w : Nat) (env : Value → Nat), Sat w env s → combineZ w env op l = combineZ w env op L)
    (by
      rintro s l _ ⟨h1, h2, h3, h4⟩
      obtain ⟨i1, i2, i3, i4⟩ := pairLevel_createAndRecord op R _ s l le_rfl h2 h3
      refine ⟨fun J hJ => i1 J (h1 J hJ), i2, by omega, ?_⟩
      intro w env hsat
      rw [i4 w env hsat]
      exact h4 w env (fun J hJ => hsat J (i1 J hJ)))
    fuel st L st1 V h ⟨fun _ hJ => hJ, hR, hc, fun _ _ _ => rfl⟩
  refine ⟨key.1, ?_⟩
  intro w env hsat
  rw [← key.2.2.2 w env hsat, combineZ_singleton]


theorem recursiveGetOperand_of_not_chain (st : State) (op : BinOp) (fuel : Nat) (v : Value)
    (acc acc1 : List Value × List Value) (hv : dynCastBinOp st op v = none)
    (h : recursiveGetOperand op st fuel v acc = some acc1) : acc1 = acc := by
  cases fuel with
  | zero => simp [recursiveGetOperand] at h
  | succ f =>
    rw [recursiveGetOperand] at h
    simp only [hv, Option.some.injEq] at h
    exact h.symm

theorem collectLeaves_some_inv {op : BinOp} {fuel : Nat} {st : State} {R : Nat}
    {L : List Value} (h : collectLeaves op fuel st R = some (some L)) :
    ∃ I op0 op1 T, st.getInst? R = some I ∧ dynCastBinOp st op (.inst R) = some (op0, op1) ∧
      ((dynCastBinOp st op op0).isSome ∨ (dynCastBinOp st op op1).isSome) ∧
      ChainTree st op (.inst R) T ∧ T.depth ≤ fuel ∧
      L = mergeLeaves op I.ty (T.leaves.filter (fun x => !isLoadInst st x))
        (T.leaves.filter (isLoadInst st)) := by
  unfold collectLeaves at h
  split at h
  · simp at h
  · rename_i I hI
    split at h
    · rename_i opk a b hk
      split at h
      · simp at h
      · rename_i hguard
        obtain ⟨leaves, hflat, hrest⟩ := Option.bind_eq_some.mp h
        simp only at hrest
        split at hrest
        · simp at hrest
        · rename_i hsize
          simp only [Option.some.injEq] at hrest
          have hsome : (dynCastBinOp st op (.inst R)).isSome := by
            by_contra hn
            have hnone : dynCastBinOp st op (.inst R) = none := by simpa using hn
            have := recursiveGetOperand_of_not_chain st op fuel _ _ _ hnone hflat
            rw [this] at hsize
            simp at hsize
          obtain ⟨⟨op0, op1⟩, hv⟩ := Option.isSome_iff_exists.mp hsome
          obtain ⟨T, hT, hdepth⟩ :=
            exists_chainTree_of_recursiveGetOperand st op fuel _ _ _ hflat hsome
          have hflat2 := recursiveGetOperand_chainTree hT hsome fuel ([], []) hdepth
          rw [hflat] at hflat2
          simp only [List.nil_append, Option.some.injEq] at hflat2
          obtain ⟨I2, hI2, hk2⟩ := getInst?_of_dynCastBinOp hv
          rw [hI] at hI2
          simp only [Option.some.injEq] at hI2
          subst hI2
          rw [hk] at hk2
          simp only [InstKind.binop.injEq] at hk2
          obtain ⟨_, rfl, rfl⟩ := hk2
          refine ⟨I, a, b, T, hI, hv, ?_, hT, hdepth, ?_⟩
          · cases ha : (dynCastBinOp st op a).isSome
            · cases hb : (dynCastBinOp st op b).isSome
              · simp [ha, hb] at hguard
              · exact Or.inr rfl
            · exact Or.inl rfl
          · rw [← hrest, hflat2]
    · simp at h

theorem tryReorderInt_true_inv {op : BinOp} {fuel : Nat} {st st2 : State} {R : Nat}
    (h : tryReorderInt op fuel st R = some (true, st2)) :
    ∃ L st1 V, buildStage op fuel st R = some (L, st1, V) ∧
      collectLeaves op fuel st R = some (some L) ∧
      buildTree (createAndRecord op R) fuel st L = some (st1, V) ∧
      replaceAndDelete fuel st1 R V = some (true, st2) := by
  unfold tryReorderInt at h
  split at h
  · simp at h
  · simp at h
  · rename_i L hL
    obtain ⟨⟨st1, V⟩, hb, hr⟩ := Option.bind_eq_some.mp h
    refine ⟨L, st1, V, ?_, hL, hb, hr⟩
    simp [buildStage, hL, hb]

/-- C1 (semantic equivalence of the whole rewrite). Let `tryReorderIntAdd` (`op = Add`) or
`tryReorderIntMul` (`op = Mul`) accept the root `R`, an instruction of a `w`-bit integer type
with `w ≤ 64`. Then the run reaches the state just before `replaceAllUsesWith` with a
replacement root `V`, and under every assignment of numbers to values in which each Add and Mul
instruction of that state (the old chain and the new tree) has the `w`-bit value computed from
its operands, the `w`-bit value of `V` equals the value of `R`. -/
theorem tryReorderInt_preserves_value (op : BinOp) (fuel : Nat) (st st2 : State) (R w : Nat)
    (hw : w ≤ 64) (hty : ∀ I, st.getInst? R = some I → I.ty = w)
    (h : tryReorderInt op fuel st R = some (true, st2)) :
    ∃ L st1 V, buildStage op fuel st R = some (L, st1, V) ∧
      replaceAndDelete fuel st1 R V = some (true, st2) ∧
      ∀ env : Value → Nat, Sat w env st1 → valueOf w env V % 2 ^ w = env (.inst R) := by
  obtain ⟨L, st1, V, hstage, hL, hb, hr⟩ := tryReorderInt_true_inv h
  refine ⟨L, st1, V, hstage, hr, ?_⟩
  obtain ⟨I, op0, op1, T, hI, hv, hguard, hT, hdepth, hLeq⟩ := collectLeaves_some_inv hL
  have hIty := hty I hI
  obtain ⟨hshape, hnc⟩ := collectLeaves_shape st op R op0 op1 T I hI hv hguard hT fuel hdepth
  rw [hL] at hshape
  simp only [Option.some.injEq] at hshape
  obtain ⟨hmem, hid⟩ := mem_insts_of_getInst? hI
  have hc : numConst L ≤ 1 := by
    rw [hshape, numConst, List.filter_append, List.length_append,
      List.filter_eq_nil_iff.mpr (fun x hx => by simp [hnc x hx])]
    split <;> simp [List.filter_cons, ConstantInt.get, isConstantInt]
  obtain ⟨hmono, hden⟩ := buildTree_createAndRecord op R fuel st st1 L V ⟨I, hmem, hid⟩ hc hb
  intro env hsat
  have hsat0 : Sat w env st := fun J hJ => hsat J (hmono J hJ)
  have hroot : den w env (.inst R) = den w env V := by
    rw [hden w env hsat, hLeq, hIty, combineZ_mergeLeaves w env hw, hT.den_eq w env hsat0,
      combineZ_filter w env op (isLoadInst st)]
  obtain ⟨I2, _, hk⟩ := getInst?_of_dynCastBinOp hv
  have hcanon : env (.inst R) < 2 ^ w := by
    have := hsat0 I hmem
    obtain ⟨I3, hI3, hk3⟩ := getInst?_of_dynCastBinOp hv
    rw [hI] at hI3
    simp only [Option.some.injEq] at hI3
    subst hI3
    simp only [InstHolds, hk3, hid] at this
    rw [this]
    cases op <;> exact Nat.mod_lt _ (by positivity)
  simp only [den, valueOf] at hroot
  have := (ZMod.natCast_eq_natCast_iff' _ _ _).mp hroot
  rw [Nat.mod_eq_of_lt hcanon] at this
  exact this.symm


/-- The witness of C1: the chain `(((load_a + 3) + load_b) + 4) + load_c` on 32-bit values is
accepted, and in a run with wraparound the new root `(load_a + load_b) + (load_c + 7)` has the
value `18` of the old root. -/
theorem tryReorderInt_preserves_value_witness :
    tryReorderIntAdd 10 exampleConstChain 6 = some (true, exampleConstChainAfter) ∧
      buildStage .Add 10 exampleConstChain 6 =
        some ([.inst 0, .inst 1, .inst 2, .constInt 32 7], exampleConstChainBuilt, .inst 12) ∧
      Sat 32 exampleEnv exampleConstChainBuilt ∧
      valueOf 32 exampleEnv (.inst 12) % 2 ^ 32 = exampleEnv (.inst 6) ∧
      exampleEnv (.inst 6) = 18 := by
  have hrun : tryReorderInt .Add 10 exampleConstChain 6 = some (true, exampleConstChainAfter) := by
    decide
  have hstage : buildStage .Add 10 exampleConstChain 6 =
      some ([.inst 0, .inst 1, .inst 2, .constInt 32 7], exampleConstChainBuilt, .inst 12) := by
    decide
  obtain ⟨L, st1, V, h1, _, h3⟩ :=
    tryReorderInt_preserves_value .Add 10 exampleConstChain exampleConstChainAfter 6 32
      (by decide)
      (fun I hI => by
        have h6 : exampleConstChain.getInst? 6 = some ⟨6, 32, .binop .Add (.inst 5) (.inst 2)⟩ := by
          decide
        rw [h6] at hI
        simp only [Option.some.injEq] at hI
        rw [← hI])
      hrun
  rw [hstage] at h1
  simp only [Option.some.injEq, Prod.mk.injEq] at h1
  obtain ⟨_, rfl, rfl⟩ := h1
  exact ⟨hrun, hstage, by decide, h3 exampleEnv (by decide), rfl⟩

/-! ## Rewrites that do not apply: claims C8 and C9 -/

theorem tryReorderInt_of_guard_fails (op opk : BinOp) (fuel : Nat) (st : State) (R : Nat)
    (I : Instruction) (op0 op1 : Value) (hI : st.getInst? R = some I)
    (hk : I.kind = .binop opk op0 op1) (h0 : dynCastBinOp st op op0 = none)
    (h1 : dynCastBinOp st op op1 = none) :
    tryReorderInt op fuel st R = some (false, st) := by
  simp [tryReorderInt, collectLeaves, hI, hk, h0, h1]

/-- C8 (no rewrite without a chain operand). For every Add instruction `R` neither of whose
two operands is an Add operator, `tryReorderIntAdd` returns `false`, and for every Mul
instruction neither of whose operands is a Mul operator so does `tryReorderIntMul`, with any
fuel; the state on return is the state on entry, so every block, every operand list (hence
every use-list) and `generatedI` are unchanged. -/
theorem tryReorderInt_no_chain_operand (op : BinOp) (fuel : Nat) (st : State) (R : Nat)
    (I : Instruction) (op0 op1 : Value) (hI : st.getInst? R = some I)
    (hk : I.kind = .binop op op0 op1) (h0 : dynCastBinOp st op op0 = none)
    (h1 : dynCastBinOp st op op1 = none) :
    tryReorderInt op fuel st R = some (false, st) ∧
      (op = .Add → tryReorderIntAdd fuel st R = some (false, st)) ∧
      (op = .Mul → tryReorderIntMul fuel st R = some (false, st)) := by
  have h := tryReorderInt_of_guard_fails op op fuel st R I op0 op1 hI hk h0 h1
  refine ⟨h, ?_, ?_⟩
  · intro hop
    subst hop
    exact h
  · intro hop
    subst hop
    exact h

/-- The witness of C8: `load_a + load_b` is left alone by `tryReorderIntAdd`. -/
theorem tryReorderInt_no_chain_operand_witness :
    tryReorderInt .Add 10 exampleTwoLeaves 2 = some (false, exampleTwoLeaves) ∧
      (BinOp.Add = .Add → tryReorderIntAdd 10 exampleTwoLeaves 2 = some (false, exampleTwoLeaves)) ∧
      (BinOp.Add = .Mul → tryReorderIntMul 10 exampleTwoLeaves 2 = some (false, exampleTwoLeaves)) :=
  tryReorderInt_no_chain_operand .Add 10 exampleTwoLeaves 2
    ⟨2, 32, .binop .Add (.inst 0) (.inst 1)⟩ (.inst 0) (.inst 1) (by decide) rfl (by decide)
    (by decide)

/-- The counterexample to C9 as stated: for the root of `(a + 3) + 4` the merged leaf list
after constant folding is `[a, 7]`, of fewer than 3 elements, and `tryReorderIntAdd` does not
return `false`: it returns `true`, has created the instruction `a + 7` and has deleted both
instructions of the chain. -/
theorem tryReorderInt_threshold_counterexample :
    collectLeaves .Add 10 exampleFoldToTwo 2 = some (some [.inst 0, .constInt 32 7]) ∧
      [Value.inst 0, Value.constInt 32 7].length < 3 ∧
      tryReorderIntAdd 10 exampleFoldToTwo 2 = some (true, exampleFoldToTwoAfter) ∧
      exampleFoldToTwo.getInst? 10 = none ∧
      exampleFoldToTwoAfter.getInst? 10 =
        some ⟨10, 32, .binop .Add (.inst 0) (.constInt 32 7)⟩ ∧
      exampleFoldToTwo.getInst? 1 = some ⟨1, 32, .binop .Add (.inst 0) (.constInt 32 3)⟩ ∧
      exampleFoldToTwoAfter.getInst? 1 = none ∧
      exampleFoldToTwoAfter.getInst? 2 = none := by
  decide

/-- C9 as amended (the threshold is applied to the leaf count before folding). For every root
for which the flattener returns fewer than 3 leaves in total, counted before the constants are
folded, `tryReorderIntAdd` / `tryReorderIntMul` returns `false` and the state on return is the
state on entry: no instruction is created and none is deleted. -/
theorem tryReorderInt_below_threshold (op opk : BinOp) (fuel : Nat) (st : State) (R : Nat)
    (I : Instruction) (op0 op1 : Value) (leaves : List Value × List Value)
    (hI : st.getInst? R = some I) (hk : I.kind = .binop opk op0 op1)
    (hflat : recursiveGetOperand op st fuel (.inst R) ([], []) = some leaves)
    (hsize : leaves.2.length + leaves.1.length < 3) :
    tryReorderInt op fuel st R = some (false, st) := by
  by_cases hg : (dynCastBinOp st op op0).isSome || (dynCastBinOp st op op1).isSome
  · simp [tryReorderInt, collectLeaves, hI, hk, hg, hflat, hsize]
  · simp only [Bool.or_eq_true, not_or, Bool.not_eq_true, Option.not_isSome,
      Option.isNone_iff_eq_none] at hg
    exact tryReorderInt_of_guard_fails op opk fuel st R I op0 op1 hI hk hg.1 hg.2

/-- The witness of the amended C9: `load_a * load_b` has two leaves before folding. -/
theorem tryReorderInt_below_threshold_witness :
    recursiveGetMulOperand exampleTwoFactors 10 (.inst 2) ([], []) =
        some ([], [.inst 0, .inst 1]) ∧
      tryReorderIntMul 10 exampleTwoFactors 2 = some (false, exampleTwoFactors) :=
  ⟨by decide,
    tryReorderInt_below_threshold .Mul .Mul 10 exampleTwoFactors 2
      ⟨2, 32, .binop .Mul (.inst 0) (.inst 1)⟩ (.inst 0) (.inst 1) ([], [.inst 0, .inst 1])
      (by decide) rfl (by decide) (by decide)⟩

/-! ## The changed signal: claim C10 -/

theorem runOnFunction_returns_false (fuel : Nat) (st : State) (r : Bool × State)
    (h : runOnFunction fuel st = some r) : r.1 = false := by
  unfold runOnFunction at h
  split at h
  · simp only [Option.some.injEq] at h
    rw [← h]
  · obtain ⟨st1, _, h2⟩ := Option.map_eq_some'.mp h
    rw [← h2]

/-- C10 at the failing input: on the function with the chain
`(((load_a + 3) + load_b) + 4) + load_c`, `tryReorderIntAdd` returns `true` for the root and
the block is rewritten, and `runOnFunction` returns `false`. -/
theorem runOnFunction_changed_not_reported :
    tryReorderIntAdd 10 exampleConstChain 6 = some (true, exampleConstChainAfter) ∧
      exampleConstChainAfter ≠ exampleConstChain ∧
      runOnFunction 10 exampleConstChain = some (false, exampleConstChainAfter) := by
  decide

/-! ## Depth reduction: claim C14 -/

theorem buildTree_depth_of_ne_nil {S V : Type} (mk : S → V → V → V × S) (d : V → Nat)
    (hmk : ∀ s x y, d (mk s x y).1 = max (d x) (d y) + 1)
    (s : S) (leaves : List V) (hleaf : ∀ v ∈ leaves, d v = 0) (hne : leaves ≠ [])
    (fuel : Nat) (hfuel : Nat.clog 2 leaves.length < fuel) :
    ∃ s1 root, buildTree mk fuel s leaves = some (s1, root) ∧
      d root = Nat.clog 2 leaves.length := by
  rw [buildTree_eq_reduceLevels]
  have key := reduceLevels_induct mk
    (fun _ l => ∃ x r k, l = x :: r ∧ d x = k ∧ (∀ v ∈ l, d v ≤ k) ∧
      k + Nat.clog 2 l.length = Nat.clog 2 leaves.length)
    (by
      rintro s l hlen ⟨x, r, k, rfl, hx, hall, hk⟩
      match r, hlen, hall, hk with
      | y :: r2, hlen, hall, hk =>
        refine ⟨(mk s x y).1, (pairLevel mk (mk s x y).2 r2).2, k + 1, rfl, ?_, ?_, ?_⟩
        · have hy := hall y (by simp)
          rw [hmk]
          omega
        · exact depth_pairLevel mk d hmk k _ s (x :: y :: r2) le_rfl hall
        · have hl := pairLevel_length mk _ s (x :: y :: r2) le_rfl
          have hclog := Nat.clog_of_two_le (b := 2) (by omega) hlen
          simp only [Nat.reduceAdd, Nat.add_one_sub_one] at hclog
          rw [hl]
          omega)
    fuel s leaves hne hfuel
    (by
      match leaves, hne, hleaf with
      | x :: r, _, hleaf =>
        refine ⟨x, r, 0, rfl, hleaf x (by simp), ?_, by simp⟩
        intro v hv
        rw [hleaf v hv])
  obtain ⟨s1, v, hres, x, r, k, hxr, hx, _, hk⟩ := key
  refine ⟨s1, v, hres, ?_⟩
  simp only [List.cons.injEq] at hxr
  obtain ⟨rfl, rfl⟩ := hxr
  simp only [List.length_singleton, Nat.clog_one_right, Nat.add_zero] at hk
  omega

theorem leftChain_depth {α : Type} (x : α) (rest : List α) :
    (leftChain x rest).depth = rest.length := by
  have h : ∀ (l : List α) (t : Tree α),
      (l.foldl (fun t a => Tree.node t (.leaf a)) t).depth = t.depth + l.length := by
    intro l
    induction l with
    | nil => intro t; rfl
    | cons a l ih =>
      intro t
      rw [List.foldl_cons, ih]
      simp only [Tree.depth, List.length_cons]
      omega
  rw [leftChain, h]
  simp [Tree.depth]

theorem clog_two_lt_pred (n : Nat) (h : 4 ≤ n) : Nat.clog 2 n < n - 1 := by
  have hpow : ∀ m : Nat, m + 4 ≤ 2 ^ (m + 2) := by
    intro m
    induction m with
    | zero => norm_num
    | succ k ih =>
      rw [show k + 1 + 2 = (k + 2) + 1 by ring, pow_succ]
      omega
  have h1 : Nat.clog 2 n ≤ n - 2 := by
    apply (Nat.le_pow_iff_clog_le (by norm_num)).mp
    have := hpow (n - 4)
    rw [show n - 4 + 4 = n by omega, show n - 4 + 2 = n - 2 by omega] at this
    exact this
  omega

/-- The counterexample to C14 as stated: over `N = 3` leaves the builder returns the tree
`(L0 + L1) + L2` of depth `2 = ceil(log2 3)`, which is the left-leaning chain itself and is not
less than `N - 1 = 2`. -/
theorem buildTree_depth_three_counterexample :
    buildTree mkNode 3 () ([0, 1, 2].map Tree.leaf) =
        some ((), .node (.node (.leaf 0) (.leaf 1)) (.leaf (2 : Nat))) ∧
      Tree.depth (.node (.node (.leaf 0) (.leaf 1)) (.leaf (2 : Nat))) = 2 ∧
      leftChain 0 [1, 2] = .node (.node (.leaf 0) (.leaf 1)) (.leaf (2 : Nat)) ∧
      Nat.clog 2 3 = 2 ∧
      ¬ (Tree.depth (.node (.node (.leaf 0) (.leaf 1)) (.leaf (2 : Nat))) < 3 - 1) := by
  refine ⟨by decide, by decide, by decide, by simp [Nat.clog], by decide⟩

/-- C14 as amended (strict depth reduction from four leaves on). For every list of `N ≥ 4`
leaves the tree the builder returns has depth `ceil(log2 N)`, the left-leaning chain over the
same leaves has depth `N - 1`, and the first is strictly less than the second. -/
theorem buildTree_depth_lt_chain {α : Type} (x : α) (rest : List α) (h4 : 4 ≤ (x :: rest).length)
    (fuel : Nat) (hfuel : Nat.clog 2 (x :: rest).length < fuel) :
    ∃ root, buildTree mkNode fuel () ((x :: rest).map Tree.leaf) = some ((), root) ∧
      root.depth = Nat.clog 2 (x :: rest).length ∧
      (leftChain x rest).depth = (x :: rest).length - 1 ∧
      root.depth < (leftChain x rest).depth := by
  obtain ⟨s1, root, hres, hd⟩ := buildTree_depth_of_ne_nil mkNode Tree.depth (fun _ _ _ => rfl) ()
    ((x :: rest).map Tree.leaf) (by simp [Tree.depth]) (by simp) fuel (by simpa using hfuel)
  have hl := leftChain_depth x rest
  have hc := clog_two_lt_pred (x :: rest).length h4
  simp only [List.length_map] at hd
  refine ⟨root, hres, hd, ?_, ?_⟩
  · rw [hl]; simp
  · rw [hl, hd]
    simp only [List.length_cons] at hc ⊢
    omega

/-- The witness of the amended C14: over four leaves the builder returns
`(L0 + L1) + (L2 + L3)` of depth `2`, the chain `((L0 + L1) + L2) + L3` has depth `3`. -/
theorem buildTree_depth_lt_chain_witness :
    (∃ root, buildTree mkNode 3 () (([0, 1, 2, 3] : List Nat).map Tree.leaf) = some ((), root) ∧
      root.depth = Nat.clog 2 ([0, 1, 2, 3] : List Nat).length ∧
      (leftChain 0 [1, 2, 3]).depth = ([0, 1, 2, 3] : List Nat).length - 1 ∧
      root.depth < (leftChain 0 [1, 2, 3]).depth) ∧
    buildTree mkNode 3 () (([0, 1, 2, 3] : List Nat).map Tree.leaf) =
      some ((), .node (.node (.leaf 0) (.leaf 1)) (.node (.leaf 2) (.leaf 3))) ∧
    leftChain 0 [1, 2, 3] = .node (.node (.node (.leaf 0) (.leaf 1)) (.leaf 2)) (.leaf (3 : Nat)) :=
  ⟨buildTree_depth_lt_chain 0 [1, 2, 3] (by decide) 3 (by simp [Nat.clog]), by decide, by decide⟩


/-! ## Folding at narrow widths: claim C18 -/

theorem narrowFold_eq (w : Nat) (op : BinOp) (vals : List Nat) :
    narrowFold w op vals =
      (match op with
        | .Add => vals.sum % 2 ^ w
        | .Mul => vals.prod % 2 ^ w) := by
  cases op with
  | Add =>
    have h : ∀ (l : List Nat) (a : Nat), a < 2 ^ w →
        l.foldl (fun acc v => evalOp w .Add acc v) a = (a + l.sum) % 2 ^ w := by
      intro l
      induction l with
      | nil => intro a ha; simp [Nat.mod_eq_of_lt ha]
      | cons v rest ih =>
        intro a _
        have hlt : evalOp w .Add a v < 2 ^ w := Nat.mod_lt _ (by positivity)
        rw [List.foldl_cons, ih _ hlt]
        simp only [evalOp, List.sum_cons, Nat.mod_add_mod, Nat.add_assoc]
    simp only [narrowFold, constInit]
    rw [h _ _ (Nat.mod_lt _ (by positivity))]
    simp
  | Mul =>
    have h : ∀ (l : List Nat) (a : Nat), a < 2 ^ w →
        l.foldl (fun acc v => evalOp w .Mul acc v) a = (a * l.prod) % 2 ^ w := by
      intro l
      induction l with
      | nil => intro a ha; simp [Nat.mod_eq_of_lt ha]
      | cons v rest ih =>
        intro a _
        have hlt : evalOp w .Mul a v < 2 ^ w := Nat.mod_lt _ (by positivity)
        rw [List.foldl_cons, ih _ hlt]
        simp only [evalOp, List.prod_cons]
        rw [Nat.mul_mod, Nat.mod_mod, ← Nat.mul_mod, Nat.mul_assoc]
    simp only [narrowFold, constInit]
    rw [h _ _ (Nat.mod_lt _ (by positivity)), Nat.mul_mod, Nat.mod_mod, ← Nat.mul_mod]
    simp

theorem foldedConstant_mod (w : Nat) (hw : w ≤ 64) (op : BinOp) (vals : List Nat) :
    foldedConstant op vals % 2 ^ w = narrowFold w op vals := by
  rw [narrowFold_eq]
  cases op <;>
    simp only [foldedConstant] <;>
    exact Nat.mod_mod_of_dvd _ (pow_dvd_pow 2 hw)

theorem materialised_eq_narrowFold (w : Nat) (hw : w ≤ 64) (op : BinOp)
    (nonLoadInsts LoadInsts : List Value) :
    ConstantInt.get w (mergeLoop op nonLoadInsts LoadInsts).constIntTot =
      .constInt w (narrowFold w op (constVals nonLoadInsts)) := by
  rw [(mergeLoop_spec op nonLoadInsts LoadInsts).1, ConstantInt.get, foldedConstant_mod w hw]

/-- The counterexample to C18 as stated: there is no bit width `w < 64`, no opcode and no list
of leaves for which the constant materialised at the chain's type (`ConstantInt::get` applied
to the 64-bit accumulator) differs from the constant holding the sum or product of the constant
leaves computed in `w`-bit wraparound arithmetic. -/
theorem narrow_folding_counterexample :
    ¬ ∃ (w : Nat) (op : BinOp) (nonLoadInsts LoadInsts : List Value), w < 64 ∧
      ConstantInt.get w (mergeLoop op nonLoadInsts LoadInsts).constIntTot ≠
        .constInt w (narrowFold w op (constVals nonLoadInsts)) := by
  rintro ⟨w, op, nl, ll, hw, hne⟩
  exact hne (materialised_eq_narrowFold w (by omega) op nl ll)

/-- C18 as amended (folding agrees with the chain's width up to 64 bits). For every bit width
`w ≤ 64`, both opcodes and all leaves, the constant the pass materialises at the chain's type
is the constant holding the sum or product of the constant leaves computed in `w`-bit
wraparound arithmetic; the two differ at the width `128`, where the accumulator sees only the
low 64-bit word of each constant: `2^64 + 2^64` is materialised as `0`. -/
theorem narrow_folding_agrees (w : Nat) (hw : w ≤ 64) (op : BinOp)
    (nonLoadInsts LoadInsts : List Value) :
    ConstantInt.get w (mergeLoop op nonLoadInsts LoadInsts).constIntTot =
        .constInt w (narrowFold w op (constVals nonLoadInsts)) ∧
      mergeLeaves .Add 128 [.constInt 128 (2 ^ 64), .constInt 128 (2 ^ 64)] [] =
        [.constInt 128 0] ∧
      narrowFold 128 .Add [2 ^ 64, 2 ^ 64] = 2 ^ 65 :=
  ⟨materialised_eq_narrowFold w hw op nonLoadInsts LoadInsts, by decide, by decide⟩

/-- The witness of the amended C18: the 8-bit constants `200` and `100` under Add are
materialised as `44 = 300 mod 256`, and under Mul as `32 = 20000 mod 256`. -/
theorem narrow_folding_agrees_witness :
    (ConstantInt.get 8 (mergeLoop .Add [.constInt 8 200, .arg 0, .constInt 8 100] []).constIntTot =
        .constInt 8 (narrowFold 8 .Add (constVals [.constInt 8 200, .arg 0, .constInt 8 100])) ∧
      mergeLeaves .Add 128 [.constInt 128 (2 ^ 64), .constInt 128 (2 ^ 64)] [] =
        [.constInt 128 0] ∧
      narrowFold 128 .Add [2 ^ 64, 2 ^ 64] = 2 ^ 65) ∧
    mergeLeaves .Add 8 [.constInt 8 200, .arg 0, .constInt 8 100] [] =
      [.arg 0, .constInt 8 44] ∧
    narrowFold 8 .Add [200, 100] = 44 ∧
    mergeLeaves .Mul 8 [.constInt 8 200, .arg 0, .constInt 8 100] [] =
      [.arg 0, .constInt 8 32] ∧
    narrowFold 8 .Mul [200, 100] = 32 :=
  ⟨narrow_folding_agrees 8 (by decide) .Add [.constInt 8 200, .arg 0, .constInt 8 100] [],
    by decide, by decide, by decide, by decide⟩

/-! ## Lookup, insertion, replacement and erasure on well-formed bodies -/

theorem find?_id_eq_some_iff {l : List Instruction} (hn : (l.map (fun I => I.id)).Nodup)
    (i : Nat) (I : Instruction) :
    l.find? (fun J => J.id == i) = some I ↔ I ∈ l ∧ I.id = i := by
  induction l with
  | nil => simp
  | cons K rest ih =>
    simp only [List.map_cons, List.nodup_cons, List.mem_map, not_exists, not_and] at hn
    rw [List.find?_cons]
    by_cases hK : K.id = i
    · simp only [hK, beq_self_eq_true, Option.some.injEq, List.mem_cons]
      constructor
      · intro h; exact ⟨Or.inl h.symm, h ▸ hK⟩
      · rintro ⟨h | h, hid⟩
        · exact h.symm
        · exact absurd (hid.trans hK.symm) (hn.1 I h)
    · have hb : (K.id == i) = false := by simpa using hK
      simp only [hb, List.mem_cons]
      rw [ih hn.2]
      constructor
      · rintro ⟨h, hid⟩; exact ⟨Or.inr h, hid⟩
      · rintro ⟨h | h, hid⟩
        · exact absurd (h ▸ hid) hK
        · exact ⟨h, hid⟩

theorem getInst?_eq_some_iff {st : State} (hn : st.ids.Nodup) (i : Nat) (I : Instruction) :
    st.getInst? i = some I ↔ I ∈ st.insts ∧ I.id = i :=
  find?_id_eq_some_iff hn i I

theorem getInst?_eq_none_iff (st : State) (i : Nat) :
    st.getInst? i = none ↔ ∀ I ∈ st.insts, I.id ≠ i := by
  simp [State.getInst?, List.find?_eq_none]

theorem getInst?_isSome_iff (st : State) (i : Nat) :
    (st.getInst? i).isSome ↔ ∃ I ∈ st.insts, I.id = i := by
  rw [← not_iff_not]
  simp only [Bool.not_eq_true, Option.not_isSome, Option.isNone_iff_eq_none, not_exists, not_and]
  exact getInst?_eq_none_iff st i

theorem mem_insertBeforeInBlock_iff (before : Nat) (newI : Instruction) :
    ∀ (B : List Instruction) (J : Instruction),
      J ∈ insertBeforeInBlock before newI B ↔ J ∈ B ∨ (J = newI ∧ ∃ K ∈ B, K.id = before) := by
  intro B
  induction B with
  | nil => intro J; simp [insertBeforeInBlock]
  | cons K rest ih =>
    intro J
    rw [insertBeforeInBlock]
    split
    · rename_i hK
      simp only [List.mem_cons]
      constructor
      · rintro (h | h | h)
        · exact Or.inr ⟨h, K, Or.inl rfl, hK⟩
        · exact Or.inl (Or.inl h)
        · exact Or.inl (Or.inr h)
      · rintro ((h | h) | ⟨h, _⟩)
        · exact Or.inr (Or.inl h)
        · exact Or.inr (Or.inr h)
        · exact Or.inl h
    · rename_i hK
      simp only [List.mem_cons, ih]
      constructor
      · rintro (h | h | ⟨h, K2, hK2, hid⟩)
        · exact Or.inl (Or.inl h)
        · exact Or.inl (Or.inr h)
        · exact Or.inr ⟨h, K2, Or.inr hK2, hid⟩
      · rintro ((h | h) | ⟨h, K2, hK2 | hK2, hid⟩)
        · exact Or.inl h
        · exact Or.inr (Or.inl h)
        · exact absurd (hK2 ▸ hid) hK
        · exact Or.inr (Or.inr ⟨h, K2, hK2, hid⟩)

theorem insertBeforeInBlock_of_not_mem (before : Nat) (newI : Instruction) :
    ∀ B : List Instruction, (∀ K ∈ B, K.id ≠ before) → insertBeforeInBlock before newI B = B := by
  intro B
  induction B with
  | nil => intro _; rfl
  | cons K rest ih =>
    intro h
    rw [insertBeforeInBlock, if_neg (h K (List.mem_cons_self _ _)),
      ih (fun K2 hK2 => h K2 (List.mem_cons_of_mem _ hK2))]

theorem insertBeforeInBlock_perm (before : Nat) (newI : Instruction) :
    ∀ B : List Instruction, (∃ K ∈ B, K.id = before) →
      (insertBeforeInBlock before newI B).Perm (newI :: B) := by
  intro B
  induction B with
  | nil => rintro ⟨K, h, _⟩; simp at h
  | cons K rest ih =>
    rintro ⟨K2, hK2, hid⟩
    rw [insertBeforeInBlock]
    split
    · exact List.Perm.refl _
    · rename_i hK
      rcases List.mem_cons.mp hK2 with h | h
      · exact absurd (h ▸ hid) hK
      · exact ((ih ⟨K2, h, hid⟩).cons K).trans (List.Perm.swap newI K rest)

theorem flatten_insert_perm (before : Nat) (newI : Instruction) :
    ∀ blocks : List (List Instruction),
      (blocks.flatten.map (fun I => I.id)).Nodup → (∃ K ∈ blocks.flatten, K.id = before) →
      ((blocks.map (insertBeforeInBlock before newI)).flatten).Perm (newI :: blocks.flatten) := by
  intro blocks
  induction blocks with
  | nil => rintro _ ⟨K, h, _⟩; simp at h
  | cons B rest ih =>
    intro hn hex
    simp only [List.flatten_cons, List.map_append, List.map_cons] at hn ⊢
    by_cases hB : ∃ K ∈ B, K.id = before
    · -- the block holds the instruction: no later block does
      have hrest : ∀ B2 ∈ rest, insertBeforeInBlock before newI B2 = B2 := by
        intro B2 hB2
        apply insertBeforeInBlock_of_not_mem
        intro K2 hK2 hid
        obtain ⟨K, hK, hKid⟩ := hB
        have hdis := (List.nodup_append.mp hn).2.2
        exact hdis (List.mem_map.mpr ⟨K, hK, hKid⟩)
          (List.mem_map.mpr ⟨K2, List.mem_flatten.mpr ⟨B2, hB2, hK2⟩, hid⟩)
      rw [List.map_congr_left hrest, List.map_id']
      exact (insertBeforeInBlock_perm before newI B hB).append_right _
    · have hB2 : ∀ K ∈ B, K.id ≠ before := fun K hK hid => hB ⟨K, hK, hid⟩
      rw [insertBeforeInBlock_of_not_mem before newI B hB2]
      have hex2 : ∃ K ∈ rest.flatten, K.id = before := by
        obtain ⟨K, hK, hid⟩ := hex
        simp only [List.flatten_cons, List.mem_append] at hK
        rcases hK with hK | hK
        · exact absurd hid (hB2 K hK)
        · exact ⟨K, hK, hid⟩
      exact ((ih (List.nodup_append.mp hn).2.1 hex2).append_left B).trans List.perm_middle


/-! ## The states the builder runs through -/

theorem createAndRecord_eq (op : BinOp) (R : Nat) (s : State) (x y : Value)
    (hxy : (isConstantInt x && isConstantInt y) = false) :
    createAndRecord op R s x y =
      (.inst s.nextId,
        { name := s.name
          blocks := s.blocks.map
            (insertBeforeInBlock R ⟨s.nextId, typeOf s x, .binop op x y⟩)
          generatedI := s.generatedI.insert (.inst s.nextId)
          nextId := s.nextId + 1 }) := by
  cases x <;> cases y <;> simp_all [createAndRecord, CreateBinOp, isConstantInt]

theorem forall₂_insertBeforeInBlock (R : Nat) (newI : Instruction) (lo : Nat)
    (hlo : lo ≤ newI.id) :
    ∀ blocks : List (List Instruction),
      List.Forall₂ (fun B B1 => (∀ I ∈ B, I ∈ B1) ∧ ∀ I ∈ B1, I ∈ B ∨ lo ≤ I.id) blocks
        (blocks.map (insertBeforeInBlock R newI)) := by
  intro blocks
  induction blocks with
  | nil => exact List.Forall₂.nil
  | cons B rest ih =>
    refine List.Forall₂.cons ⟨?_, ?_⟩ ih
    · intro I hI
      exact (mem_insertBeforeInBlock_iff R newI B I).mpr (Or.inl hI)
    · intro I hI
      rcases (mem_insertBeforeInBlock_iff R newI B I).mp hI with h | ⟨h, _⟩
      · exact Or.inl h
      · exact Or.inr (h ▸ hlo)

theorem forall₂_blocks_trans {lo : Nat} {b1 b2 b3 : List (List Instruction)}
    (h12 : List.Forall₂ (fun B B1 => (∀ I ∈ B, I ∈ B1) ∧ ∀ I ∈ B1, I ∈ B ∨ lo ≤ I.id) b1 b2)
    (h23 : List.Forall₂ (fun B B1 => (∀ I ∈ B, I ∈ B1) ∧ ∀ I ∈ B1, I ∈ B ∨ lo ≤ I.id) b2 b3) :
    List.Forall₂ (fun B B1 => (∀ I ∈ B, I ∈ B1) ∧ ∀ I ∈ B1, I ∈ B ∨ lo ≤ I.id) b1 b3 := by
  induction h12 generalizing b3 with
  | nil => cases h23; exact List.Forall₂.nil
  | cons hab _ ih =>
    cases h23 with
    | cons hbc hrest =>
      refine List.Forall₂.cons ⟨fun I hI => hbc.1 I (hab.1 I hI), ?_⟩ (ih hrest)
      intro I hI
      rcases hbc.2 I hI with h | h
      · exact hab.2 I h
      · exact Or.inr h

theorem Building.init (op : BinOp) (R : Nat) (st : State) (L : List Value) (hwf : WF st)
    (hR : HasInst st R) (hc : numConst L ≤ 1) : Building op R st L st L where
  wf := hwf
  hasR := hR
  name_eq := rfl
  nextId_le := le_rfl
  gen_iff := by
    intro v
    constructor
    · exact Or.inl
    · rintro (h | ⟨i, _, h1, h2⟩)
      · exact h
      · omega
  blocks_rel := by
    have : ∀ blocks : List (List Instruction), List.Forall₂
        (fun B B1 => (∀ I ∈ B, I ∈ B1) ∧ ∀ I ∈ B1, I ∈ B ∨ st.nextId ≤ I.id) blocks blocks := by
      intro blocks
      induction blocks with
      | nil => exact List.Forall₂.nil
      | cons B rest ih => exact List.Forall₂.cons ⟨fun _ h => h, fun _ h => Or.inl h⟩ ih
    exact this _
  count := by simp
  created := by
    intro I hI hlo
    have := hwf.fresh I hI
    omega
  created_ex := by intro i h1 h2; omega
  cur_ok := fun x hx => Or.inl hx
  cur_const := hc
  used := fun x hx => Or.inl hx


theorem numConst_append (a b : List Value) : numConst (a ++ b) = numConst a + numConst b := by
  simp [numConst, List.filter_append]

theorem numConst_cons (x : Value) (l : List Value) :
    numConst (x :: l) = (if isConstantInt x then 1 else 0) + numConst l := by
  simp only [numConst, List.filter_cons]
  split
  · simp only [List.length_cons]; omega
  · simp

theorem Building.step {op : BinOp} {R : Nat} {st : State} {L : List Value} {s : State}
    {out rest : List Value} {x y : Value}
    (h : Building op R st L s (out ++ x :: y :: rest))
    (hclosed : ∀ x ∈ L, ∀ j, x = .inst j → j < st.nextId) :
    Building op R st L (createAndRecord op R s x y).2
      (out ++ (createAndRecord op R s x y).1 :: rest) := by
  have hconst := h.cur_const
  rw [numConst_append, numConst_cons, numConst_cons] at hconst
  have hxy : (isConstantInt x && isConstantInt y) = false := by
    cases hx : isConstantInt x
    · rfl
    · cases hy : isConstantInt y
      · rfl
      · simp only [hx, hy, if_true] at hconst
        omega
  rw [createAndRecord_eq op R s x y hxy]
  have hperm := flatten_insert_perm R ⟨s.nextId, typeOf s x, .binop op x y⟩ s.blocks
    h.wf.nodup h.hasR
  have hmem : ∀ I : Instruction,
      I ∈ (s.blocks.map (insertBeforeInBlock R ⟨s.nextId, typeOf s x, .binop op x y⟩)).flatten ↔
        I = ⟨s.nextId, typeOf s x, .binop op x y⟩ ∨ I ∈ s.insts := by
    intro I
    rw [hperm.mem_iff, List.mem_cons]
    rfl
  have hx := h.cur_ok x (by simp)
  have hy := h.cur_ok y (by simp)
  have hlo := h.nextId_le
  have hbound : ∀ a, BuiltOperand st.nextId L a s.nextId → ∀ j, a = .inst j → j < s.nextId := by
    intro a ha j hj
    rcases ha with ha | ⟨j2, hj2, _, hlt⟩
    · have := hclosed a ha j hj
      omega
    · rw [hj] at hj2
      cases hj2
      exact hlt
  refine
    { wf := ⟨?_, ?_, ?_⟩
      hasR := ?_
      name_eq := h.name_eq
      nextId_le := by show st.nextId ≤ s.nextId + 1; omega
      gen_iff := ?_
      blocks_rel := ?_
      count := ?_
      created := ?_
      created_ex := ?_
      cur_ok := ?_
      cur_const := ?_
      used := ?_ }
  · -- ids stay distinct
    have hp := hperm.map (fun I : Instruction => I.id)
    simp only [State.ids, State.insts]
    rw [hp.nodup_iff, List.map_cons, List.nodup_cons]
    refine ⟨?_, h.wf.nodup⟩
    intro hin
    obtain ⟨I, hI, hid⟩ := List.mem_map.mp hin
    have := h.wf.fresh I hI
    simp only at hid
    omega
  · intro I hI
    rcases (hmem I).mp hI with rfl | hI
    · simp
    · have := h.wf.fresh I hI
      simp only
      omega
  · intro I hI j hj
    rcases (hmem I).mp hI with rfl | hI
    · simp only [Instruction.operands, List.mem_cons, List.mem_singleton,
        List.not_mem_nil, or_false] at hj
      rcases hj with hj | hj
      · have := hbound x hx j hj.symm
        simp only
        omega
      · have := hbound y hy j hj.symm
        simp only
        omega
    · have := h.wf.closed I hI j hj
      simp only
      omega
  · obtain ⟨K, hK, hid⟩ := h.hasR
    exact ⟨K, (hmem K).mpr (Or.inr hK), hid⟩
  · intro v
    simp only [List.mem_insert_iff, h.gen_iff]
    constructor
    · rintro (rfl | h1 | ⟨i, rfl, h1, h2⟩)
      · exact Or.inr ⟨s.nextId, rfl, hlo, by omega⟩
      · exact Or.inl h1
      · exact Or.inr ⟨i, rfl, h1, by omega⟩
    · rintro (h1 | ⟨i, rfl, h1, h2⟩)
      · exact Or.inr (Or.inl h1)
      · by_cases hi : i = s.nextId
        · exact Or.inl (by rw [hi])
        · exact Or.inr (Or.inr ⟨i, rfl, h1, by omega⟩)
  · exact forall₂_blocks_trans h.blocks_rel
      (forall₂_insertBeforeInBlock R _ st.nextId (by simpa using hlo) s.blocks)
  · have := hperm.length_eq
    have hc := h.count
    simp only [State.insts, List.length_cons] at this hc ⊢
    omega
  · intro I hI hge
    rcases (hmem I).mp hI with rfl | hI
    · exact ⟨x, y, rfl, hx, hy⟩
    · exact h.created I hI hge
  · intro i h1 h2
    by_cases hi : i = s.nextId
    · exact ⟨_, (hmem _).mpr (Or.inl rfl), hi.symm⟩
    · obtain ⟨I, hI, hid⟩ := h.created_ex i h1 (by simp only at h2; omega)
      exact ⟨I, (hmem I).mpr (Or.inr hI), hid⟩
  · intro a ha
    have hweak : ∀ a, BuiltOperand st.nextId L a s.nextId →
        BuiltOperand st.nextId L a (s.nextId + 1) := by
      rintro a (h1 | ⟨j, h1, h2, h3⟩)
      · exact Or.inl h1
      · exact Or.inr ⟨j, h1, h2, by omega⟩
    simp only [List.mem_append, List.mem_cons] at ha
    rcases ha with ha | rfl | ha
    · exact hweak a (h.cur_ok a (by simp [ha]))
    · exact Or.inr ⟨s.nextId, rfl, hlo, Nat.lt_succ_self _⟩
    · exact hweak a (h.cur_ok a (by simp [ha]))
  · rw [numConst_append, numConst_cons]
    simp only [isConstantInt, Bool.false_eq_true, if_false]
    omega
  · intro a ha
    rcases h.used a ha with hcur | ⟨I, hI, hge, hop⟩
    · simp only [List.mem_append, List.mem_cons] at hcur
      rcases hcur with hcur | rfl | rfl | hcur
      · exact Or.inl (by simp [hcur])
      · exact Or.inr ⟨_, (hmem _).mpr (Or.inl rfl), hlo, by simp [Instruction.operands]⟩
      · exact Or.inr ⟨_, (hmem _).mpr (Or.inl rfl), hlo, by simp [Instruction.operands]⟩
      · exact Or.inl (by simp [hcur])
    · exact Or.inr ⟨I, (hmem I).mpr (Or.inr hI), hge, hop⟩


theorem pairLevel_induct {S V : Type} (mk : S → V → V → V × S)
    (J : S → List V → List V → Prop)
    (hpair : ∀ s out x y rest, J s out (x :: y :: rest) →
      J (mk s x y).2 (out ++ [(mk s x y).1]) rest)
    (hlast : ∀ s out x, J s out [x] → J s (out ++ [x]) []) :
    ∀ (n : Nat) (s : S) (out l : List V), l.length ≤ n → J s out l →
      J (pairLevel mk s l).1 (out ++ (pairLevel mk s l).2) []
  | _, s, out, [], _, h => by simpa [pairLevel] using h
  | _, s, out, [x], _, h => hlast s out x h
  | 0, _, _, _ :: _ :: _, h, _ => by simp at h
  | n + 1, s, out, x :: y :: rest, h, hJ => by
    have ih := pairLevel_induct mk J hpair hlast n (mk s x y).2 (out ++ [(mk s x y).1]) rest
      (by simp at h; omega) (hpair s out x y rest hJ)
    rw [pairLevel_cons_cons]
    simpa using ih

theorem NewTree.mono {lo : Nat} {s s1 : State} (hsub : ∀ I ∈ s.insts, I ∈ s1.insts)
    {v : Value} {T : Tree Value} (h : NewTree lo s v T) : NewTree lo s1 v T := by
  induction h with
  | leaf x hx => exact .leaf x hx
  | node i ty op a b ta tb hlo hmem _ _ iha ihb => exact .node i ty op a b ta tb hlo (hsub _ hmem) iha ihb

theorem forall₂_newTree_mono {lo : Nat} {s s1 : State} (hsub : ∀ I ∈ s.insts, I ∈ s1.insts)
    {l : List Value} {Ts : List (Tree Value)} (h : List.Forall₂ (NewTree lo s) l Ts) :
    List.Forall₂ (NewTree lo s1) l Ts := by
  induction h with
  | nil => exact .nil
  | cons hx _ ih => exact .cons (hx.mono hsub) ih

theorem forall₂_append_singleton {α β : Type} {r : α → β → Prop} {l : List α} {m : List β}
    {a : α} {b : β} (h : List.Forall₂ r l m) (hab : r a b) :
    List.Forall₂ r (l ++ [a]) (m ++ [b]) := by
  induction h with
  | nil => exact .cons hab .nil
  | cons hx _ ih => exact .cons hx ih

theorem Tree.nodes_add_one {α : Type} (t : Tree α) : t.nodes + 1 = t.leaves.length := by
  induction t with
  | leaf a => simp [Tree.nodes, Tree.leaves]
  | node l r ihl ihr =>
    simp only [Tree.nodes, Tree.leaves, List.length_append]
    omega

/-- The invariant of the builder: the state facts together with the trees above the level. -/
theorem pairLevel_building {op : BinOp} {R : Nat} {st : State} {L : List Value}
    (hclosed : ∀ x ∈ L, ∀ j, x = .inst j → j < st.nextId) (s : State) (l : List Value)
    (h : Building op R st L s l ∧ LevelTrees st.nextId s L [] l) :
    Building op R st L (pairLevel (createAndRecord op R) s l).1
        (pairLevel (createAndRecord op R) s l).2 ∧
      LevelTrees st.nextId (pairLevel (createAndRecord op R) s l).1 L []
        (pairLevel (createAndRecord op R) s l).2 := by
  have key := pairLevel_induct (createAndRecord op R)
    (fun s out todo => Building op R st L s (out ++ todo) ∧ LevelTrees st.nextId s L out todo)
    (by
      rintro s out x y rest ⟨hb, Tout, Ttodo, hout, htodo, hleaves, hnodes⟩
      have hb2 := hb.step hclosed
      have hconst := hb.cur_const
      rw [numConst_append, numConst_cons, numConst_cons] at hconst
      have hxy : (isConstantInt x && isConstantInt y) = false := by
        cases hx : isConstantInt x
        · rfl
        · cases hy : isConstantInt y
          · rfl
          · simp only [hx, hy, if_true] at hconst
            omega
      refine ⟨by simpa using hb2, ?_⟩
      rw [createAndRecord_eq op R s x y hxy] at hb2 ⊢
      have hperm := flatten_insert_perm R ⟨s.nextId, typeOf s x, .binop op x y⟩ s.blocks
        hb.wf.nodup hb.hasR
      have hsub : ∀ I ∈ s.insts, I ∈ (State.mk s.name
          (s.blocks.map (insertBeforeInBlock R ⟨s.nextId, typeOf s x, .binop op x y⟩))
          (s.generatedI.insert (.inst s.nextId)) (s.nextId + 1)).insts := by
        intro I hI
        exact hperm.mem_iff.mpr (List.mem_cons_of_mem _ hI)
      have hnew : (⟨s.nextId, typeOf s x, .binop op x y⟩ : Instruction) ∈ (State.mk s.name
          (s.blocks.map (insertBeforeInBlock R ⟨s.nextId, typeOf s x, .binop op x y⟩))
          (s.generatedI.insert (.inst s.nextId)) (s.nextId + 1)).insts :=
        hperm.mem_iff.mpr (List.mem_cons_self _ _)
      obtain ⟨tx, Tt1, hx, hrest, rfl⟩ := List.forall₂_cons_left_iff.mp htodo
      obtain ⟨ty, Tt2, hy, hrest2, rfl⟩ := List.forall₂_cons_left_iff.mp hrest
      refine ⟨Tout ++ [.node tx ty], Tt2, ?_, forall₂_newTree_mono hsub hrest2, ?_, ?_⟩
      · exact forall₂_append_singleton (forall₂_newTree_mono hsub hout)
          (.node s.nextId _ op x y tx ty hb.nextId_le hnew (hx.mono hsub) (hy.mono hsub))
      · rw [← hleaves]
        simp [Tree.leaves]
      · have hlo := hb.nextId_le
        simp only [List.map_append, List.map_cons, List.sum_append, List.sum_cons,
          List.map_nil, List.sum_nil, Tree.nodes] at hnodes ⊢
        omega)
    (by
      rintro s out x ⟨hb, Tout, Ttodo, hout, htodo, hleaves, hnodes⟩
      refine ⟨by simpa using hb, ?_⟩
      obtain ⟨tx, Tt1, hx, hrest, rfl⟩ := List.forall₂_cons_left_iff.mp htodo
      cases hrest
      exact ⟨Tout ++ [tx], [], forall₂_append_singleton hout hx, .nil,
        by simpa using hleaves, by simpa using hnodes⟩)
    l.length s [] l le_rfl (by simpa using h)
  obtain ⟨hb, Tout, Ttodo, hout, htodo, hleaves, hnodes⟩ := key
  cases htodo
  refine ⟨by simpa using hb, [], Tout, .nil, by simpa using hout, by simpa using hleaves,
    by simpa using hnodes⟩


theorem levelTrees_init (st : State) (L : List Value)
    (hclosed : ∀ x ∈ L, ∀ j, x = .inst j → j < st.nextId) :
    LevelTrees st.nextId st L [] L := by
  refine ⟨[], L.map Tree.leaf, .nil, ?_, ?_, ?_⟩
  · induction L with
    | nil => exact .nil
    | cons x rest ih =>
      exact .cons (.leaf x (hclosed x (List.mem_cons_self _ _)))
        (ih (fun y hy => hclosed y (List.mem_cons_of_mem _ hy)))
  · induction L with
    | nil => rfl
    | cons x rest ih =>
      simpa [Tree.leaves] using ih (fun y hy => hclosed y (List.mem_cons_of_mem _ hy))
  · have : ∀ l : List Value, ((l.map Tree.leaf).map Tree.nodes).sum = 0 := by
      intro l
      induction l with
      | nil => rfl
      | cons x rest ih => simpa [Tree.nodes] using ih
    simpa using this L

theorem levelTrees_singleton {lo : Nat} {s : State} {L : List Value} {V : Value}
    (h : LevelTrees lo s L [] [V]) :
    ∃ T, NewTree lo s V T ∧ T.leaves = L ∧ T.nodes = s.nextId - lo := by
  obtain ⟨Tout, Ttodo, hout, htodo, hleaves, hnodes⟩ := h
  cases hout
  obtain ⟨T, Tt, hT, hrest, rfl⟩ := List.forall₂_cons_left_iff.mp htodo
  cases hrest
  exact ⟨T, hT, by simpa using hleaves, by simpa using hnodes⟩

theorem buildTree_spec_of_some {op : BinOp} {R : Nat} {st st1 : State} {L : List Value}
    {V : Value} {fuel : Nat} (hwf : WF st) (hR : HasInst st R) (hc : numConst L ≤ 1)
    (hclosed : ∀ x ∈ L, ∀ j, x = .inst j → j < st.nextId)
    (h : buildTree (createAndRecord op R) fuel st L = some (st1, V)) :
    Building op R st L st1 [V] ∧
      ∃ T, NewTree st.nextId st1 V T ∧ T.leaves = L ∧ T.nodes = st1.nextId - st.nextId := by
  rw [buildTree_eq_reduceLevels] at h
  have key := reduceLevels_invariant (createAndRecord op R)
    (fun s l => Building op R st L s l ∧ LevelTrees st.nextId s L [] l)
    (fun s l _ hinv => pairLevel_building hclosed s l hinv)
    fuel st L st1 V h ⟨Building.init op R st L hwf hR hc, levelTrees_init st L hclosed⟩
  exact ⟨key.1, levelTrees_singleton key.2⟩

theorem buildTree_spec_total {op : BinOp} {R : Nat} {st : State} {L : List Value}
    (hwf : WF st) (hR : HasInst st R) (hc : numConst L ≤ 1)
    (hclosed : ∀ x ∈ L, ∀ j, x = .inst j → j < st.nextId) (hne : L ≠ [])
    (fuel : Nat) (hfuel : Nat.clog 2 L.length < fuel) :
    ∃ st1 V, buildTree (createAndRecord op R) fuel st L = some (st1, V) ∧
      Building op R st L st1 [V] ∧
      ∃ T, NewTree st.nextId st1 V T ∧ T.leaves = L ∧ T.nodes = st1.nextId - st.nextId := by
  rw [buildTree_eq_reduceLevels]
  obtain ⟨st1, V, hres, hinv⟩ := reduceLevels_induct (createAndRecord op R)
    (fun s l => Building op R st L s l ∧ LevelTrees st.nextId s L [] l)
    (fun s l _ hinv => pairLevel_building hclosed s l hinv)
    fuel st L hne hfuel ⟨Building.init op R st L hwf hR hc, levelTrees_init st L hclosed⟩
  exact ⟨st1, V, hres, hinv.1, levelTrees_singleton hinv.2⟩

/-! ## Facts on accepted roots -/

theorem valueBelow_iff (n : Nat) (v : Value) :
    valueBelow n v = true ↔ ∀ j, v = .inst j → j < n := by
  cases v <;> simp [valueBelow]

theorem WF_of_wfCheck {st : State} (h : wfCheck st = true) : WF st := by
  simp only [wfCheck, Bool.and_eq_true, decide_eq_true_eq, List.all_eq_true] at h
  refine ⟨h.1, fun I hI => (h.2 I hI).1, ?_⟩
  intro I hI j hj
  exact (valueBelow_iff _ _).mp ((h.2 I hI).2 _ hj) j rfl

theorem closed_of_all {n : Nat} {L : List Value} (h : L.all (valueBelow n) = true) :
    ∀ x ∈ L, ∀ j, x = .inst j → j < n := by
  intro x hx
  exact (valueBelow_iff n x).mp (List.all_eq_true.mp h x hx)

theorem ChainTree.unique {st : State} {op : BinOp} {v : Value} {T T2 : Tree Value}
    (h : ChainTree st op v T) (h2 : ChainTree st op v T2) : T = T2 := by
  induction h generalizing T2 with
  | leaf x hx =>
    cases h2 with
    | leaf _ _ => rfl
    | node _ a b ta tb hx2 _ _ => rw [hx] at hx2; cases hx2
  | node x a b ta tb hx _ _ iha ihb =>
    cases h2 with
    | leaf _ hx2 => rw [hx] at hx2; cases hx2
    | node _ a2 b2 ta2 tb2 hx2 ha2 hb2 =>
      rw [hx] at hx2
      simp only [Option.some.injEq, Prod.mk.injEq] at hx2
      obtain ⟨rfl, rfl⟩ := hx2
      rw [iha ha2, ihb hb2]

theorem ChainTree.leaves_are_operands {st : State} {op : BinOp} {v : Value} {T : Tree Value}
    (h : ChainTree st op v T) (hs : (dynCastBinOp st op v).isSome) :
    ∀ x ∈ T.leaves, ∃ X ∈ st.insts, x ∈ X.operands := by
  induction h with
  | leaf x hx => rw [hx] at hs; simp at hs
  | node x a b ta tb hx ha hb iha ihb =>
    have hop : ∃ X ∈ st.insts, a ∈ X.operands ∧ b ∈ X.operands := by
      cases x with
      | inst id =>
        obtain ⟨I, hI, hk⟩ := getInst?_of_dynCastBinOp hx
        exact ⟨I, (mem_insts_of_getInst? hI).1, by simp [Instruction.operands, hk]⟩
      | constInt bits val => simp [dynCastBinOp] at hx
      | arg n => simp [dynCastBinOp] at hx
    obtain ⟨X, hX, hXa, hXb⟩ := hop
    intro y hy
    simp only [Tree.leaves, List.mem_append] at hy
    rcases hy with hy | hy
    · cases ha with
      | leaf _ _ =>
        simp only [Tree.leaves, List.mem_singleton] at hy
        exact ⟨X, hX, hy ▸ hXa⟩
      | node _ _ _ _ _ h2 h3 h4 => exact iha (by simp [h2]) y hy
    · cases hb with
      | leaf _ _ =>
        simp only [Tree.leaves, List.mem_singleton] at hy
        exact ⟨X, hX, hy ▸ hXb⟩
      | node _ _ _ _ _ h2 h3 h4 => exact ihb (by simp [h2]) y hy

/-- What is known of a root that reaches the builder in a well-formed body. -/
theorem collectLeaves_facts {op : BinOp} {fuel : Nat} {st : State} {R : Nat} {L : List Value}
    (hwf : WF st) (h : collectLeaves op fuel st R = some (some L)) :
    ∃ I op0 op1 T, st.getInst? R = some I ∧ I.kind = .binop op op0 op1 ∧
      dynCastBinOp st op (.inst R) = some (op0, op1) ∧
      ((dynCastBinOp st op op0).isSome ∨ (dynCastBinOp st op op1).isSome) ∧
      ChainTree st op (.inst R) T ∧ T.depth ≤ fuel ∧ 3 ≤ T.leaves.length ∧
      L = (T.leaves.filter (isLoadInst st) ++
            T.leaves.filter (fun x => !isLoadInst st x && !isConstantInt x)) ++
          (if T.leaves.any isConstantInt then
            [ConstantInt.get I.ty (foldedConstant op (constVals T.leaves))]
          else []) ∧
      HasInst st R ∧ numConst L ≤ 1 ∧ L ≠ [] ∧ (∀ x ∈ L, ∀ j, x = .inst j → j < st.nextId) := by
  obtain ⟨I, op0, op1, T, hI, hv, hguard, hT, hdepth, _⟩ := collectLeaves_some_inv h
  obtain ⟨hshape, hnc⟩ := collectLeaves_shape st op R op0 op1 T I hI hv hguard hT fuel hdepth
  rw [h] at hshape
  simp only [Option.some.injEq] at hshape
  obtain ⟨hmem, hid⟩ := mem_insts_of_getInst? hI
  have h3 := hT.three_leaves hv hguard
  obtain ⟨I2, hI2, hk⟩ := getInst?_of_dynCastBinOp hv
  rw [hI] at hI2
  simp only [Option.some.injEq] at hI2
  subst hI2
  refine ⟨I, op0, op1, T, hI, hk, hv, hguard, hT, hdepth, h3, hshape, ⟨I, hmem, hid⟩, ?_, ?_, ?_⟩
  · rw [hshape, numConst, List.filter_append, List.length_append,
      List.filter_eq_nil_iff.mpr (fun x hx => by simp [hnc x hx])]
    split <;> simp [List.filter_cons, ConstantInt.get, isConstantInt]
  · intro hnil
    rw [hnil] at hshape
    have hlen := congrArg List.length hshape
    simp only [List.length_nil, List.length_append] at hlen
    have hsplit : T.leaves.length ≤ (T.leaves.filter (isLoadInst st)).length +
        (T.leaves.filter (fun x => !isLoadInst st x && !isConstantInt x)).length +
        (T.leaves.filter isConstantInt).length := by
      clear hlen hshape hnc h3
      induction T.leaves with
      | nil => simp
      | cons x rest ih =>
        simp only [List.filter_cons, List.length_cons]
        cases hl : isLoadInst st x <;> cases hcx : isConstantInt x <;>
          simp only [hl, hcx, Bool.not_true, Bool.not_false, Bool.and_self, Bool.and_false,
            Bool.false_and, if_true, if_false, Bool.false_eq_true, List.length_cons] <;> omega
    have hany : T.leaves.any isConstantInt = false := by
      by_contra hc
      simp only [Bool.not_eq_false] at hc
      rw [if_pos hc] at hlen
      simp at hlen
    have hcz : (T.leaves.filter isConstantInt).length = 0 := by
      rw [List.length_eq_zero, List.filter_eq_nil_iff]
      intro x hx hcx
      have : T.leaves.any isConstantInt = true := List.any_eq_true.mpr ⟨x, hx, hcx⟩
      rw [hany] at this
      cases this
    omega
  · intro x hx j hj
    rw [hshape] at hx
    simp only [List.mem_append, List.mem_filter] at hx
    rcases hx with (⟨hx, _⟩ | ⟨hx, _⟩) | hx
    · obtain ⟨X, hX, hop⟩ := hT.leaves_are_operands (by simp [hv]) x hx
      exact hwf.closed X hX j (hj ▸ hop)
    · obtain ⟨X, hX, hop⟩ := hT.leaves_are_operands (by simp [hv]) x hx
      exact hwf.closed X hX j (hj ▸ hop)
    · split at hx
      · simp only [List.mem_singleton] at hx
        rw [hx] at hj
        simp [ConstantInt.get] at hj
      · simp at hx

theorem insts_of_forall₂_blocks {lo : Nat} {b1 b2 : List (List Instruction)}
    (h : List.Forall₂ (fun B B1 => (∀ I ∈ B, I ∈ B1) ∧ ∀ I ∈ B1, I ∈ B ∨ lo ≤ I.id) b1 b2) :
    (∀ I ∈ b1.flatten, I ∈ b2.flatten) ∧ ∀ I ∈ b2.flatten, I ∈ b1.flatten ∨ lo ≤ I.id := by
  induction h with
  | nil => simp
  | cons hab _ ih =>
    simp only [List.flatten_cons, List.mem_append]
    refine ⟨?_, ?_⟩
    · rintro I (h | h)
      · exact Or.inl (hab.1 I h)
      · exact Or.inr (ih.1 I h)
    · rintro I (h | h)
      · rcases hab.2 I h with h2 | h2
        · exact Or.inl (Or.inl h2)
        · exact Or.inr h2
      · rcases ih.2 I h with h2 | h2
        · exact Or.inl (Or.inr h2)
        · exact Or.inr h2

theorem Building.old_mem {op : BinOp} {R : Nat} {st : State} {L : List Value} {s : State}
    {cur : List Value} (h : Building op R st L s cur) : ∀ I ∈ st.insts, I ∈ s.insts :=
  (insts_of_forall₂_blocks h.blocks_rel).1

theorem Building.insts_mem {op : BinOp} {R : Nat} {st : State} {L : List Value} {s : State}
    {cur : List Value} (h : Building op R st L s cur) :
    ∀ I ∈ s.insts, I ∈ st.insts ∨ st.nextId ≤ I.id :=
  (insts_of_forall₂_blocks h.blocks_rel).2


/-! ## What the builder creates: claims C19 and C16 -/

theorem buildTree_creates_aux {op : BinOp} {R : Nat} {st st1 : State} {L : List Value}
    {V : Value} {T : Tree Value} (hb : Building op R st L st1 [V]) (hleaves : T.leaves = L)
    (hnodes : T.nodes = st1.nextId - st.nextId) :
    st1.nextId = st.nextId + (L.length - 1) ∧
      st1.insts.length = st.insts.length + (L.length - 1) ∧
      (∀ I ∈ st.insts, I ∈ st1.insts) ∧
      (∀ I ∈ st1.insts, I ∉ st.insts →
        (∃ a b, I.kind = .binop op a b) ∧ Value.inst I.id ∈ st1.generatedI) ∧
      T.nodes = L.length - 1 := by
  have h1 := T.nodes_add_one
  rw [hleaves] at h1
  have hle := hb.nextId_le
  have hcount := hb.count
  refine ⟨by omega, by omega, hb.old_mem, ?_, by omega⟩
  intro I hI hnot
  rcases hb.insts_mem I hI with h | h
  · exact absurd h hnot
  · obtain ⟨a, b, hk, _, _⟩ := hb.created I hI h
    exact ⟨⟨a, b, hk⟩, (hb.gen_iff _).mpr (Or.inr ⟨I.id, rfl, h, hb.wf.fresh I hI⟩)⟩

/-- C19 (operation count of the new tree). For every root `R` of a well-formed body and every
folded leaf list `L` of size `N ≥ 1` (at most one integer constant, every leaf a value that
exists on entry), the pairing loop returns once the fuel exceeds `ceil(log2 N)`; it has raised
the instruction counter by exactly `N - 1` and added exactly `N - 1` instructions to the
function, keeping the old ones; every added instruction is a binary operator of the chain's
opcode and is in `generatedI`; and the tree the new root unfolds to through the added
instructions has exactly `N - 1` nodes and exactly the list `L` as its leaves from left to
right, so every leaf fills exactly one operand position. -/
theorem buildTree_creates (op : BinOp) (R : Nat) (st : State) (L : List Value) (fuel : Nat)
    (hwf : WF st) (hR : HasInst st R) (hc : numConst L ≤ 1)
    (hclosed : ∀ x ∈ L, ∀ j, x = .inst j → j < st.nextId) (hN : 1 ≤ L.length)
    (hfuel : Nat.clog 2 L.length < fuel) :
    ∃ st1 V T, buildTree (createAndRecord op R) fuel st L = some (st1, V) ∧
      st1.nextId = st.nextId + (L.length - 1) ∧
      st1.insts.length = st.insts.length + (L.length - 1) ∧
      (∀ I ∈ st.insts, I ∈ st1.insts) ∧
      (∀ I ∈ st1.insts, I ∉ st.insts →
        (∃ a b, I.kind = .binop op a b) ∧ Value.inst I.id ∈ st1.generatedI) ∧
      NewTree st.nextId st1 V T ∧ T.leaves = L ∧ T.nodes = L.length - 1 := by
  have hne : L ≠ [] := by
    intro h
    rw [h] at hN
    simp at hN
  obtain ⟨st1, V, hres, hb, T, hT, hleaves, hnodes⟩ :=
    @buildTree_spec_total op _ _ _ hwf hR hc hclosed hne fuel hfuel
  obtain ⟨h1, h2, h3, h4, h5⟩ := buildTree_creates_aux hb hleaves hnodes
  exact ⟨st1, V, T, hres, h1, h2, h3, h4, hT, hleaves, h5⟩

/-- The witness of C19: over the four leaves `[load_a, load_b, load_c, 7]` of the example the
loop creates the three instructions `10`, `11` and `12`. -/
theorem buildTree_creates_witness :
    (∃ st1 V T, buildTree (createAndRecord .Add 6) 3 exampleConstChain
        [.inst 0, .inst 1, .inst 2, .constInt 32 7] = some (st1, V) ∧
      st1.nextId = exampleConstChain.nextId + (4 - 1) ∧
      st1.insts.length = exampleConstChain.insts.length + (4 - 1) ∧
      (∀ I ∈ exampleConstChain.insts, I ∈ st1.insts) ∧
      (∀ I ∈ st1.insts, I ∉ exampleConstChain.insts →
        (∃ a b, I.kind = .binop .Add a b) ∧ Value.inst I.id ∈ st1.generatedI) ∧
      NewTree exampleConstChain.nextId st1 V T ∧
      T.leaves = [.inst 0, .inst 1, .inst 2, .constInt 32 7] ∧ T.nodes = 4 - 1) ∧
    buildTree (createAndRecord .Add 6) 3 exampleConstChain
        [.inst 0, .inst 1, .inst 2, .constInt 32 7] =
      some (exampleConstChainBuilt, .inst 12) :=
  ⟨buildTree_creates .Add 6 exampleConstChain [.inst 0, .inst 1, .inst 2, .constInt 32 7] 3
      (WF_of_wfCheck (by decide)) ⟨⟨6, 32, .binop .Add (.inst 5) (.inst 2)⟩, by decide, rfl⟩
      (by decide) (closed_of_all (by decide)) (by decide) (by simp [Nat.clog]),
    by decide⟩


theorem leafList_length (st : State) (leaves : List Value) (c : Value) :
    ((leaves.filter (isLoadInst st) ++
        leaves.filter (fun x => !isLoadInst st x && !isConstantInt x)) ++
      (if leaves.any isConstantInt then [c] else [])).length =
      (leaves.filter (fun x => !isConstantInt x)).length +
        (if leaves.any isConstantInt then 1 else 0) := by
  have hpart : (leaves.filter (isLoadInst st)).length +
      (leaves.filter (fun x => !isLoadInst st x && !isConstantInt x)).length =
      (leaves.filter (fun x => !isConstantInt x)).length := by
    induction leaves with
    | nil => rfl
    | cons x rest ih =>
      simp only [List.filter_cons]
      cases hl : isLoadInst st x
      · cases hcx : isConstantInt x <;>
          simp only [Bool.not_true, Bool.not_false, Bool.and_self, Bool.and_false,
            if_true, if_false, Bool.false_eq_true, List.length_cons] <;> omega
      · have hcx := isConstantInt_of_isLoadInst st x hl
        simp only [hcx, Bool.not_true, Bool.not_false, Bool.false_and,
          if_true, if_false, Bool.false_eq_true, List.length_cons]
        omega
  simp only [List.length_append]
  split <;> simp <;> omega

theorem leafList_length_eq_one_iff (st : State) (leaves : List Value) (c : Value)
    (h3 : 3 ≤ leaves.length) :
    ((leaves.filter (isLoadInst st) ++
        leaves.filter (fun x => !isLoadInst st x && !isConstantInt x)) ++
      (if leaves.any isConstantInt then [c] else [])).length = 1 ↔
      ∀ x ∈ leaves, isConstantInt x = true := by
  rw [leafList_length]
  have hsum : (leaves.filter (fun x => !isConstantInt x)).length +
      (leaves.filter isConstantInt).length = leaves.length := by
    have := List.length_eq_length_filter_add (l := leaves) isConstantInt
    omega
  constructor
  · intro h x hx
    by_cases hany : leaves.any isConstantInt = true
    · rw [if_pos hany] at h
      have hz : (leaves.filter (fun x => !isConstantInt x)) = [] :=
        List.length_eq_zero.mp (by omega)
      by_contra hcx
      have : x ∈ leaves.filter (fun x => !isConstantInt x) :=
        List.mem_filter.mpr ⟨hx, by simpa using hcx⟩
      rw [hz] at this
      cases this
    · rw [if_neg hany] at h
      have hz : (leaves.filter isConstantInt).length = 0 := by
        rw [List.length_eq_zero, List.filter_eq_nil_iff]
        intro y hy hcy
        exact hany (List.any_eq_true.mpr ⟨y, hy, hcy⟩)
      omega
  · intro hall
    have hz : (leaves.filter (fun x => !isConstantInt x)).length = 0 := by
      rw [List.length_eq_zero, List.filter_eq_nil_iff]
      intro y hy
      simp [hall y hy]
    have hany : leaves.any isConstantInt = true := by
      match leaves, h3, hall with
      | y :: rest, _, hall => simp [hall y (List.mem_cons_self _ _)]
    rw [hz, if_pos hany]

theorem builder_root_kind_aux (op : BinOp) (fuel0 fuel : Nat) (st : State) (R : Nat)
    (L : List Value) (hwf : WF st) (hacc : collectLeaves op fuel0 st R = some (some L))
    (hfuel : Nat.clog 2 L.length < fuel) :
    ∃ st1 V, buildTree (createAndRecord op R) fuel st L = some (st1, V) ∧
      (2 ≤ L.length → ∃ I ∈ st1.insts, V = .inst I.id ∧ (∃ a b, I.kind = .binop op a b) ∧
        st.getInst? I.id = none) ∧
      (L.length = 1 → st1 = st ∧ isConstantInt V = true ∧ L = [V]) ∧
      (∀ T, ChainTree st op (.inst R) T →
        (L.length = 1 ↔ ∀ x ∈ T.leaves, isConstantInt x = true)) ∧
      ((∃ I ∈ st1.insts, V = .inst I.id) ∨ isConstantInt V = true) := by
  obtain ⟨I, op0, op1, T, hI, hk, hv, hguard, hT, hdepth, h3, hshape, hR, hc, hne, hclosed⟩ :=
    collectLeaves_facts hwf hacc
  obtain ⟨st1, V, hres, hb, T2, hT2, hleaves, hnodes⟩ :=
    @buildTree_spec_total op _ _ _ hwf hR hc hclosed hne fuel hfuel
  have hnodes1 := T2.nodes_add_one
  rw [hleaves] at hnodes1
  have hiff : L.length = 1 ↔ ∀ x ∈ T.leaves, isConstantInt x = true := by
    rw [hshape]
    exact leafList_length_eq_one_iff st T.leaves _ h3
  have hbig : 2 ≤ L.length → ∃ I ∈ st1.insts, V = .inst I.id ∧
      (∃ a b, I.kind = .binop op a b) ∧ st.getInst? I.id = none := by
    intro h2
    cases hT2 with
    | leaf x hx =>
      rw [← hleaves] at h2
      simp [Tree.leaves] at h2
    | node i ty op2 a b ta tb hlo hmem _ _ =>
      obtain ⟨a2, b2, hk2, _, _⟩ := hb.created _ hmem hlo
      refine ⟨_, hmem, rfl, ⟨a2, b2, hk2⟩, ?_⟩
      rw [getInst?_eq_none_iff]
      intro J hJ hid
      have := hwf.fresh J hJ
      simp only at hid
      omega
  have hsmall : L.length = 1 → st1 = st ∧ isConstantInt V = true ∧ L = [V] := by
    intro h1
    obtain ⟨x, hx⟩ := List.length_eq_one.mp h1
    have hfuel1 : 0 < fuel := by omega
    obtain ⟨f, rfl⟩ := Nat.exists_eq_succ_of_ne_zero (Nat.pos_iff_ne_zero.mp hfuel1)
    rw [buildTree_eq_reduceLevels, hx] at hres
    simp only [reduceLevels, Option.some.injEq, Prod.mk.injEq] at hres
    obtain ⟨rfl, rfl⟩ := hres
    refine ⟨rfl, ?_, hx⟩
    have hall := hiff.mp h1
    have hany : T.leaves.any isConstantInt = true := by
      match hl : T.leaves, h3, hall with
      | y :: rest, _, hall => simp [hall y (List.mem_cons_self _ _)]
    rw [hshape, if_pos hany] at hx
    have hrev := congrArg List.reverse hx
    simp only [List.reverse_append, List.reverse_singleton, List.singleton_append,
      List.cons.injEq] at hrev
    rw [← hrev.1]
    rfl
  refine ⟨st1, V, hres, hbig, hsmall, ?_, ?_⟩
  · intro T3 hT3
    rw [hT3.unique hT]
    exact hiff
  · by_cases h2 : 2 ≤ L.length
    · obtain ⟨J, hJ, hVJ, _⟩ := hbig h2
      exact Or.inl ⟨J, hJ, hVJ⟩
    · have h1 : L.length = 1 := by
        have := List.length_pos.mpr hne
        omega
      exact Or.inr (hsmall h1).2.1


/-- C16 (the final-value assertion never fails). Let the root `R` of a well-formed body reach
the builder with the leaf list `L`, of length `N`. With fuel above `ceil(log2 N)` the pairing
loop returns a root `V`. If `N ≥ 2`, `V` is an instruction of the chain's opcode that the loop
has created: it is in the function on return and no instruction had its id on entry. If
`N = 1`, no instruction is created (the state is unchanged) and `V` is the folded constant.
`N = 1` holds exactly when every leaf of the chain is an integer constant. In either case `V`
is an instruction or an integer constant, so the assertion holds. -/
theorem builder_root_kind (op : BinOp) (fuel0 fuel : Nat) (st : State) (R : Nat)
    (L : List Value) (hwf : WF st) (hacc : collectLeaves op fuel0 st R = some (some L))
    (hfuel : Nat.clog 2 L.length < fuel) :
    ∃ st1 V, buildTree (createAndRecord op R) fuel st L = some (st1, V) ∧
      (2 ≤ L.length → ∃ I ∈ st1.insts, V = .inst I.id ∧ (∃ a b, I.kind = .binop op a b) ∧
        st.getInst? I.id = none) ∧
      (L.length = 1 → st1 = st ∧ isConstantInt V = true ∧ L = [V]) ∧
      (∀ T, ChainTree st op (.inst R) T →
        (L.length = 1 ↔ ∀ x ∈ T.leaves, isConstantInt x = true)) ∧
      ((∃ I ∈ st1.insts, V = .inst I.id) ∨ isConstantInt V = true) :=
  builder_root_kind_aux op fuel0 fuel st R L hwf hacc hfuel

/-- The witness of C16: the all-constant chain `(1 + 2) + 3` reaches the builder with the
one-element list `[6]`; the root is that constant, nothing is created, and the rewrite goes
through. For the chain of `exampleConstChain` the root is the created instruction `12`. -/
theorem builder_root_kind_witness :
    (∃ st1 V, buildTree (createAndRecord .Add 1) 1 exampleAllConst [.constInt 32 6] =
        some (st1, V) ∧
      (2 ≤ [Value.constInt 32 6].length → ∃ I ∈ st1.insts, V = .inst I.id ∧
        (∃ a b, I.kind = .binop .Add a b) ∧ exampleAllConst.getInst? I.id = none) ∧
      ([Value.constInt 32 6].length = 1 →
        st1 = exampleAllConst ∧ isConstantInt V = true ∧ [Value.constInt 32 6] = [V]) ∧
      (∀ T, ChainTree exampleAllConst .Add (.inst 1) T →
        ([Value.constInt 32 6].length = 1 ↔ ∀ x ∈ T.leaves, isConstantInt x = true)) ∧
      ((∃ I ∈ st1.insts, V = .inst I.id) ∨ isConstantInt V = true)) ∧
    collectLeaves .Add 2 exampleAllConst 1 = some (some [.constInt 32 6]) ∧
    tryReorderIntAdd 3 exampleAllConst 1 = some (true, exampleAllConstAfter) ∧
    buildTree (createAndRecord .Add 6) 3 exampleConstChain
        [.inst 0, .inst 1, .inst 2, .constInt 32 7] =
      some (exampleConstChainBuilt, .inst 12) :=
  ⟨builder_root_kind .Add 2 1 exampleAllConst 1 [.constInt 32 6] (WF_of_wfCheck (by decide))
      (by decide) (by simp [Nat.clog]),
    by decide, by decide, by decide⟩

/-! ## Replacing uses and deleting dead instructions -/

theorem insts_replaceAllUsesWith (st : State) (old new : Value) :
    (replaceAllUsesWith st old new).insts =
      st.insts.map (Instruction.replaceUsesOfWith old new) := by
  simp [replaceAllUsesWith, State.insts, List.map_flatten]

theorem id_replaceUsesOfWith (old new : Value) (I : Instruction) :
    (I.replaceUsesOfWith old new).id = I.id := rfl

theorem operands_replaceUsesOfWith (old new : Value) (I : Instruction) :
    (I.replaceUsesOfWith old new).operands =
      I.operands.map (fun v => if v = old then new else v) := by
  cases I with
  | mk id ty kind => cases kind <;> simp [Instruction.replaceUsesOfWith, Instruction.operands]

theorem ids_replaceAllUsesWith (st : State) (old new : Value) :
    (replaceAllUsesWith st old new).ids = st.ids := by
  simp only [State.ids, insts_replaceAllUsesWith, List.map_map]
  rfl

theorem hasUses_iff (st : State) (v : Value) :
    hasUses st v = true ↔ ∃ J ∈ st.insts, v ∈ J.operands := by
  simp [hasUses]

theorem hasUses_eq_false_iff (st : State) (v : Value) :
    hasUses st v = false ↔ ∀ J ∈ st.insts, v ∉ J.operands := by
  rw [← Bool.not_eq_true, hasUses_iff]
  simp

theorem hasUses_replaceAllUsesWith_self (st : State) (old new : Value) (hne : new ≠ old) :
    hasUses (replaceAllUsesWith st old new) old = false := by
  rw [hasUses_eq_false_iff]
  intro J hJ
  rw [insts_replaceAllUsesWith] at hJ
  obtain ⟨J0, _, rfl⟩ := List.mem_map.mp hJ
  rw [operands_replaceUsesOfWith]
  intro hmem
  obtain ⟨v, _, hv⟩ := List.mem_map.mp hmem
  split at hv
  · exact hne hv
  · rename_i h; exact h hv

theorem insts_eraseFromParent (st : State) (i : Nat) :
    (eraseFromParent st i).insts = st.insts.filter (fun J => J.id != i) := by
  simp [eraseFromParent, State.insts, List.filter_flatten]

theorem mem_insts_eraseFromParent (st : State) (i : Nat) (J : Instruction) :
    J ∈ (eraseFromParent st i).insts ↔ J ∈ st.insts ∧ J.id ≠ i := by
  rw [insts_eraseFromParent, List.mem_filter]
  simp

theorem ids_eraseFromParent_nodup (st : State) (i : Nat) (h : st.ids.Nodup) :
    (eraseFromParent st i).ids.Nodup := by
  simp only [State.ids, insts_eraseFromParent]
  exact h.sublist ((List.filter_sublist _).map _)

theorem hasUses_eraseFromParent (st : State) (i : Nat) (v : Value) :
    hasUses (eraseFromParent st i) v =
      st.insts.any (fun J => decide (J.id ≠ i) && decide (v ∈ J.operands)) := by
  rw [Bool.eq_iff_iff, hasUses_iff, List.any_eq_true]
  simp only [mem_insts_eraseFromParent, Bool.and_eq_true, decide_eq_true_eq]
  constructor
  · rintro ⟨J, ⟨h1, h2⟩, h3⟩; exact ⟨J, h1, h2, h3⟩
  · rintro ⟨J, h1, h2, h3⟩; exact ⟨J, ⟨h1, h2⟩, h3⟩

theorem nullOperands_cons (st : State) (I : Instruction) (OpV : Value) (later : List Value)
    (work : List Nat) :
    nullOperands st I (OpV :: later) work =
      if hasUses (eraseFromParent st I.id) OpV || decide (OpV ∈ later) then
        nullOperands st I later work
      else
        match OpV with
        | .inst j =>
          match st.getInst? j with
          | some OpI =>
            if wouldInstructionBeTriviallyDead OpI then nullOperands st I later (work ++ [j])
            else nullOperands st I later work
          | none => nullOperands st I later work
        | _ => nullOperands st I later work := by
  rw [hasUses_eraseFromParent]
  cases OpV <;> rfl

/-- The worklist after the operand loop: the old entries, and every operand that is an
instruction without side effects left without a use once `I` is erased. -/
theorem mem_nullOperands_iff (st : State) (I : Instruction) :
    ∀ (ops : List Value) (work : List Nat) (k : Nat),
      k ∈ nullOperands st I ops work ↔
        k ∈ work ∨ (Value.inst k ∈ ops ∧ hasUses (eraseFromParent st I.id) (.inst k) = false ∧
          ∃ OpI, st.getInst? k = some OpI ∧ wouldInstructionBeTriviallyDead OpI = true) := by
  intro ops
  induction ops with
  | nil => intro work k; simp [nullOperands]
  | cons OpV later ih =>
    intro work k
    rw [nullOperands_cons]
    by_cases hskip : (hasUses (eraseFromParent st I.id) OpV || decide (OpV ∈ later)) = true
    · rw [if_pos hskip, ih]
      simp only [Bool.or_eq_true, decide_eq_true_eq] at hskip
      constructor
      · rintro (h | ⟨h1, h2⟩)
        · exact Or.inl h
        · exact Or.inr ⟨List.mem_cons_of_mem _ h1, h2⟩
      · rintro (h | ⟨h1, h2, h3⟩)
        · exact Or.inl h
        · rcases List.mem_cons.mp h1 with h1 | h1
          · rcases hskip with hs | hs
            · rw [← h1, h2] at hs; cases hs
            · exact Or.inr ⟨h1 ▸ hs, h2, h3⟩
          · exact Or.inr ⟨h1, h2, h3⟩
    · rw [if_neg hskip]
      simp only [Bool.or_eq_true, decide_eq_true_eq, not_or, Bool.not_eq_true] at hskip
      obtain ⟨hun, hnl⟩ := hskip
      cases OpV with
      | inst j =>
        cases hj : st.getInst? j with
        | none =>
          simp only [hj]
          rw [ih]
          constructor
          · rintro (h | ⟨h1, h2⟩)
            · exact Or.inl h
            · exact Or.inr ⟨List.mem_cons_of_mem _ h1, h2⟩
          · rintro (h | ⟨h1, h2, OpI, h3, h4⟩)
            · exact Or.inl h
            · rcases List.mem_cons.mp h1 with h1 | h1
              · simp only [Value.inst.injEq] at h1
                rw [h1, hj] at h3
                cases h3
              · exact Or.inr ⟨h1, h2, OpI, h3, h4⟩
        | some OpI =>
          simp only [hj]
          by_cases hw : wouldInstructionBeTriviallyDead OpI = true
          · rw [if_pos hw, ih]
            simp only [List.mem_append, List.mem_singleton]
            constructor
            · rintro ((h | h) | ⟨h1, h2⟩)
              · exact Or.inl h
              · rw [h]
                exact Or.inr ⟨List.mem_cons_self _ _, hun, OpI, hj, hw⟩
              · exact Or.inr ⟨List.mem_cons_of_mem _ h1, h2⟩
            · rintro (h | ⟨h1, h2, h3⟩)
              · exact Or.inl (Or.inl h)
              · rcases List.mem_cons.mp h1 with h1 | h1
                · simp only [Value.inst.injEq] at h1
                  exact Or.inl (Or.inr h1)
                · exact Or.inr ⟨h1, h2, h3⟩
          · rw [if_neg hw, ih]
            constructor
            · rintro (h | ⟨h1, h2⟩)
              · exact Or.inl h
              · exact Or.inr ⟨List.mem_cons_of_mem _ h1, h2⟩
            · rintro (h | ⟨h1, h2, OpI2, h3, h4⟩)
              · exact Or.inl h
              · rcases List.mem_cons.mp h1 with h1 | h1
                · simp only [Value.inst.injEq] at h1
                  rw [h1, hj] at h3
                  simp only [Option.some.injEq] at h3
                  rw [h3] at hw
                  exact absurd h4 hw
                · exact Or.inr ⟨h1, h2, OpI2, h3, h4⟩
      | constInt bits val =>
        simp only []
        rw [ih]
        constructor
        · rintro (h | ⟨h1, h2⟩)
          · exact Or.inl h
          · exact Or.inr ⟨List.mem_cons_of_mem _ h1, h2⟩
        · rintro (h | ⟨h1, h2⟩)
          · exact Or.inl h
          · rcases List.mem_cons.mp h1 with h1 | h1
            · cases h1
            · exact Or.inr ⟨h1, h2⟩
      | arg n =>
        simp only []
        rw [ih]
        constructor
        · rintro (h | ⟨h1, h2⟩)
          · exact Or.inl h
          · exact Or.inr ⟨List.mem_cons_of_mem _ h1, h2⟩
        · rintro (h | ⟨h1, h2⟩)
          · exact Or.inl h
          · rcases List.mem_cons.mp h1 with h1 | h1
            · cases h1
            · exact Or.inr ⟨h1, h2⟩


theorem nullOperands_nodup (st : State) (I : Instruction) :
    ∀ (ops : List Value) (work : List Nat), work.Nodup → (∀ k ∈ work, Value.inst k ∉ ops) →
      (nullOperands st I ops work).Nodup := by
  intro ops
  induction ops with
  | nil => intro work h _; simpa [nullOperands] using h
  | cons OpV later ih =>
    intro work hn hnot
    have hlater : ∀ k ∈ work, Value.inst k ∉ later :=
      fun k hk hmem => hnot k hk (List.mem_cons_of_mem _ hmem)
    rw [nullOperands_cons]
    split
    · exact ih work hn hlater
    · rename_i hskip
      simp only [Bool.or_eq_true, decide_eq_true_eq, not_or, Bool.not_eq_true] at hskip
      cases OpV with
      | inst j =>
        cases hj : st.getInst? j with
        | none => simp only [hj]; exact ih work hn hlater
        | some OpI =>
          simp only [hj]
          split
          · apply ih
            · rw [List.nodup_append]
              refine ⟨hn, List.nodup_singleton j, ?_⟩
              intro k hk hk2
              simp only [List.mem_singleton] at hk2
              exact hnot k hk (hk2 ▸ List.mem_cons_self _ _)
            · intro k hk
              simp only [List.mem_append, List.mem_singleton] at hk
              rcases hk with hk | hk
              · exact hlater k hk
              · rw [hk]; exact hskip.2
          · exact ih work hn hlater
      | constInt bits val => exact ih work hn hlater
      | arg n => exact ih work hn hlater

theorem deleteDeadLoop_invariant (Inv : State → List Nat → Prop)
    (hstep : ∀ st work i I, work.getLast? = some i → st.getInst? i = some I → Inv st work →
      Inv (eraseFromParent st i) (nullOperands st I I.operands work.dropLast)) :
    ∀ (fuel : Nat) (st : State) (work : List Nat) (st1 : State),
      deleteDeadLoop fuel st work = some st1 → Inv st work → Inv st1 [] := by
  intro fuel
  induction fuel with
  | zero =>
    intro st work st1 h hinv
    rw [deleteDeadLoop] at h
    split at h
    · rename_i hemp
      simp only [Option.some.injEq] at h
      rw [← h]
      rwa [List.isEmpty_iff.mp hemp] at hinv
    · cases h
  | succ fuel ih =>
    intro st work st1 h hinv
    rw [deleteDeadLoop] at h
    split at h
    · rename_i hlast
      simp only [Option.some.injEq] at h
      rw [← h]
      rwa [List.getLast?_eq_none_iff.mp hlast] at hinv
    · rename_i i hlast
      split at h
      · cases h
      · rename_i I hI
        exact ih _ _ st1 h (hstep st work i I hlast hI hinv)

theorem WorkOK.erase_step {st : State} {work : List Nat} {i : Nat} {I : Instruction}
    (h : WorkOK st work) (hlast : work.getLast? = some i) (hI : st.getInst? i = some I) :
    WorkOK (eraseFromParent st i) (nullOperands st I I.operands work.dropLast) := by
  obtain ⟨ys, rfl⟩ := List.getLast?_eq_some_iff.mp hlast
  obtain ⟨hImem, hIid⟩ := (getInst?_eq_some_iff h.ids i I).mp hI
  have hdrop : (ys ++ [i]).dropLast = ys := by simp
  rw [hdrop]
  have hnd := List.nodup_append.mp h.nodup
  have hiys : i ∉ ys := fun hmem => hnd.2.2 hmem (List.mem_singleton_self i)
  have hself : Value.inst i ∉ I.operands :=
    (hasUses_eq_false_iff st _).mp (h.unused i (by simp)) I hImem
  refine ⟨ids_eraseFromParent_nodup st i h.ids, ?_, ?_, ?_⟩
  · apply nullOperands_nodup st I I.operands ys hnd.1
    intro k hk
    exact (hasUses_eq_false_iff st _).mp (h.unused k (by simp [hk])) I hImem
  · intro k hk
    rcases (mem_nullOperands_iff st I I.operands ys k).mp hk with hk | ⟨hop, _, OpI, hO, _⟩
    · obtain ⟨J, hJ, hid⟩ := h.present k (by simp [hk])
      refine ⟨J, (mem_insts_eraseFromParent st i J).mpr ⟨hJ, ?_⟩, hid⟩
      rw [hid]
      intro hki
      exact hiys (hki ▸ hk)
    · obtain ⟨hOmem, hOid⟩ := (getInst?_eq_some_iff h.ids k OpI).mp hO
      refine ⟨OpI, (mem_insts_eraseFromParent st i OpI).mpr ⟨hOmem, ?_⟩, hOid⟩
      rw [hOid]
      intro hki
      exact hself (hki ▸ hop)
  · intro k hk
    rcases (mem_nullOperands_iff st I I.operands ys k).mp hk with hk | ⟨_, hun, _⟩
    · rw [hasUses_eq_false_iff]
      intro J hJ
      exact (hasUses_eq_false_iff st _).mp (h.unused k (by simp [hk])) J
        ((mem_insts_eraseFromParent st i J).mp hJ).1
    · rw [← hIid]
      exact hun

theorem deleteDeadLoop_total :
    ∀ (fuel : Nat) (st : State) (work : List Nat), WorkOK st work → st.insts.length ≤ fuel →
      ∃ st1, deleteDeadLoop fuel st work = some st1 := by
  intro fuel
  induction fuel with
  | zero =>
    intro st work h hlen
    have hnil : st.insts = [] := List.length_eq_zero.mp (by omega)
    have hw : work = [] := by
      cases work with
      | nil => rfl
      | cons k rest =>
        obtain ⟨J, hJ, _⟩ := h.present k (List.mem_cons_self _ _)
        rw [hnil] at hJ
        cases hJ
    exact ⟨st, by simp [deleteDeadLoop, hw]⟩
  | succ fuel ih =>
    intro st work h hlen
    rw [deleteDeadLoop]
    cases hlast : work.getLast? with
    | none => exact ⟨st, rfl⟩
    | some i =>
      simp only
      obtain ⟨J, hJ, hid⟩ := h.present i (List.mem_of_mem_getLast? hlast)
      have hI := (getInst?_eq_some_iff h.ids i J).mpr ⟨hJ, hid⟩
      simp only [hI]
      apply ih _ _ (h.erase_step hlast hI)
      have hlt : (eraseFromParent st i).insts.length < st.insts.length := by
        rw [insts_eraseFromParent]
        exact List.length_filter_lt_length_iff_exists.mpr ⟨J, hJ, by simp [hid]⟩
      omega

/-! ## The instructions of a chain -/

theorem ChainNode.isSome {st : State} {op : BinOp} {R x : Nat} (h : ChainNode st op R x) :
    (dynCastBinOp st op (.inst x)).isSome := by
  cases h with
  | root h => exact h
  | step _ _ _ _ _ _ _ h => exact h

theorem ChainNode.root_isSome {st : State} {op : BinOp} {R x : Nat}
    (h : ChainNode st op R x) : (dynCastBinOp st op (.inst R)).isSome := by
  induction h with
  | root h => exact h
  | step _ _ _ _ _ _ _ _ ih => exact ih

theorem ChainNode.subtree {st : State} {op : BinOp} {R : Nat} {T : Tree Value}
    (hT : ChainTree st op (.inst R) T) {x : Nat} (h : ChainNode st op R x) :
    ∃ Tx, ChainTree st op (.inst x) Tx ∧ (∀ y ∈ Tx.leaves, y ∈ T.leaves) ∧
      (x = R ∧ Tx = T ∨ Tx.depth < T.depth) := by
  induction h with
  | root _ => exact ⟨T, hT, fun _ h => h, Or.inl ⟨rfl, rfl⟩⟩
  | step x j a b _ hx hj _ ih =>
    obtain ⟨Tx, hTx, hsub, hdep⟩ := ih
    have hle : Tx.depth ≤ T.depth := by
      rcases hdep with ⟨_, h⟩ | h
      · rw [h]
      · omega
    cases hTx with
    | leaf _ h => rw [hx] at h; cases h
    | node _ a2 b2 ta tb h2 ha hb =>
      rw [hx] at h2
      simp only [Option.some.injEq, Prod.mk.injEq] at h2
      obtain ⟨rfl, rfl⟩ := h2
      simp only [Tree.depth] at hle
      rcases hj with rfl | rfl
      · exact ⟨ta, ha, fun y hy => hsub y (by simp [Tree.leaves, hy]), Or.inr (by omega)⟩
      · exact ⟨tb, hb, fun y hy => hsub y (by simp [Tree.leaves, hy]), Or.inr (by omega)⟩

/-- No instruction of a finite chain has the root of the chain as an operand. -/
theorem ChainNode.operand_ne_root {st : State} {op : BinOp} {R : Nat} {T : Tree Value}
    (hT : ChainTree st op (.inst R) T) {x : Nat} (h : ChainNode st op R x) {a b : Value}
    (hx : dynCastBinOp st op (.inst x) = some (a, b)) : a ≠ .inst R ∧ b ≠ .inst R := by
  have hR := h.root_isSome
  have key : ∀ v, (v = a ∨ v = b) → v ≠ .inst R := by
    intro v hv hvR
    have hstep : ChainNode st op R R :=
      .step x R a b h hx (by rcases hv with h1 | h1 <;> [exact Or.inl (h1 ▸ hvR); exact Or.inr (h1 ▸ hvR)]) hR
    obtain ⟨Tx, hTx, _, hdep⟩ := h.subtree hT
    have hle : Tx.depth ≤ T.depth := by
      rcases hdep with ⟨_, h⟩ | h
      · rw [h]
      · omega
    cases hTx with
    | leaf _ h => rw [hx] at h; cases h
    | node _ a2 b2 ta tb h2 ha hb =>
      rw [hx] at h2
      simp only [Option.some.injEq, Prod.mk.injEq] at h2
      obtain ⟨rfl, rfl⟩ := h2
      simp only [Tree.depth] at hle
      rcases hv with rfl | rfl
      · rw [hvR] at ha
        have := ha.unique hT
        rw [this] at hle
        omega
      · rw [hvR] at hb
        have := hb.unique hT
        rw [this] at hle
        omega
  exact ⟨key a (Or.inl rfl), key b (Or.inr rfl)⟩

/-- An operand of an instruction of the chain is an instruction of the chain or a leaf. -/
theorem ChainNode.operand_cases {st : State} {op : BinOp} {R : Nat} {T : Tree Value}
    (hT : ChainTree st op (.inst R) T) {x : Nat} (h : ChainNode st op R x) {a b : Value}
    (hx : dynCastBinOp st op (.inst x) = some (a, b)) (v : Value) (hv : v = a ∨ v = b) :
    (∃ j, v = .inst j ∧ ChainNode st op R j) ∨ (v ∈ T.leaves ∧ dynCastBinOp st op v = none) := by
  by_cases hs : (dynCastBinOp st op v).isSome
  · left
    cases v with
    | inst j => exact ⟨j, rfl, .step x j a b h hx (by rcases hv with h1 | h1 <;> simp [h1]) hs⟩
    | constInt bits val => simp [dynCastBinOp] at hs
    | arg n => simp [dynCastBinOp] at hs
  · right
    have hnone : dynCastBinOp st op v = none := by simpa using hs
    refine ⟨?_, hnone⟩
    obtain ⟨Tx, hTx, hsub, _⟩ := h.subtree hT
    cases hTx with
    | leaf _ h => rw [hx] at h; cases h
    | node _ a2 b2 ta tb h2 ha hb =>
      rw [hx] at h2
      simp only [Option.some.injEq, Prod.mk.injEq] at h2
      obtain ⟨rfl, rfl⟩ := h2
      apply hsub
      simp only [Tree.leaves, List.mem_append]
      rcases hv with rfl | rfl
      · left
        cases ha with
        | leaf _ _ => simp [Tree.leaves]
        | node _ _ _ _ _ h3 _ _ => rw [hnone] at h3; cases h3
      · right
        cases hb with
        | leaf _ _ => simp [Tree.leaves]
        | node _ _ _ _ _ h3 _ _ => rw [hnone] at h3; cases h3

/-- Every instruction of the chain but the root is an operand of an instruction of the
chain. -/
theorem ChainNode.parent {st : State} {op : BinOp} {R x : Nat} (h : ChainNode st op R x) :
    x = R ∨ ∃ p a b, ChainNode st op R p ∧ dynCastBinOp st op (.inst p) = some (a, b) ∧
      (a = .inst x ∨ b = .inst x) := by
  cases h with
  | root _ => exact Or.inl rfl
  | step p _ a b hp hpx hj _ => exact Or.inr ⟨p, a, b, hp, hpx, hj⟩

/-! ## The anatomy of a successful rewrite -/

theorem Rewritten.root_ne {op : BinOp} {fuel : Nat} {st : State} {R : Nat} {st2 : State}
    {L : List Value} {st1 : State} {V : Value} {T : Tree Value} {I : Instruction}
    {op0 op1 : Value} (h : Rewritten op fuel st R st2 L st1 V T I op0 op1) :
    V ≠ .inst R ∧ (∀ n, V ≠ .arg n) ∧ ∀ j, V = .inst j → j < st1.nextId := by
  have hRlt : R < st.nextId := by
    obtain ⟨hmem, hid⟩ := mem_insts_of_getInst? h.hI
    have := h.wf.fresh I hmem
    omega
  have hne : L ≠ [] := by
    intro hnil
    have := h.building.cur_ok V (List.mem_singleton_self V)
    have hb := h.hbuild
    rw [buildTree_eq_reduceLevels, hnil] at hb
    have : ∀ f (s : State), reduceLevels (createAndRecord op R) f s [] = none := by
      intro f
      induction f with
      | zero => intro s; rfl
      | succ f ih => intro s; exact ih _
    rw [this] at hb
    cases hb
  have hlen := List.length_pos.mpr hne
  by_cases h2 : 2 ≤ L.length
  · obtain ⟨i, hi, hlo⟩ := h.rootNew h2
    refine ⟨?_, ?_, ?_⟩
    · rw [hi]
      intro heq
      simp only [Value.inst.injEq] at heq
      omega
    · intro n; rw [hi]; intro heq; cases heq
    · intro j hj
      rcases h.building.cur_ok V (List.mem_singleton_self V) with hL | ⟨j2, hj2, _, hlt⟩
      · have := h.building.nextId_le
        have hcl : ∀ x ∈ L, ∀ j, x = .inst j → j < st.nextId := by
          have := (collectLeaves_facts h.wf h.hcollect)
          obtain ⟨_, _, _, _, _, _, _, _, _, _, _, _, _, _, _, hclosed⟩ := this
          exact hclosed
        have := hcl V hL j hj
        omega
      · rw [hj] at hj2
        simp only [Value.inst.injEq] at hj2
        omega
  · have hc := h.rootConst (by omega)
    refine ⟨?_, ?_, ?_⟩
    · intro heq; rw [heq] at hc; cases hc
    · intro n heq; rw [heq] at hc; cases hc
    · intro j heq; rw [heq] at hc; cases hc

theorem tryReorderInt_rewritten {op : BinOp} {fuel : Nat} {st st2 : State} {R : Nat}
    (hwf : WF st) (h : tryReorderInt op fuel st R = some (true, st2)) :
    ∃ L st1 V T I op0 op1, Rewritten op fuel st R st2 L st1 V T I op0 op1 := by
  obtain ⟨L, st1, V, _, hL, hb, hr⟩ := tryReorderInt_true_inv h
  obtain ⟨I, op0, op1, T, hI, hk, hv, hguard, hT, hdepth, h3, hshape, hR, hc, hne, hclosed⟩ :=
    collectLeaves_facts hwf hL
  obtain ⟨hbuilding, T2, hT2, hleaves, hnodes⟩ := buildTree_spec_of_some hwf hR hc hclosed hb
  have hfuel : Nat.clog 2 L.length < fuel := by
    by_contra hlt
    rw [buildTree_eq_reduceLevels, reduceLevels_fuel_le _ _ _ _ (by omega)] at hb
    cases hb
  obtain ⟨st1b, Vb, hresb, hbig, hsmall, _, _⟩ :=
    builder_root_kind_aux op fuel fuel st R L hwf hL hfuel
  rw [hb] at hresb
  simp only [Option.some.injEq, Prod.mk.injEq] at hresb
  obtain ⟨rfl, rfl⟩ := hresb
  have hrootNew : 2 ≤ L.length → ∃ i, V = .inst i ∧ st.nextId ≤ i := by
    intro h2
    obtain ⟨J, hJ, hVJ, _, hnone⟩ := hbig h2
    refine ⟨J.id, hVJ, ?_⟩
    rcases hbuilding.insts_mem J hJ with hold | hnew
    · exact absurd rfl ((getInst?_eq_none_iff st J.id).mp hnone J hold)
    · exact hnew
  have hrootConst : L.length = 1 → isConstantInt V = true := fun h1 => (hsmall h1).2.1
  -- the last part of the run
  have hVR : V ≠ .inst R := by
    have hRlt : R < st.nextId := by
      obtain ⟨hmem, hid⟩ := mem_insts_of_getInst? hI
      have := hwf.fresh I hmem
      omega
    by_cases h2 : 2 ≤ L.length
    · obtain ⟨i, hi, hlo⟩ := hrootNew h2
      rw [hi]
      intro heq
      simp only [Value.inst.injEq] at heq
      omega
    · have h1 : L.length = 1 := by
        have := List.length_pos.mpr hne
        omega
      intro heq
      have := hrootConst h1
      rw [heq] at this
      cases this
  have hdel : deleteDeadLoop fuel (replaceAllUsesWith st1 (.inst R) V) [R] = some st2 := by
    obtain ⟨hmem, hid⟩ := mem_insts_of_getInst? hI
    have hmem1 := hbuilding.old_mem I hmem
    have hnd : (replaceAllUsesWith st1 (.inst R) V).ids.Nodup := by
      rw [ids_replaceAllUsesWith]
      exact hbuilding.wf.nodup
    have hI1 : (replaceAllUsesWith st1 (.inst R) V).getInst? R =
        some (I.replaceUsesOfWith (.inst R) V) := by
      rw [getInst?_eq_some_iff hnd]
      refine ⟨?_, hid⟩
      rw [insts_replaceAllUsesWith]
      exact List.mem_map.mpr ⟨I, hmem1, rfl⟩
    have hdead : isInstructionTriviallyDead (replaceAllUsesWith st1 (.inst R) V)
        (I.replaceUsesOfWith (.inst R) V) = true := by
      simp only [isInstructionTriviallyDead, id_replaceUsesOfWith, hid,
        hasUses_replaceAllUsesWith_self st1 (.inst R) V hVR, Bool.not_false, Bool.true_and]
      simp [wouldInstructionBeTriviallyDead, Instruction.replaceUsesOfWith, hk]
    unfold replaceAndDelete at hr
    cases V with
    | arg n => simp at hr
    | inst j =>
      simp only [RecursivelyDeleteTriviallyDeadInstructions, hI1, hdead, if_true,
        Option.map_eq_some'] at hr
      obtain ⟨s2, hs2, heq⟩ := hr
      simp only [Prod.mk.injEq, true_and] at heq
      rw [← heq]
      exact hs2
    | constInt bits val =>
      simp only [RecursivelyDeleteTriviallyDeadInstructions, hI1, hdead, if_true,
        Option.map_eq_some'] at hr
      obtain ⟨s2, hs2, heq⟩ := hr
      simp only [Prod.mk.injEq, true_and] at heq
      rw [← heq]
      exact hs2
  exact ⟨L, st1, V, T, I, op0, op1,
    { wf := hwf, hI := hI, hk := hk, hv := hv, hguard := hguard, hT := hT, hdepth := hdepth,
      h3 := h3, hshape := hshape, hne := hne, hclosed := hclosed, hcollect := hL, hbuild := hb,
      building := hbuilding,
      rootNew := hrootNew, rootConst := hrootConst, hdel := hdel }⟩

/-! ## The cascade of deletions started at the replaced root -/

theorem dynCastBinOp_inst_eq_some_iff {st : State} (hn : st.ids.Nodup) (op : BinOp) (x : Nat)
    (a b : Value) :
    dynCastBinOp st op (.inst x) = some (a, b) ↔
      ∃ J ∈ st.insts, J.id = x ∧ J.kind = .binop op a b := by
  constructor
  · intro h
    obtain ⟨J, hJ, hk⟩ := getInst?_of_dynCastBinOp h
    obtain ⟨hmem, hid⟩ := mem_insts_of_getInst? hJ
    exact ⟨J, hmem, hid, hk⟩
  · rintro ⟨J, hmem, hid, hk⟩
    have hJ := (getInst?_eq_some_iff hn x J).mpr ⟨hmem, hid⟩
    simp [dynCastBinOp, hJ, hk]

theorem insts_sublist_of_forall₂ {b1 b2 : List (List Instruction)}
    (h : List.Forall₂ (fun B1 B => List.Sublist B B1) b1 b2) :
    List.Sublist b2.flatten b1.flatten := by
  induction h with
  | nil => exact List.Sublist.refl _
  | cons hab _ ih =>
    simp only [List.flatten_cons]
    exact List.Sublist.append hab ih

theorem Cascade.sub {op : BinOp} {st : State} {R : Nat} {sp s : State} {work : List Nat}
    (h : Cascade op st R sp s work) : ∀ J ∈ s.insts, J ∈ sp.insts :=
  fun _ hJ => (insts_sublist_of_forall₂ h.blocks).subset hJ

/-- An instruction of the chain is in the state after `replaceAllUsesWith` as it was on
entry. -/
theorem Rewritten.chain_inst {op : BinOp} {fuel : Nat} {st : State} {R : Nat} {st2 : State}
    {L : List Value} {st1 : State} {V : Value} {T : Tree Value} {I : Instruction}
    {op0 op1 : Value} (h : Rewritten op fuel st R st2 L st1 V T I op0 op1) {x : Nat}
    (hx : ChainNode st op R x) :
    ∃ J a b, J ∈ st.insts ∧ J.id = x ∧ J.kind = .binop op a b ∧
      dynCastBinOp st op (.inst x) = some (a, b) ∧ x < st.nextId ∧
      J ∈ (replaceAllUsesWith st1 (.inst R) V).insts ∧
      ∀ K ∈ (replaceAllUsesWith st1 (.inst R) V).insts, K.id = x → K = J := by
  have hs := hx.isSome
  obtain ⟨⟨a, b⟩, hab⟩ := Option.isSome_iff_exists.mp hs
  obtain ⟨J, hJmem, hJid, hJk⟩ := (dynCastBinOp_inst_eq_some_iff h.wf.nodup op x a b).mp hab
  obtain ⟨ha, hb⟩ := hx.operand_ne_root h.hT hab
  have himg : J.replaceUsesOfWith (.inst R) V = J := by
    cases J with
    | mk id ty kind =>
      simp only at hJk
      subst hJk
      simp [Instruction.replaceUsesOfWith, ha, hb]
  have hJp : J ∈ (replaceAllUsesWith st1 (.inst R) V).insts := by
    rw [insts_replaceAllUsesWith]
    exact List.mem_map.mpr ⟨J, h.building.old_mem J hJmem, himg⟩
  have hnd : (replaceAllUsesWith st1 (.inst R) V).ids.Nodup := by
    rw [ids_replaceAllUsesWith]
    exact h.building.wf.nodup
  refine ⟨J, a, b, hJmem, hJid, hJk, hab, ?_, hJp, ?_⟩
  · have := h.wf.fresh J hJmem
    omega
  · intro K hK hKid
    have h1 := (getInst?_eq_some_iff hnd x K).mpr ⟨hK, hKid⟩
    have h2 := (getInst?_eq_some_iff hnd x J).mpr ⟨hJp, hJid⟩
    rw [h1] at h2
    exact Option.some.inj h2

/-- A leaf of the chain that is an instruction is an operand of an instruction created by the
builder, in the state after `replaceAllUsesWith`. -/
theorem Rewritten.leaf_used {op : BinOp} {fuel : Nat} {st : State} {R : Nat} {st2 : State}
    {L : List Value} {st1 : State} {V : Value} {T : Tree Value} {I : Instruction}
    {op0 op1 : Value} (h : Rewritten op fuel st R st2 L st1 V T I op0 op1) {k : Nat}
    (hk : Value.inst k ∈ T.leaves) :
    ∃ J ∈ (replaceAllUsesWith st1 (.inst R) V).insts, st.nextId ≤ J.id ∧
      Value.inst k ∈ J.operands := by
  have hkL : Value.inst k ∈ L := by
    rw [h.hshape]
    simp only [List.mem_append, List.mem_filter]
    left
    by_cases hl : isLoadInst st (.inst k) = true
    · exact Or.inl ⟨hk, hl⟩
    · exact Or.inr ⟨hk, by simp [hl, isConstantInt]⟩
  have hklt := h.hclosed _ hkL k rfl
  have hnone := h.hT.leaves_not_chain _ hk
  have hkR : Value.inst k ≠ .inst R := by
    intro heq
    rw [heq, h.hv] at hnone
    cases hnone
  rcases h.building.used _ hkL with hcur | ⟨J, hJ, hlo, hop⟩
  · exfalso
    simp only [List.mem_singleton] at hcur
    by_cases h2 : 2 ≤ L.length
    · obtain ⟨i, hi, hlo⟩ := h.rootNew h2
      rw [hi] at hcur
      simp only [Value.inst.injEq] at hcur
      omega
    · have h1 : L.length = 1 := by
        have := List.length_pos.mpr h.hne
        omega
      have := h.rootConst h1
      rw [← hcur] at this
      cases this
  · refine ⟨J.replaceUsesOfWith (.inst R) V, ?_, hlo, ?_⟩
    · rw [insts_replaceAllUsesWith]
      exact List.mem_map.mpr ⟨J, hJ, rfl⟩
    · rw [operands_replaceUsesOfWith]
      exact List.mem_map.mpr ⟨.inst k, hop, by simp [hkR]⟩

theorem Rewritten.cascade_init {op : BinOp} {fuel : Nat} {st : State} {R : Nat} {st2 : State}
    {L : List Value} {st1 : State} {V : Value} {T : Tree Value} {I : Instruction}
    {op0 op1 : Value} (h : Rewritten op fuel st R st2 L st1 V T I op0 op1) :
    Cascade op st R (replaceAllUsesWith st1 (.inst R) V)
      (replaceAllUsesWith st1 (.inst R) V) [R] := by
  have hroot : ChainNode st op R R := .root (by rw [h.hv]; rfl)
  have hnd : (replaceAllUsesWith st1 (.inst R) V).ids.Nodup := by
    rw [ids_replaceAllUsesWith]
    exact h.building.wf.nodup
  refine
    { ok := ⟨hnd, List.nodup_singleton R, ?_, ?_⟩
      chain := ?_
      blocks := ?_
      kept := fun J hJ _ => hJ
      dead := ?_
      rootGone := Or.inl (List.mem_singleton_self R)
      name_eq := rfl
      gen_eq := rfl
      nextId_eq := rfl }
  · intro i hi
    simp only [List.mem_singleton] at hi
    subst hi
    obtain ⟨J, _, _, _, hid, _, _, _, hJp, _⟩ := h.chain_inst hroot
    exact ⟨J, hJp, hid⟩
  · intro i hi
    simp only [List.mem_singleton] at hi
    subst hi
    exact hasUses_replaceAllUsesWith_self st1 _ V h.root_ne.1
  · intro i hi
    simp only [List.mem_singleton] at hi
    subst hi
    exact hroot
  · exact List.forall₂_same.mpr (fun _ _ => List.Sublist.refl _)
  · intro x hx _
    rcases hx.parent with hxR | ⟨p, a, b, hp, hpab, hor⟩
    · exact Or.inl (by simp [hxR])
    · right
      obtain ⟨J, a2, b2, _, _, hJk, hab2, _, hJp, _⟩ := h.chain_inst hp
      rw [hpab] at hab2
      simp only [Option.some.injEq, Prod.mk.injEq] at hab2
      obtain ⟨rfl, rfl⟩ := hab2
      rw [hasUses_iff]
      refine ⟨J, hJp, ?_⟩
      simp only [Instruction.operands, hJk]
      rcases hor with h1 | h1 <;> simp [h1]

theorem Rewritten.cascade_step {op : BinOp} {fuel : Nat} {st : State} {R : Nat} {st2 : State}
    {L : List Value} {st1 : State} {V : Value} {T : Tree Value} {I : Instruction}
    {op0 op1 : Value} (h : Rewritten op fuel st R st2 L st1 V T I op0 op1)
    (s : State) (work : List Nat) (i : Nat) (Ii : Instruction)
    (hlast : work.getLast? = some i) (hI : s.getInst? i = some Ii)
    (hc : Cascade op st R (replaceAllUsesWith st1 (.inst R) V) s work) :
    Cascade op st R (replaceAllUsesWith st1 (.inst R) V) (eraseFromParent s i)
      (nullOperands s Ii Ii.operands work.dropLast) := by
  have hok := hc.ok.erase_step hlast hI
  obtain ⟨ys, rfl⟩ := List.getLast?_eq_some_iff.mp hlast
  have hdrop : (ys ++ [i]).dropLast = ys := by simp
  rw [hdrop] at hok ⊢
  have hichain : ChainNode st op R i := hc.chain i (by simp)
  obtain ⟨hImem, hIid⟩ := (getInst?_eq_some_iff hc.ok.ids i Ii).mp hI
  obtain ⟨J, a, b, hJmem, hJid, hJk, hab, hilt, hJp, hJuniq⟩ := h.chain_inst hichain
  have hIJ : Ii = J := hJuniq Ii (hc.sub Ii hImem) hIid
  subst hIJ
  have hops : Ii.operands = [a, b] := by simp [Instruction.operands, hJk]
  have hnd := List.nodup_append.mp hc.ok.nodup
  have hiys : i ∉ ys := fun hmem => hnd.2.2 hmem (List.mem_singleton_self i)
  refine
    { ok := hok
      chain := ?_
      blocks := ?_
      kept := ?_
      dead := ?_
      rootGone := ?_
      name_eq := hc.name_eq
      gen_eq := hc.gen_eq
      nextId_eq := hc.nextId_eq }
  · intro k hk
    rcases (mem_nullOperands_iff s Ii Ii.operands ys k).mp hk with hk | ⟨hop, hun, _⟩
    · exact hc.chain k (by simp [hk])
    · rw [hops] at hop
      have hv : Value.inst k = a ∨ Value.inst k = b := by simpa using hop
      rcases hichain.operand_cases h.hT hab (.inst k) hv with ⟨j, hj, hjc⟩ | ⟨hleaf, _⟩
      · simp only [Value.inst.injEq] at hj
        rw [hj]
        exact hjc
      · exfalso
        obtain ⟨K, hK, hKlo, hKop⟩ := h.leaf_used hleaf
        have hKs : K ∈ s.insts := hc.kept K hK (by
          intro hKc
          obtain ⟨_, _, _, _, _, _, _, hlt, _, _⟩ := h.chain_inst hKc
          omega)
        have hKe : K ∈ (eraseFromParent s Ii.id).insts :=
          (mem_insts_eraseFromParent s Ii.id K).mpr ⟨hKs, by omega⟩
        have := (hasUses_eq_false_iff _ _).mp hun K hKe
        exact this hKop
  · have hb := hc.blocks
    simp only [eraseFromParent]
    rw [List.forall₂_map_right_iff]
    exact hb.imp (fun _ _ hsub => (List.filter_sublist _).trans hsub)
  · intro K hK hKc
    refine (mem_insts_eraseFromParent s i K).mpr ⟨hc.kept K hK hKc, ?_⟩
    intro hKi
    exact hKc (hKi ▸ hichain)
  · intro x hx hpres
    obtain ⟨K, hK, hKid⟩ := hpres
    obtain ⟨hKs, hKi⟩ := (mem_insts_eraseFromParent s i K).mp hK
    have hxi : x ≠ i := by rw [← hKid]; exact hKi
    rcases hc.dead x hx ⟨K, hKs, hKid⟩ with hw | hu
    · left
      have hxys : x ∈ ys := by
        rcases List.mem_append.mp hw with h1 | h1
        · exact h1
        · exact absurd (List.mem_singleton.mp h1) hxi
      exact (mem_nullOperands_iff s Ii Ii.operands ys x).mpr (Or.inl hxys)
    · by_cases hu2 : hasUses (eraseFromParent s i) (.inst x) = true
      · exact Or.inr hu2
      · left
        have hu2f : hasUses (eraseFromParent s i) (.inst x) = false := by simpa using hu2
        obtain ⟨U, hU, hUop⟩ := (hasUses_iff s _).mp hu
        have hUi : U.id = i := by
          by_contra hne
          have := (hasUses_eq_false_iff _ _).mp hu2f U
            ((mem_insts_eraseFromParent s i U).mpr ⟨hU, hne⟩)
          exact this hUop
        have hUI : U = Ii := by
          have h1 := (getInst?_eq_some_iff hc.ok.ids i U).mpr ⟨hU, hUi⟩
          rw [hI] at h1
          exact (Option.some.inj h1).symm
        rw [hUI] at hUop
        obtain ⟨Kx, ax, bx, _, hKxid, hKxk, _, _, hKxp, hKxu⟩ := h.chain_inst hx
        have hKK : K = Kx := hKxu K (hc.sub K hKs) hKid
        have hgx : s.getInst? x = some K :=
          (getInst?_eq_some_iff hc.ok.ids x K).mpr ⟨hKs, hKid⟩
        refine (mem_nullOperands_iff s Ii Ii.operands ys x).mpr (Or.inr ⟨hUop, ?_, K, hgx, ?_⟩)
        · rw [hIid]; exact hu2f
        · rw [hKK]
          simp [wouldInstructionBeTriviallyDead, hKxk]
  · rcases hc.rootGone with hw | hg
    · by_cases hRi : R = i
      · right
        rintro ⟨K, hK, hKid⟩
        exact ((mem_insts_eraseFromParent s i K).mp hK).2 (hKid.trans hRi)
      · left
        have hRys : R ∈ ys := by
          rcases List.mem_append.mp hw with h1 | h1
          · exact h1
          · exact absurd (List.mem_singleton.mp h1) hRi
        exact (mem_nullOperands_iff s Ii Ii.operands ys R).mpr (Or.inl hRys)
    · right
      rintro ⟨K, hK, hKid⟩
      exact hg ⟨K, ((mem_insts_eraseFromParent s i K).mp hK).1, hKid⟩

/-- The state on return of a successful rewrite satisfies the invariant of the cascade with an
empty worklist. -/
theorem Rewritten.cascade {op : BinOp} {fuel : Nat} {st : State} {R : Nat} {st2 : State}
    {L : List Value} {st1 : State} {V : Value} {T : Tree Value} {I : Instruction}
    {op0 op1 : Value} (h : Rewritten op fuel st R st2 L st1 V T I op0 op1) :
    Cascade op st R (replaceAllUsesWith st1 (.inst R) V) st2 [] :=
  deleteDeadLoop_invariant (Cascade op st R (replaceAllUsesWith st1 (.inst R) V))
    (fun s work i Ii hlast hI hc => h.cascade_step s work i Ii hlast hI hc)
    fuel _ [R] st2 h.hdel h.cascade_init

/-! ## Dead-code cleanup after a rewrite -/

/-- An instruction of the state on entry that is not in the chain of the root is still in the
function on return, with the replaced root among its operands exchanged for the new root. -/
theorem Rewritten.survives {op : BinOp} {fuel : Nat} {st : State} {R : Nat} {st2 : State}
    {L : List Value} {st1 : State} {V : Value} {T : Tree Value} {I : Instruction}
    {op0 op1 : Value} (h : Rewritten op fuel st R st2 L st1 V T I op0 op1)
    {J : Instruction} (hJ : J ∈ st.insts) (hnc : ¬ ChainNode st op R J.id) :
    J.replaceUsesOfWith (.inst R) V ∈ st2.insts := by
  apply h.cascade.kept
  · rw [insts_replaceAllUsesWith]
    exact List.mem_map.mpr ⟨J, h.building.old_mem J hJ, rfl⟩
  · exact hnc

/-- An instruction created by the rewrite is in the function on return. -/
theorem Rewritten.created_survives {op : BinOp} {fuel : Nat} {st : State} {R : Nat}
    {st2 : State} {L : List Value} {st1 : State} {V : Value} {T : Tree Value}
    {I : Instruction} {op0 op1 : Value} (h : Rewritten op fuel st R st2 L st1 V T I op0 op1)
    {i : Nat} (hlo : st.nextId ≤ i) (hhi : i < st1.nextId) :
    HasInst st2 i ∧ Value.inst i ∈ st2.generatedI := by
  obtain ⟨J, hJ, hid⟩ := h.building.created_ex i hlo hhi
  constructor
  · refine ⟨J.replaceUsesOfWith (.inst R) V, ?_, hid⟩
    apply h.cascade.kept
    · rw [insts_replaceAllUsesWith]
      exact List.mem_map.mpr ⟨J, hJ, rfl⟩
    · intro hc
      obtain ⟨_, _, _, _, _, _, _, hlt, _, _⟩ := h.chain_inst hc
      rw [id_replaceUsesOfWith, hid] at hlt
      omega
  · rw [h.cascade.gen_eq]
    exact (h.building.gen_iff _).mpr (Or.inr ⟨i, rfl, hlo, hhi⟩)

/-- C13. Dead-code cleanup after a rewrite: when `tryReorderInt` returns `true` for the root
`R` of a well-formed body, then in the state on return (1) no instruction has the id `R`,
(2) no instruction has `R` as an operand, (3) every instruction that had `R` as an operand is
present with `R` exchanged for the new root `V` left by the builder, (4) every instruction of
the old chain that has no use is gone, and (5) every leaf of the chain that is an instruction
of the function is still in the function. -/
theorem tryReorderInt_cleanup (op : BinOp) (fuel : Nat) (st st2 : State) (R : Nat)
    (hwf : WF st) (h : tryReorderInt op fuel st R = some (true, st2)) :
    ¬ HasInst st2 R ∧ hasUses st2 (.inst R) = false ∧
    (∃ L st1 V, buildStage op fuel st R = some (L, st1, V) ∧ V ≠ .inst R ∧
      ∀ J ∈ st.insts, Value.inst R ∈ J.operands →
        J.replaceUsesOfWith (.inst R) V ∈ st2.insts ∧
          V ∈ (J.replaceUsesOfWith (.inst R) V).operands) ∧
    (∀ x, ChainNode st op R x → hasUses st2 (.inst x) = false → ¬ HasInst st2 x) ∧
    (∀ T, ChainTree st op (.inst R) T → ∀ j, Value.inst j ∈ T.leaves → HasInst st j →
      HasInst st2 j) := by
  obtain ⟨L, st1, V, T, I, op0, op1, hrw⟩ := tryReorderInt_rewritten hwf h
  have hc := hrw.cascade
  refine ⟨?_, ?_, ⟨L, st1, V, ?_, hrw.root_ne.1, ?_⟩, ?_, ?_⟩
  · rcases hc.rootGone with h1 | h1
    · cases h1
    · exact h1
  · rw [hasUses_eq_false_iff]
    intro J hJ
    exact (hasUses_eq_false_iff _ _).mp
      (hasUses_replaceAllUsesWith_self st1 (.inst R) V hrw.root_ne.1) J (hc.sub J hJ)
  · simp [buildStage, hrw.hcollect, hrw.hbuild]
  · intro J hJ hop
    constructor
    · apply hrw.survives hJ
      intro hJc
      obtain ⟨K, a, b, hK, hKid, hKk, hab, _, _, _⟩ := hrw.chain_inst hJc
      have h1 := (getInst?_eq_some_iff hwf.nodup J.id K).mpr ⟨hK, hKid⟩
      have h2 := (getInst?_eq_some_iff hwf.nodup J.id J).mpr ⟨hJ, rfl⟩
      rw [h1] at h2
      have hKJ := Option.some.inj h2
      subst hKJ
      obtain ⟨ha, hb⟩ := hJc.operand_ne_root hrw.hT hab
      simp only [Instruction.operands, hKk, List.mem_cons, List.mem_singleton,
        List.not_mem_nil, or_false] at hop
      rcases hop with h3 | h3
      · exact ha h3.symm
      · exact hb h3.symm
    · rw [operands_replaceUsesOfWith]
      exact List.mem_map.mpr ⟨.inst R, hop, by simp⟩
  · intro x hx hun hpres
    rcases hc.dead x hx hpres with h1 | h1
    · cases h1
    · rw [hun] at h1
      cases h1
  · intro T2 hT2 j hj hpres
    have hTT : T2 = T := hT2.unique hrw.hT
    subst hTT
    obtain ⟨J, hJ, hid⟩ := hpres
    refine ⟨J.replaceUsesOfWith (.inst R) V, hrw.survives hJ ?_, hid⟩
    intro hJc
    have hnone := hT2.leaves_not_chain _ hj
    have hs := hJc.isSome
    rw [hid, hnone] at hs
    cases hs

theorem tryReorderInt_cleanup_witness :
    WF exampleConstChain ∧
    tryReorderInt .Add 10 exampleConstChain 6 = some (true, exampleConstChainAfter) ∧
    ¬ HasInst exampleConstChainAfter 6 ∧ hasUses exampleConstChainAfter (.inst 6) = false ∧
    (∃ L st1 V, buildStage .Add 10 exampleConstChain 6 = some (L, st1, V) ∧ V ≠ .inst 6 ∧
      ∀ J ∈ exampleConstChain.insts, Value.inst 6 ∈ J.operands →
        J.replaceUsesOfWith (.inst 6) V ∈ exampleConstChainAfter.insts ∧
          V ∈ (J.replaceUsesOfWith (.inst 6) V).operands) ∧
    (∀ x, ChainNode exampleConstChain .Add 6 x →
      hasUses exampleConstChainAfter (.inst x) = false → ¬ HasInst exampleConstChainAfter x) ∧
    (∀ T, ChainTree exampleConstChain .Add (.inst 6) T → ∀ j, Value.inst j ∈ T.leaves →
      HasInst exampleConstChain j → HasInst exampleConstChainAfter j) :=
  ⟨WF_of_wfCheck (by decide), by decide,
    tryReorderInt_cleanup .Add 10 exampleConstChain exampleConstChainAfter 6
      (WF_of_wfCheck (by decide)) (by decide)⟩

/-! ## Generated instructions and the cascade -/

/-- C20, counterexample. In the two-block function `exampleTwoBlocks` the loop of the first
block leaves the generated instructions `%10` and `%11` in the function and in `generatedI`;
the rewrite of the root `%6` of the second block, whose operand is `%11`, returns `true` and
deletes both; this is the state the pass returns. -/
theorem generated_deleted_counterexample :
    whileAction 20 20 exampleTwoBlocks 0 = some exampleTwoBlocksMid ∧
    Value.inst 10 ∈ exampleTwoBlocksMid.generatedI ∧
    Value.inst 11 ∈ exampleTwoBlocksMid.generatedI ∧
    (exampleTwoBlocksMid.getInst? 10).isSome = true ∧
    (exampleTwoBlocksMid.getInst? 11).isSome = true ∧
    Value.inst 6 ∉ exampleTwoBlocksMid.generatedI ∧
    tryReorderIntAdd 20 exampleTwoBlocksMid 6 = some (true, exampleTwoBlocksAfter) ∧
    exampleTwoBlocksAfter.getInst? 10 = none ∧
    exampleTwoBlocksAfter.getInst? 11 = none ∧
    runOnFunction 20 exampleTwoBlocks = some (false, exampleTwoBlocksAfter) := by
  decide

/-- C20, amended. When `tryReorderInt` returns `true` for the root `R` of a well-formed body,
every instruction created by this rewrite is in the function and in `generatedI` on return,
and every instruction that is gone belonged to the old chain of `R`: an instruction of the
state on entry outside the chain is still in the function. -/
theorem tryReorderInt_keeps_created (op : BinOp) (fuel : Nat) (st st2 : State) (R : Nat)
    (hwf : WF st) (h : tryReorderInt op fuel st R = some (true, st2)) :
    (∀ i, st.nextId ≤ i → i < st2.nextId → HasInst st2 i ∧ Value.inst i ∈ st2.generatedI) ∧
    (∀ J ∈ st.insts, ¬ ChainNode st op R J.id → HasInst st2 J.id) := by
  obtain ⟨L, st1, V, T, I, op0, op1, hrw⟩ := tryReorderInt_rewritten hwf h
  constructor
  · intro i hlo hhi
    rw [hrw.cascade.nextId_eq] at hhi
    exact hrw.created_survives hlo hhi
  · intro J hJ hnc
    exact ⟨_, hrw.survives hJ hnc, rfl⟩

theorem tryReorderInt_keeps_created_witness :
    WF exampleTwoBlocksMid ∧
    tryReorderInt .Add 20 exampleTwoBlocksMid 6 = some (true, exampleTwoBlocksAfter) ∧
    (∀ i, exampleTwoBlocksMid.nextId ≤ i → i < exampleTwoBlocksAfter.nextId →
      HasInst exampleTwoBlocksAfter i ∧ Value.inst i ∈ exampleTwoBlocksAfter.generatedI) ∧
    (∀ J ∈ exampleTwoBlocksMid.insts, ¬ ChainNode exampleTwoBlocksMid .Add 6 J.id →
      HasInst exampleTwoBlocksAfter J.id) :=
  ⟨WF_of_wfCheck (by decide), by decide,
    tryReorderInt_keeps_created .Add 20 exampleTwoBlocksMid exampleTwoBlocksAfter 6
      (WF_of_wfCheck (by decide)) (by decide)⟩

/-! ## The effect of a rewrite on the function body -/

theorem Acyclic_of_acyclicCheck {st : State} (h : acyclicCheck st = true) : Acyclic st := by
  refine ⟨fun j => j, ?_⟩
  intro I hI op a b hk j hj
  have h1 := List.all_eq_true.mp h I hI
  simp only [hk, Bool.and_eq_true] at h1
  rcases hj with rfl | rfl
  · simpa [valueBelow] using h1.1
  · simpa [valueBelow] using h1.2

theorem forall₂_comp {α β γ : Type} {P : α → β → Prop} {Q : β → γ → Prop}
    {S : α → γ → Prop} (hPQ : ∀ a b c, P a b → Q b c → S a c) :
    ∀ {l1 : List α} {l2 : List β} {l3 : List γ}, List.Forall₂ P l1 l2 →
      List.Forall₂ Q l2 l3 → List.Forall₂ S l1 l3 := by
  intro l1 l2 l3 h12
  induction h12 generalizing l3 with
  | nil => intro h23; cases h23; exact List.Forall₂.nil
  | cons hab _ ih =>
    intro h23
    cases h23 with
    | cons hbc hrest => exact List.Forall₂.cons (hPQ _ _ _ hab hbc) (ih hrest)

theorem insts_of_forall₂_rewrite {lo R : Nat} {V : Value} {b1 b2 : List (List Instruction)}
    (h : List.Forall₂
      (fun B B2 => ∀ J2 ∈ B2, (∃ J ∈ B, J2 = J.replaceUsesOfWith (.inst R) V) ∨ lo ≤ J2.id)
      b1 b2) :
    ∀ J2 ∈ b2.flatten,
      (∃ J ∈ b1.flatten, J2 = J.replaceUsesOfWith (.inst R) V) ∨ lo ≤ J2.id := by
  induction h with
  | nil => intro J2 hJ2; simp at hJ2
  | cons hab _ ih =>
    intro J2 hJ2
    simp only [List.flatten_cons, List.mem_append] at hJ2
    rcases hJ2 with h1 | h1
    · rcases hab J2 h1 with ⟨J, hJ, he⟩ | hlo
      · exact Or.inl ⟨J, by simp [hJ], he⟩
      · exact Or.inr hlo
    · rcases ih J2 h1 with ⟨J, hJ, he⟩ | hlo
      · exact Or.inl ⟨J, by simp [hJ], he⟩
      · exact Or.inr hlo

/-- Under a rank of the operand relation, an instruction leaf of the chain tree of an
instruction has a rank not above that of the instruction. -/
theorem ChainTree.rank_le {st : State} {op : BinOp} {rank : Nat → Nat}
    (hrank : ∀ I ∈ st.insts, ∀ op a b, I.kind = .binop op a b →
      ∀ j, (a = .inst j ∨ b = .inst j) → rank j < rank I.id)
    {v : Value} {T : Tree Value} (h : ChainTree st op v T) :
    ∀ x, v = .inst x → ∀ j, Value.inst j ∈ T.leaves → rank j ≤ rank x := by
  induction h with
  | leaf y _ =>
    intro x hx j hj
    simp only [Tree.leaves, List.mem_singleton] at hj
    rw [hx] at hj
    simp only [Value.inst.injEq] at hj
    rw [hj]
  | node y a b ta tb hy hta htb iha ihb =>
    intro x hx j hj
    subst hx
    obtain ⟨I, hI, hk⟩ := getInst?_of_dynCastBinOp hy
    obtain ⟨hmem, hid⟩ := mem_insts_of_getInst? hI
    simp only [Tree.leaves, List.mem_append] at hj
    rcases hj with hj | hj
    · cases a with
      | inst ja =>
        have h1 := hrank I hmem op _ _ hk ja (Or.inl rfl)
        have h2 := iha ja rfl j hj
        rw [hid] at h1
        omega
      | constInt bits val =>
        cases hta with
        | leaf _ _ => simp [Tree.leaves] at hj
        | node _ _ _ _ _ h3 _ _ => simp [dynCastBinOp] at h3
      | arg n =>
        cases hta with
        | leaf _ _ => simp [Tree.leaves] at hj
        | node _ _ _ _ _ h3 _ _ => simp [dynCastBinOp] at h3
    · cases b with
      | inst jb =>
        have h1 := hrank I hmem op _ _ hk jb (Or.inr rfl)
        have h2 := ihb jb rfl j hj
        rw [hid] at h1
        omega
      | constInt bits val =>
        cases htb with
        | leaf _ _ => simp [Tree.leaves] at hj
        | node _ _ _ _ _ h3 _ _ => simp [dynCastBinOp] at h3
      | arg n =>
        cases htb with
        | leaf _ _ => simp [Tree.leaves] at hj
        | node _ _ _ _ _ h3 _ _ => simp [dynCastBinOp] at h3

/-- Under a rank of the operand relation, an instruction leaf of the chain of a root that is an
instruction of the chain's opcode has a smaller rank than the root. -/
theorem ChainTree.rank_lt {st : State} {op : BinOp} {rank : Nat → Nat}
    (hrank : ∀ I ∈ st.insts, ∀ op a b, I.kind = .binop op a b →
      ∀ j, (a = .inst j ∨ b = .inst j) → rank j < rank I.id)
    {x : Nat} {T : Tree Value} (h : ChainTree st op (.inst x) T)
    (hx : (dynCastBinOp st op (.inst x)).isSome) :
    ∀ j, Value.inst j ∈ T.leaves → rank j < rank x := by
  intro j hj
  cases h with
  | leaf _ h0 => rw [h0] at hx; cases hx
  | node _ a b ta tb hy hta htb =>
    obtain ⟨I, hI, hk⟩ := getInst?_of_dynCastBinOp hy
    obtain ⟨hmem, hid⟩ := mem_insts_of_getInst? hI
    simp only [Tree.leaves, List.mem_append] at hj
    rcases hj with hj | hj
    · cases a with
      | inst ja =>
        have h1 := hrank I hmem op _ _ hk ja (Or.inl rfl)
        have h2 := hta.rank_le hrank ja rfl j hj
        rw [hid] at h1
        omega
      | constInt bits val =>
        cases hta with
        | leaf _ _ => simp [Tree.leaves] at hj
        | node _ _ _ _ _ h3 _ _ => simp [dynCastBinOp] at h3
      | arg n =>
        cases hta with
        | leaf _ _ => simp [Tree.leaves] at hj
        | node _ _ _ _ _ h3 _ _ => simp [dynCastBinOp] at h3
    · cases b with
      | inst jb =>
        have h1 := hrank I hmem op _ _ hk jb (Or.inr rfl)
        have h2 := htb.rank_le hrank jb rfl j hj
        rw [hid] at h1
        omega
      | constInt bits val =>
        cases htb with
        | leaf _ _ => simp [Tree.leaves] at hj
        | node _ _ _ _ _ h3 _ _ => simp [dynCastBinOp] at h3
      | arg n =>
        cases htb with
        | leaf _ _ => simp [Tree.leaves] at hj
        | node _ _ _ _ _ h3 _ _ => simp [dynCastBinOp] at h3

/-- An instruction element of the leaf list handed to the builder is a leaf of the chain. -/
theorem Rewritten.inst_mem_L {op : BinOp} {fuel : Nat} {st : State} {R : Nat} {st2 : State}
    {L : List Value} {st1 : State} {V : Value} {T : Tree Value} {I : Instruction}
    {op0 op1 : Value} (h : Rewritten op fuel st R st2 L st1 V T I op0 op1) {j : Nat}
    (hj : Value.inst j ∈ L) : Value.inst j ∈ T.leaves := by
  rw [h.hshape] at hj
  simp only [List.mem_append, List.mem_filter] at hj
  rcases hj with (hj | hj) | hj
  · exact hj.1
  · exact hj.1
  · split at hj
    · simp [ConstantInt.get] at hj
    · cases hj

/-- Every instruction on return is the image under `replaceAllUsesWith` of an instruction
after the builder. -/
theorem Rewritten.image {op : BinOp} {fuel : Nat} {st : State} {R : Nat} {st2 : State}
    {L : List Value} {st1 : State} {V : Value} {T : Tree Value} {I : Instruction}
    {op0 op1 : Value} (h : Rewritten op fuel st R st2 L st1 V T I op0 op1) :
    ∀ J2 ∈ st2.insts, ∃ J1 ∈ st1.insts, J2 = J1.replaceUsesOfWith (.inst R) V := by
  intro J2 hJ2
  have := h.cascade.sub J2 hJ2
  rw [insts_replaceAllUsesWith] at this
  obtain ⟨J1, hJ1, he⟩ := List.mem_map.mp this
  exact ⟨J1, hJ1, he.symm⟩

theorem kind_replaceUsesOfWith_binop {old new : Value} {J : Instruction} {o : BinOp}
    {a2 b2 : Value} (h : (J.replaceUsesOfWith old new).kind = .binop o a2 b2) :
    ∃ a b, J.kind = .binop o a b ∧ a2 = (if a = old then new else a) ∧
      b2 = (if b = old then new else b) := by
  cases J with
  | mk id ty kind =>
    cases kind with
    | binop o1 a b =>
      simp only [Instruction.replaceUsesOfWith, InstKind.binop.injEq] at h
      obtain ⟨rfl, rfl, rfl⟩ := h
      exact ⟨a, b, rfl, rfl, rfl⟩
    | load p vol => simp [Instruction.replaceUsesOfWith] at h
    | other ops se => simp [Instruction.replaceUsesOfWith] at h

theorem kind_replaceUsesOfWith_of_binop {old new : Value} {J : Instruction} {o : BinOp}
    {a b : Value} (h : J.kind = .binop o a b) :
    (J.replaceUsesOfWith old new).kind =
      .binop o (if a = old then new else a) (if b = old then new else b) := by
  cases J with
  | mk id ty kind =>
    simp only at h
    subst h
    rfl

theorem Rewritten.wf_after {op : BinOp} {fuel : Nat} {st : State} {R : Nat} {st2 : State}
    {L : List Value} {st1 : State} {V : Value} {T : Tree Value} {I : Instruction}
    {op0 op1 : Value} (h : Rewritten op fuel st R st2 L st1 V T I op0 op1) : WF st2 := by
  have hc := h.cascade
  have hn : st2.nextId = st1.nextId := hc.nextId_eq
  refine ⟨hc.ok.ids, ?_, ?_⟩
  · intro J2 hJ2
    obtain ⟨J1, hJ1, rfl⟩ := h.image J2 hJ2
    rw [id_replaceUsesOfWith, hn]
    exact h.building.wf.fresh J1 hJ1
  · intro J2 hJ2 j hj
    obtain ⟨J1, hJ1, rfl⟩ := h.image J2 hJ2
    rw [operands_replaceUsesOfWith] at hj
    obtain ⟨v, hv, he⟩ := List.mem_map.mp hj
    rw [hn]
    split at he
    · exact h.root_ne.2.2 j he
    · rw [he] at hv
      exact h.building.wf.closed J1 hJ1 j hv

theorem Rewritten.acyclic_after {op : BinOp} {fuel : Nat} {st : State} {R : Nat}
    {st2 : State} {L : List Value} {st1 : State} {V : Value} {T : Tree Value}
    {I : Instruction} {op0 op1 : Value} (h : Rewritten op fuel st R st2 L st1 V T I op0 op1)
    (hac : Acyclic st) : Acyclic st2 := by
  obtain ⟨rank, hrank⟩ := hac
  have hRs : (dynCastBinOp st op (.inst R)).isSome := by rw [h.hv]; rfl
  have hleaf : ∀ j, Value.inst j ∈ L → rank j < rank R ∧ j < st.nextId := fun j hj =>
    ⟨h.hT.rank_lt hrank hRs j (h.inst_mem_L hj), h.hclosed _ hj j rfl⟩
  obtain ⟨hRmem, hRid⟩ := mem_insts_of_getInst? h.hI
  have hRlt : R < st.nextId := by
    have := h.wf.fresh I hRmem
    omega
  have hle := h.building.nextId_le
  -- the new rank
  let M := st1.nextId - st.nextId + 1
  refine ⟨fun x => if x < st.nextId then (rank x + 1) * M
    else rank R * M + (x - st.nextId) + 1, ?_⟩
  intro J2 hJ2 o a2 b2 hk2 j hj
  obtain ⟨J1, hJ1, rfl⟩ := h.image J2 hJ2
  obtain ⟨a, b, hk, ha2, hb2⟩ := kind_replaceUsesOfWith_binop hk2
  rw [id_replaceUsesOfWith]
  have hops : ∀ v, v ∈ J1.operands ↔ v = a ∨ v = b := by
    intro v
    simp [Instruction.operands, hk]
  -- the operand before `replaceAllUsesWith`
  have hsrc : ∃ v, (v = a ∨ v = b) ∧ Value.inst j = (if v = .inst R then V else v) := by
    rcases hj with h1 | h1
    · exact ⟨a, Or.inl rfl, by rw [← h1, ha2]⟩
    · exact ⟨b, Or.inr rfl, by rw [← h1, hb2]⟩
  obtain ⟨v, hv, hjv⟩ := hsrc
  have hvop : v ∈ J1.operands := (hops v).mpr hv
  rcases h.building.insts_mem J1 hJ1 with hold | hnew
  · -- an instruction of the state on entry
    have hidlt := h.wf.fresh J1 hold
    simp only [hidlt, if_true]
    by_cases hvR : v = .inst R
    · rw [if_pos hvR] at hjv
      have hRJ : rank R < rank J1.id := by
        apply hrank J1 hold o a b hk R
        rcases hv with h1 | h1
        · exact Or.inl (h1 ▸ hvR)
        · exact Or.inr (h1 ▸ hvR)
      have hjhi := h.root_ne.2.2 j hjv.symm
      by_cases hjlo : j < st.nextId
      · exfalso
        by_cases h2 : 2 ≤ L.length
        · obtain ⟨i, hi, hlo⟩ := h.rootNew h2
          rw [hi] at hjv
          simp only [Value.inst.injEq] at hjv
          omega
        · have h1 : L.length = 1 := by
            have := List.length_pos.mpr h.hne
            omega
          have := h.rootConst h1
          rw [← hjv] at this
          cases this
      · simp only [hjlo, if_false]
        have e1 : (rank R + 1) * M ≤ rank J1.id * M := Nat.mul_le_mul_right M hRJ
        have e2 : (rank R + 1) * M = rank R * M + M := by rw [Nat.add_mul, Nat.one_mul]
        have e3 : (rank J1.id + 1) * M = rank J1.id * M + M := by rw [Nat.add_mul, Nat.one_mul]
        have e4 : M = st1.nextId - st.nextId + 1 := rfl
        omega
    · rw [if_neg hvR] at hjv
      rw [← hjv] at hv hvop
      have hjlt := h.wf.closed J1 hold j hvop
      simp only [hjlt, if_true]
      have hr := hrank J1 hold o a b hk j (by
        rcases hv with h1 | h1
        · exact Or.inl h1.symm
        · exact Or.inr h1.symm)
      have e1 : (rank j + 1) * M ≤ rank J1.id * M := Nat.mul_le_mul_right M hr
      have e3 : (rank J1.id + 1) * M = rank J1.id * M + M := by rw [Nat.add_mul, Nat.one_mul]
      have e4 : M = st1.nextId - st.nextId + 1 := rfl
      omega
  · -- an instruction created by the builder
    have hnlt : ¬ J1.id < st.nextId := by omega
    simp only [hnlt, if_false]
    obtain ⟨a3, b3, hk3, hba, hbb⟩ := h.building.created J1 hJ1 hnew
    rw [hk] at hk3
    simp only [InstKind.binop.injEq] at hk3
    obtain ⟨_, rfl, rfl⟩ := hk3
    have hbv : BuiltOperand st.nextId L v J1.id := by
      rcases hv with h1 | h1
      · rw [h1]; exact hba
      · rw [h1]; exact hbb
    have hvR : v ≠ .inst R := by
      intro he
      rcases hbv with hL | ⟨j2, hj2, hlo2, _⟩
      · rw [he] at hL
        have := (hleaf R hL).1
        omega
      · rw [he] at hj2
        simp only [Value.inst.injEq] at hj2
        omega
    rw [if_neg hvR] at hjv
    rcases hbv with hL | ⟨j2, hj2, hlo2, hhi2⟩
    · rw [← hjv] at hL
      obtain ⟨hr, hjlt⟩ := hleaf j hL
      simp only [hjlt, if_true]
      have e1 : (rank j + 1) * M ≤ rank R * M := Nat.mul_le_mul_right M hr
      omega
    · rw [hj2] at hjv
      simp only [Value.inst.injEq] at hjv
      subst hjv
      have hjn : ¬ j < st.nextId := by omega
      simp only [hjn, if_false]
      omega

theorem Rewritten.rewriteStep {op : BinOp} {fuel : Nat} {st : State} {R : Nat} {st2 : State}
    {L : List Value} {st1 : State} {V : Value} {T : Tree Value} {I : Instruction}
    {op0 op1 : Value} (h : Rewritten op fuel st R st2 L st1 V T I op0 op1) :
    RewriteStep op R V st st2 := by
  have hc := h.cascade
  have hn : st2.nextId = st1.nextId := hc.nextId_eq
  have hg : st2.generatedI = st1.generatedI := hc.gen_eq
  have hblocks : List.Forall₂
      (fun B B2 => ∀ J2 ∈ B2,
        (∃ J ∈ B, J2 = J.replaceUsesOfWith (.inst R) V) ∨ st.nextId ≤ J2.id)
      st.blocks st2.blocks := by
    have h2 : List.Forall₂ (fun B1 B2 => List.Sublist B2
        (B1.map (Instruction.replaceUsesOfWith (.inst R) V))) st1.blocks st2.blocks := by
      have := hc.blocks
      simp only [replaceAllUsesWith] at this
      exact List.forall₂_map_left_iff.mp this
    refine forall₂_comp ?_ h.building.blocks_rel h2
    intro B B1 B2 h1 h3 J2 hJ2
    obtain ⟨J1, hJ1, he⟩ := List.mem_map.mp (h3.subset hJ2)
    rcases h1.2 J1 hJ1 with hold | hnew
    · exact Or.inl ⟨J1, hold, he.symm⟩
    · right
      rw [← he, id_replaceUsesOfWith]
      exact hnew
  refine
    { wf := h.wf_after
      name_eq := by
        rw [hc.name_eq]
        exact h.building.name_eq
      nextId_le := by
        rw [hn]
        exact h.building.nextId_le
      gen_iff := by
        intro v
        rw [hg, hn]
        exact h.building.gen_iff v
      blocks := hblocks
      insts := insts_of_forall₂_rewrite hblocks
      created := ?_
      root := by rw [h.hv]; rfl
      rootGone := ?_
      newRoot := ?_
      acyclic := h.acyclic_after }
  · intro J2 hJ2 hlo
    obtain ⟨J1, hJ1, rfl⟩ := h.image J2 hJ2
    rw [id_replaceUsesOfWith] at hlo ⊢
    refine ⟨by rw [hn]; exact h.building.wf.fresh J1 hJ1, ?_⟩
    obtain ⟨a, b, hk, _, _⟩ := h.building.created J1 hJ1 hlo
    exact ⟨_, _, kind_replaceUsesOfWith_of_binop hk⟩
  · rcases hc.rootGone with h1 | h1
    · cases h1
    · exact h1
  · by_cases h2 : 2 ≤ L.length
    · exact Or.inr (h.rootNew h2)
    · have h1 : L.length = 1 := by
        have := List.length_pos.mpr h.hne
        omega
      exact Or.inl (h.rootConst h1)

theorem tryReorderInt_step {op : BinOp} {fuel : Nat} {st st2 : State} {R : Nat}
    (hwf : WF st) (h : tryReorderInt op fuel st R = some (true, st2)) :
    ∃ V, RewriteStep op R V st st2 := by
  obtain ⟨L, st1, V, T, I, op0, op1, hrw⟩ := tryReorderInt_rewritten hwf h
  exact ⟨V, hrw.rewriteStep⟩

/-! ## When a rewrite returns, and with what -/

theorem dynCastBinOp_of_getInst? {st : State} {op : BinOp} {R : Nat} {I : Instruction}
    {a b : Value} (hI : st.getInst? R = some I) (hk : I.kind = .binop op a b) :
    dynCastBinOp st op (.inst R) = some (a, b) := by
  simp [dynCastBinOp, hI, hk]

/-- A run of `tryReorderInt` on an instruction of opcode `op` that returns `false` has left
the state alone, and neither operand is an instruction of opcode `op`. -/
theorem tryReorderInt_false_inv {op : BinOp} {fuel : Nat} {st st2 : State} {R : Nat}
    {I : Instruction} {a b : Value} (hI : st.getInst? R = some I)
    (hk : I.kind = .binop op a b) (h : tryReorderInt op fuel st R = some (false, st2)) :
    st2 = st ∧ dynCastBinOp st op a = none ∧ dynCastBinOp st op b = none := by
  have hv := dynCastBinOp_of_getInst? hI hk
  unfold tryReorderInt at h
  cases hc : collectLeaves op fuel st R with
  | none => rw [hc] at h; cases h
  | some r =>
    cases r with
    | some L =>
      rw [hc] at h
      simp only [Option.bind_eq_some] at h
      obtain ⟨built, _, hr⟩ := h
      unfold replaceAndDelete at hr
      split at hr
      · cases hr
      · simp only [Option.map_eq_some'] at hr
        obtain ⟨_, _, he⟩ := hr
        cases he
    | none =>
      rw [hc] at h
      simp only [Option.some.injEq, Prod.mk.injEq, true_and] at h
      refine ⟨h.symm, ?_⟩
      by_cases hg : (dynCastBinOp st op a).isSome ∨ (dynCastBinOp st op b).isSome
      · exfalso
        have hgb : (!((dynCastBinOp st op a).isSome || (dynCastBinOp st op b).isSome)) = false := by
          rcases hg with hg | hg <;> simp [hg]
        simp only [collectLeaves, hI, hk, hgb, Bool.false_eq_true, if_false] at hc
        cases hflat : recursiveGetOperand op st fuel (.inst R) ([], []) with
        | none => rw [hflat] at hc; cases hc
        | some leaves =>
          obtain ⟨T, hT, hdepth⟩ := exists_chainTree_of_recursiveGetOperand st op fuel (.inst R)
            ([], []) leaves hflat (by rw [hv]; rfl)
          have h3 := hT.three_leaves hv hg
          have hflat2 := recursiveGetOperand_chainTree hT (by rw [hv]; rfl) fuel ([], []) hdepth
          rw [hflat2] at hc
          have hsplit := List.length_eq_length_filter_add (l := T.leaves) (isLoadInst st)
          simp only [List.nil_append, Option.some_bind] at hc
          rw [if_neg (by omega)] at hc
          cases hc
      · simp only [not_or, Bool.not_eq_true, Option.not_isSome, Option.isNone_iff_eq_none] at hg
        exact hg

theorem reduceLevels_mono {S V : Type} (mk : S → V → V → V × S) :
    ∀ (fuel : Nat) (s : S) (l : List V) (r : S × V), reduceLevels mk fuel s l = some r →
      ∀ fuel2, fuel ≤ fuel2 → reduceLevels mk fuel2 s l = some r := by
  intro fuel
  induction fuel with
  | zero => intro s l r h; cases h
  | succ fuel ih =>
    intro s l r h fuel2 hle
    obtain ⟨f2, rfl⟩ : ∃ f2, fuel2 = f2 + 1 := ⟨fuel2 - 1, by omega⟩
    by_cases hl : l.length = 1
    · obtain ⟨x, rfl⟩ := List.length_eq_one.mp hl
      simpa [reduceLevels] using h
    · rw [reduceLevels_succ_of_length_ne_one mk _ s l hl] at h ⊢
      exact ih _ _ r h f2 (by omega)

theorem deleteDeadLoop_mono :
    ∀ (fuel : Nat) (st : State) (work : List Nat) (r : State),
      deleteDeadLoop fuel st work = some r →
      ∀ fuel2, fuel ≤ fuel2 → deleteDeadLoop fuel2 st work = some r := by
  intro fuel
  induction fuel with
  | zero =>
    intro st work r h fuel2 _
    rw [deleteDeadLoop] at h
    split at h
    · rename_i hemp
      have hw := List.isEmpty_iff.mp hemp
      subst hw
      cases fuel2 <;> simpa [deleteDeadLoop] using h
    · cases h
  | succ fuel ih =>
    intro st work r h fuel2 hle
    obtain ⟨f2, rfl⟩ : ∃ f2, fuel2 = f2 + 1 := ⟨fuel2 - 1, by omega⟩
    rw [deleteDeadLoop] at h ⊢
    cases hlast : work.getLast? with
    | none => simpa [hlast] using h
    | some i =>
      simp only [hlast] at h ⊢
      cases hI : st.getInst? i with
      | none => simp [hI] at h
      | some I =>
        simp only [hI] at h ⊢
        exact ih _ _ r h f2 (by omega)

theorem collectLeaves_mono {op : BinOp} {fuel : Nat} {st : State} {R : Nat}
    {r : Option (List Value)} (h : collectLeaves op fuel st R = some r) :
    ∀ fuel2, fuel ≤ fuel2 → collectLeaves op fuel2 st R = some r := by
  intro fuel2 hle
  unfold collectLeaves at h ⊢
  cases hI : st.getInst? R with
  | none => rw [hI] at h; cases h
  | some I =>
    simp only [hI] at h ⊢
    cases hk : I.kind with
    | load p vol => rw [hk] at h; cases h
    | other ops se => rw [hk] at h; cases h
    | binop opk a b =>
      simp only [hk] at h ⊢
      split
      · rename_i hg
        rw [if_pos hg] at h
        exact h
      · rename_i hg
        rw [if_neg hg] at h
        cases hflat : recursiveGetOperand op st fuel (.inst R) ([], []) with
        | none => rw [hflat] at h; cases h
        | some leaves =>
          rw [hflat] at h
          have hflat2 : recursiveGetOperand op st fuel2 (.inst R) ([], []) = some leaves := by
            cases hd : dynCastBinOp st op (.inst R) with
            | none =>
              have h1 := recursiveGetOperand_of_not_chain st op fuel _ _ _ hd hflat
              obtain ⟨f2, rfl⟩ : ∃ f2, fuel2 = f2 + 1 := by
                cases fuel with
                | zero => cases hflat
                | succ f => exact ⟨fuel2 - 1, by omega⟩
              rw [recursiveGetOperand, hd, h1]
            | some ab =>
              obtain ⟨T, hT, hdepth⟩ := exists_chainTree_of_recursiveGetOperand st op fuel
                (.inst R) ([], []) leaves hflat (by rw [hd]; rfl)
              have e1 := recursiveGetOperand_chainTree hT (by rw [hd]; rfl) fuel ([], []) hdepth
              have e2 := recursiveGetOperand_chainTree hT (by rw [hd]; rfl) fuel2 ([], [])
                (by omega)
              rw [e2, ← e1, hflat]
          rw [hflat2]
          exact h

theorem buildTree_mono {S V : Type} (mk : S → V → V → V × S) {fuel : Nat} {s : S}
    {l : List V} {r : S × V} (h : buildTree mk fuel s l = some r) :
    ∀ fuel2, fuel ≤ fuel2 → buildTree mk fuel2 s l = some r := by
  intro fuel2 hle
  rw [buildTree_eq_reduceLevels] at h ⊢
  exact reduceLevels_mono mk fuel s l r h fuel2 hle

theorem tryReorderInt_mono {op : BinOp} {fuel : Nat} {st : State} {R : Nat}
    {r : Bool × State} (h : tryReorderInt op fuel st R = some r) :
    ∀ fuel2, fuel ≤ fuel2 → tryReorderInt op fuel2 st R = some r := by
  intro fuel2 hle
  unfold tryReorderInt at h ⊢
  cases hc : collectLeaves op fuel st R with
  | none => rw [hc] at h; cases h
  | some x =>
    rw [hc] at h
    rw [collectLeaves_mono hc fuel2 hle]
    cases x with
    | none => exact h
    | some L =>
      simp only [Option.bind_eq_some] at h ⊢
      obtain ⟨built, hb, hr⟩ := h
      refine ⟨built, buildTree_mono _ hb fuel2 hle, ?_⟩
      have hrd : ∀ s, (RecursivelyDeleteTriviallyDeadInstructions fuel s (.inst R)).map
            (fun st2 => (true, st2)) = some r →
          (RecursivelyDeleteTriviallyDeadInstructions fuel2 s (.inst R)).map
            (fun st2 => (true, st2)) = some r := by
        intro s hs
        simp only [Option.map_eq_some'] at hs ⊢
        obtain ⟨s2, hs2, he⟩ := hs
        refine ⟨s2, ?_, he⟩
        unfold RecursivelyDeleteTriviallyDeadInstructions at hs2 ⊢
        simp only at hs2 ⊢
        cases hI : s.getInst? R with
        | none => rw [hI] at hs2; exact hs2
        | some I =>
          simp only [hI] at hs2 ⊢
          split
          · rename_i hd
            rw [if_pos hd] at hs2
            exact deleteDeadLoop_mono fuel _ _ s2 hs2 fuel2 hle
          · rename_i hd
            rw [if_neg hd] at hs2
            exact hs2
      obtain ⟨s1, V⟩ := built
      cases V with
      | arg n => simp [replaceAndDelete] at hr
      | inst j => exact hrd _ hr
      | constInt bits val => exact hrd _ hr

theorem Tree.depth_lt_leaves {α : Type} (t : Tree α) : t.depth < t.leaves.length := by
  induction t with
  | leaf a => simp [Tree.depth, Tree.leaves]
  | node l r ihl ihr =>
    simp only [Tree.depth, Tree.leaves, List.length_append]
    omega

theorem clog_two_lt_self (n : Nat) (h : 1 ≤ n) : Nat.clog 2 n < n := by
  have : n ≤ 2 ^ (n - 1) := by
    have := Nat.lt_two_pow (n - 1)
    omega
  have h2 := (Nat.le_pow_iff_clog_le (b := 2) (by norm_num)).mp this
  omega

/-- With the guard passed, a finite chain and enough fuel, `tryReorderInt` returns `true`. -/
theorem tryReorderInt_total {op : BinOp} {fuel : Nat} {st : State} {R : Nat} {I : Instruction}
    {op0 op1 : Value} {T : Tree Value} (hwf : WF st) (hI : st.getInst? R = some I)
    (hk : I.kind = .binop op op0 op1)
    (hguard : (dynCastBinOp st op op0).isSome ∨ (dynCastBinOp st op op1).isSome)
    (hT : ChainTree st op (.inst R) T) (hfuel : st.insts.length + T.leaves.length ≤ fuel) :
    ∃ st2, tryReorderInt op fuel st R = some (true, st2) := by
  have hv := dynCastBinOp_of_getInst? hI hk
  have hdepth : T.depth ≤ fuel := by
    have := T.depth_lt_leaves
    omega
  have hcol := collectLeaves_eq hI hv hguard hT fuel hdepth
  obtain ⟨I2, a2, b2, T2, hI2, _, _, _, hT2, _, h3, hshape, hR, hc, hne, hclosed⟩ :=
    collectLeaves_facts hwf hcol
  have hTT : T2 = T := hT2.unique hT
  subst hTT
  rw [hI] at hI2
  have hII := Option.some.inj hI2
  subst hII
  generalize hLdef : mergeLeaves op I.ty (T2.leaves.filter (fun x => !isLoadInst st x))
    (T2.leaves.filter (isLoadInst st)) = L at hcol hshape hc hne hclosed
  have hLlen : L.length ≤ T2.leaves.length := by
    rw [hshape, leafList_length]
    have hsplit := List.length_eq_length_filter_add (l := T2.leaves) isConstantInt
    split
    · rename_i hany
      obtain ⟨x, hx, hxc⟩ := List.any_eq_true.mp hany
      have : 0 < (T2.leaves.filter isConstantInt).length :=
        List.length_pos.mpr (List.ne_nil_of_mem (List.mem_filter.mpr ⟨hx, hxc⟩))
      omega
    · omega
  have hLpos := List.length_pos.mpr hne
  have hclog : Nat.clog 2 L.length < fuel := by
    have := clog_two_lt_self L.length hLpos
    omega
  obtain ⟨st1, V, hres, hbig, hsmall, _, _⟩ :=
    builder_root_kind_aux op fuel fuel st R L hwf hcol hclog
  obtain ⟨hbuilding, T3, hT3, hleaves, hnodes⟩ :=
    buildTree_spec_of_some hwf hR hc hclosed hres
  have hRlt : R < st.nextId := by
    obtain ⟨hmem, hid⟩ := mem_insts_of_getInst? hI
    have := hwf.fresh I hmem
    omega
  have hVkind : (∃ i, V = .inst i ∧ st.nextId ≤ i) ∨ isConstantInt V = true := by
    by_cases h2 : 2 ≤ L.length
    · obtain ⟨J, hJ, hVJ, _, hnone⟩ := hbig h2
      refine Or.inl ⟨J.id, hVJ, ?_⟩
      rcases hbuilding.insts_mem J hJ with hold | hnew
      · exact absurd rfl ((getInst?_eq_none_iff st J.id).mp hnone J hold)
      · exact hnew
    · exact Or.inr (hsmall (by omega)).2.1
  have hVR : V ≠ .inst R := by
    rcases hVkind with ⟨i, hi, hlo⟩ | hconst
    · rw [hi]
      intro heq
      simp only [Value.inst.injEq] at heq
      omega
    · intro heq
      rw [heq] at hconst
      cases hconst
  obtain ⟨hmem, hid⟩ := mem_insts_of_getInst? hI
  have hmem1 := hbuilding.old_mem I hmem
  have hnd : (replaceAllUsesWith st1 (.inst R) V).ids.Nodup := by
    rw [ids_replaceAllUsesWith]
    exact hbuilding.wf.nodup
  have hIp : I.replaceUsesOfWith (.inst R) V ∈ (replaceAllUsesWith st1 (.inst R) V).insts := by
    rw [insts_replaceAllUsesWith]
    exact List.mem_map.mpr ⟨I, hmem1, rfl⟩
  have hI1 : (replaceAllUsesWith st1 (.inst R) V).getInst? R =
      some (I.replaceUsesOfWith (.inst R) V) := by
    rw [getInst?_eq_some_iff hnd]
    exact ⟨hIp, hid⟩
  have hunused := hasUses_replaceAllUsesWith_self st1 (.inst R) V hVR
  have hdead : isInstructionTriviallyDead (replaceAllUsesWith st1 (.inst R) V)
      (I.replaceUsesOfWith (.inst R) V) = true := by
    simp only [isInstructionTriviallyDead, id_replaceUsesOfWith, hid, hunused, Bool.not_false,
      Bool.true_and]
    simp [wouldInstructionBeTriviallyDead, Instruction.replaceUsesOfWith, hk]
  have hwork : WorkOK (replaceAllUsesWith st1 (.inst R) V) [R] := by
    refine ⟨hnd, List.nodup_singleton R, ?_, ?_⟩
    · intro i hi
      simp only [List.mem_singleton] at hi
      subst hi
      exact ⟨_, hIp, hid⟩
    · intro i hi
      simp only [List.mem_singleton] at hi
      subst hi
      exact hunused
  have hlen : (replaceAllUsesWith st1 (.inst R) V).insts.length ≤ fuel := by
    rw [insts_replaceAllUsesWith, List.length_map, hbuilding.count, ← hnodes]
    have := T3.nodes_add_one
    rw [hleaves] at this
    omega
  obtain ⟨st2, hst2⟩ := deleteDeadLoop_total fuel _ [R] hwork hlen
  refine ⟨st2, ?_⟩
  have hrd : (RecursivelyDeleteTriviallyDeadInstructions fuel
      (replaceAllUsesWith st1 (.inst R) V) (.inst R)) = some st2 := by
    simp only [RecursivelyDeleteTriviallyDeadInstructions, hI1, hdead, if_true]
    exact hst2
  simp only [tryReorderInt, hcol, hres, Option.some_bind]
  cases V with
  | arg n =>
    rcases hVkind with ⟨i, hi, _⟩ | hconst
    · cases hi
    · cases hconst
  | inst j => simp only [replaceAndDelete, hrd, Option.map_some']
  | constInt bits val => simp only [replaceAndDelete, hrd, Option.map_some']

/-! ## The size check is implied by the guard -/

/-- C17. For an Add (Mul) instruction `R` of a well-formed body with a finite chain `T`:
when an operand is an Add (Mul) instruction the chain has at least three leaves, any result
of the flattener holds at least three elements in total, and the folded list is not empty;
with the fuel covering the instruction count and the leaf count, `tryReorderInt` returns, and
it returns `true` exactly when the operand guard holds. -/
theorem tryReorderInt_true_iff_guard (op : BinOp) (fuel : Nat) (st : State) (R : Nat)
    (I : Instruction) (op0 op1 : Value) (T : Tree Value) (hwf : WF st)
    (hI : st.getInst? R = some I) (hk : I.kind = .binop op op0 op1)
    (hT : ChainTree st op (.inst R) T) (hfuel : st.insts.length + T.leaves.length ≤ fuel) :
    ((dynCastBinOp st op op0).isSome ∨ (dynCastBinOp st op op1).isSome →
      3 ≤ T.leaves.length ∧
      (∀ f leaves, recursiveGetOperand op st f (.inst R) ([], []) = some leaves →
        3 ≤ leaves.2.length + leaves.1.length ∧ mergeLeaves op I.ty leaves.1 leaves.2 ≠ [])) ∧
    (∃ b st2, tryReorderInt op fuel st R = some (b, st2) ∧
      (b = true ↔ ((dynCastBinOp st op op0).isSome ∨ (dynCastBinOp st op op1).isSome))) := by
  have hv := dynCastBinOp_of_getInst? hI hk
  constructor
  · intro hguard
    have h3 := hT.three_leaves hv hguard
    refine ⟨h3, ?_⟩
    intro f leaves hflat
    obtain ⟨T2, hT2, hdepth⟩ := exists_chainTree_of_recursiveGetOperand st op f (.inst R)
      ([], []) leaves hflat (by rw [hv]; rfl)
    have hTT : T2 = T := hT2.unique hT
    subst hTT
    have hflat2 := recursiveGetOperand_chainTree hT (by rw [hv]; rfl) f ([], []) hdepth
    rw [hflat] at hflat2
    have hl := Option.some.inj hflat2
    have hsplit := List.length_eq_length_filter_add (l := T2.leaves) (isLoadInst st)
    rw [hl]
    simp only [List.nil_append]
    refine ⟨by omega, ?_⟩
    have hcol := collectLeaves_eq hI hv hguard hT T2.depth le_rfl
    obtain ⟨_, _, _, _, _, _, _, _, _, _, _, _, _, _, hne, _⟩ := collectLeaves_facts hwf hcol
    exact hne
  · by_cases hguard : (dynCastBinOp st op op0).isSome ∨ (dynCastBinOp st op op1).isSome
    · obtain ⟨st2, h⟩ := tryReorderInt_total hwf hI hk hguard hT hfuel
      exact ⟨true, st2, h, by simp [hguard]⟩
    · have hg := hguard
      simp only [not_or, Bool.not_eq_true, Option.not_isSome, Option.isNone_iff_eq_none] at hg
      exact ⟨false, st, tryReorderInt_of_guard_fails op op fuel st R I op0 op1 hI hk hg.1 hg.2,
        by simp [hguard]⟩

theorem tryReorderInt_true_iff_guard_witness :
    ((dynCastBinOp exampleConstChain .Add (.inst 5)).isSome ∨
        (dynCastBinOp exampleConstChain .Add (.inst 2)).isSome →
      3 ≤ (Tree.node (.node (.node (.node (.leaf (Value.inst 0)) (.leaf (.constInt 32 3)))
          (.leaf (.inst 1))) (.leaf (.constInt 32 4))) (.leaf (.inst 2))).leaves.length ∧
      (∀ f leaves, recursiveGetOperand .Add exampleConstChain f (.inst 6) ([], []) =
          some leaves →
        3 ≤ leaves.2.length + leaves.1.length ∧ mergeLeaves .Add 32 leaves.1 leaves.2 ≠ [])) ∧
    (∃ b st2, tryReorderInt .Add 13 exampleConstChain 6 = some (b, st2) ∧
      (b = true ↔ ((dynCastBinOp exampleConstChain .Add (.inst 5)).isSome ∨
        (dynCastBinOp exampleConstChain .Add (.inst 2)).isSome))) :=
  tryReorderInt_true_iff_guard .Add 13 exampleConstChain 6
    ⟨6, 32, .binop .Add (.inst 5) (.inst 2)⟩ (.inst 5) (.inst 2)
    (.node (.node (.node (.node (.leaf (.inst 0)) (.leaf (.constInt 32 3)))
      (.leaf (.inst 1))) (.leaf (.constInt 32 4))) (.leaf (.inst 2)))
    (WF_of_wfCheck (by decide)) (by decide) rfl
    (.node (.inst 6) (.inst 5) (.inst 2) _ _ (by decide)
      (.node (.inst 5) (.inst 4) (.constInt 32 4) _ _ (by decide)
        (.node (.inst 4) (.inst 3) (.inst 1) _ _ (by decide)
          (.node (.inst 3) (.inst 0) (.constInt 32 3) _ _ (by decide)
            (.leaf _ (by decide)) (.leaf _ (by decide)))
          (.leaf _ (by decide)))
        (.leaf _ (by decide)))
      (.leaf _ (by decide)))
    (by decide)

/-! ## The driver: what a scan of a block does -/

theorem mem_insts_of_block {s : State} {b : Nat} {B : List Instruction}
    (hB : s.blocks[b]? = some B) {I : Instruction} (hI : I ∈ B) : I ∈ s.insts := by
  have hmem : B ∈ s.blocks := List.getElem?_mem hB
  exact List.mem_flatten.mpr ⟨B, hmem, hI⟩

/-- A scan of (part of) a block either rewrites nothing, returns `false` and leaves the state
alone, or returns `true` right after the first successful rewrite, whose root is not in
`generatedI`. -/
theorem scanBlock_cases {fuel : Nat} {s : State} (hwf : WF s) :
    ∀ (B : List Instruction) (act : Bool) (s2 : State), (∀ I ∈ B, I ∈ s.insts) →
      scanBlock fuel s B = some (act, s2) →
      (act = false ∧ s2 = s ∧ Quiet s B) ∨
      (act = true ∧ ∃ I ∈ B, Value.inst I.id ∉ s.generatedI ∧ ∃ op a b,
        I.kind = .binop op a b ∧ tryReorderInt op fuel s I.id = some (true, s2)) := by
  intro B
  induction B with
  | nil =>
    intro act s2 _ h
    simp only [scanBlock, Option.some.injEq, Prod.mk.injEq] at h
    exact Or.inl ⟨h.1.symm, h.2.symm, fun I hI => by cases hI⟩
  | cons I rest ih =>
    intro act s2 hmem h
    have hrest : ∀ J ∈ rest, J ∈ s.insts := fun J hJ => hmem J (List.mem_cons_of_mem _ hJ)
    have hImem := hmem I (List.mem_cons_self _ _)
    have hI : s.getInst? I.id = some I := (getInst?_eq_some_iff hwf.nodup I.id I).mpr ⟨hImem, rfl⟩
    have hcont : ∀ (hq : Value.inst I.id ∈ s.generatedI ∨ ¬ Candidate s I),
        scanBlock fuel s rest = some (act, s2) →
        (act = false ∧ s2 = s ∧ Quiet s (I :: rest)) ∨
        (act = true ∧ ∃ I2 ∈ I :: rest, Value.inst I2.id ∉ s.generatedI ∧ ∃ op a b,
          I2.kind = .binop op a b ∧ tryReorderInt op fuel s I2.id = some (true, s2)) := by
      intro hq h2
      rcases ih act s2 hrest h2 with ⟨h1, h3, h4⟩ | ⟨h1, I2, hI2, h3⟩
      · refine Or.inl ⟨h1, h3, ?_⟩
        intro J hJ
        rcases List.mem_cons.mp hJ with rfl | hJ
        · exact hq
        · exact h4 J hJ
      · exact Or.inr ⟨h1, I2, List.mem_cons_of_mem _ hI2, h3⟩
    rw [scanBlock] at h
    by_cases hgen : Value.inst I.id ∈ s.generatedI
    · rw [if_pos hgen] at h
      exact hcont (Or.inl hgen) h
    · rw [if_neg hgen] at h
      have hbin : ∀ op a b, I.kind = .binop op a b →
          (match tryReorderInt op fuel s I.id with
            | none => none
            | some (action, st1) =>
              if action then some (true, st1) else scanBlock fuel st1 rest) = some (act, s2) →
          (act = false ∧ s2 = s ∧ Quiet s (I :: rest)) ∨
          (act = true ∧ ∃ I2 ∈ I :: rest, Value.inst I2.id ∉ s.generatedI ∧ ∃ op a b,
            I2.kind = .binop op a b ∧ tryReorderInt op fuel s I2.id = some (true, s2)) := by
        intro op a b hk h2
        cases hr : tryReorderInt op fuel s I.id with
        | none => rw [hr] at h2; cases h2
        | some r =>
          obtain ⟨action, st1⟩ := r
          rw [hr] at h2
          cases action with
          | true =>
            simp only [if_true, Option.some.injEq, Prod.mk.injEq] at h2
            obtain ⟨rfl, rfl⟩ := h2
            exact Or.inr ⟨rfl, I, List.mem_cons_self _ _, hgen, op, a, b, hk, hr⟩
          | false =>
            simp only [Bool.false_eq_true, if_false] at h2
            obtain ⟨hst, ha, hb⟩ := tryReorderInt_false_inv hI hk hr
            rw [hst] at h2
            apply hcont _ h2
            right
            rintro ⟨op2, a2, b2, hk2, hg⟩
            rw [hk] at hk2
            simp only [InstKind.binop.injEq] at hk2
            obtain ⟨rfl, rfl, rfl⟩ := hk2
            rw [ha, hb] at hg
            simp at hg
      cases hk : I.kind with
      | binop op a b =>
        cases op with
        | Add =>
          simp only [hk, tryReorderIntAdd] at h
          exact hbin .Add a b hk h
        | Mul =>
          simp only [hk, tryReorderIntMul] at h
          exact hbin .Mul a b hk h
      | load p vol =>
        simp only [hk, Bool.false_eq_true, if_false] at h
        apply hcont _ h
        right
        rintro ⟨op2, a2, b2, hk2, _⟩
        rw [hk] at hk2
        cases hk2
      | other ops se =>
        simp only [hk, Bool.false_eq_true, if_false] at h
        apply hcont _ h
        right
        rintro ⟨op2, a2, b2, hk2, _⟩
        rw [hk] at hk2
        cases hk2

/-- A scan of a quiet list returns `false` and leaves the state alone, with any fuel. -/
theorem scanBlock_of_quiet {s : State} (hwf : WF s) (fuel : Nat) :
    ∀ (B : List Instruction), (∀ I ∈ B, I ∈ s.insts) → Quiet s B →
      scanBlock fuel s B = some (false, s) := by
  intro B
  induction B with
  | nil => intro _ _; rfl
  | cons I rest ih =>
    intro hmem hq
    have hrest := ih (fun J hJ => hmem J (List.mem_cons_of_mem _ hJ))
      (fun J hJ => hq J (List.mem_cons_of_mem _ hJ))
    have hImem := hmem I (List.mem_cons_self _ _)
    have hI : s.getInst? I.id = some I := (getInst?_eq_some_iff hwf.nodup I.id I).mpr ⟨hImem, rfl⟩
    rw [scanBlock]
    by_cases hgen : Value.inst I.id ∈ s.generatedI
    · rw [if_pos hgen]
      exact hrest
    · rw [if_neg hgen]
      have hnc : ¬ Candidate s I := by
        rcases hq I (List.mem_cons_self _ _) with h1 | h1
        · exact absurd h1 hgen
        · exact h1
      cases hk : I.kind with
      | binop op a b =>
        have hg : dynCastBinOp s op a = none ∧ dynCastBinOp s op b = none := by
          by_contra hcon
          apply hnc
          refine ⟨op, a, b, hk, ?_⟩
          by_contra hcon2
          apply hcon
          simp only [not_or, Bool.not_eq_true, Option.not_isSome,
            Option.isNone_iff_eq_none] at hcon2
          exact hcon2
        have hr := tryReorderInt_of_guard_fails op op fuel s I.id I a b hI hk hg.1 hg.2
        cases op with
        | Add => simp only [tryReorderIntAdd, hr, Bool.false_eq_true, if_false, hrest]
        | Mul => simp only [tryReorderIntMul, hr, Bool.false_eq_true, if_false, hrest]
      | load p vol => simp only [Bool.false_eq_true, if_false, hrest]
      | other ops se => simp only [Bool.false_eq_true, if_false, hrest]

/-- An invariant of the state preserved by every successful rewrite of a root outside
`generatedI` holds when the loop of a block is left, and the block is quiet then. -/
theorem whileAction_invariant (P : State → Prop)
    (hP : ∀ s s2 op R V, WF s → P s → Value.inst R ∉ s.generatedI →
      RewriteStep op R V s s2 → P s2)
    (fuel b : Nat) :
    ∀ (n : Nat) (s s2 : State), WF s → P s → whileAction fuel n s b = some s2 →
      WF s2 ∧ P s2 ∧ QuietAt s2 b ∧ s2.blocks.length = s.blocks.length ∧ s2.name = s.name := by
  intro n
  induction n with
  | zero => intro s s2 _ _ h; cases h
  | succ n ih =>
    intro s s2 hwf hPs h
    rw [whileAction] at h
    cases hB : s.blocks[b]? with
    | none => simp [hB] at h
    | some B =>
      simp only [hB] at h
      cases hscan : scanBlock fuel s B.reverse with
      | none => simp [hscan] at h
      | some r =>
        obtain ⟨act, s1⟩ := r
        simp only [hscan] at h
        have hmem : ∀ I ∈ B.reverse, I ∈ s.insts :=
          fun I hI => mem_insts_of_block hB (List.mem_reverse.mp hI)
        rcases scanBlock_cases hwf B.reverse act s1 hmem hscan with
          ⟨hact, hs1, hq⟩ | ⟨hact, I, hIB, hgen, op, a, b2, hk, hr⟩
        · subst hact
          subst hs1
          simp only [Bool.false_eq_true, if_false, Option.some.injEq] at h
          subst h
          refine ⟨hwf, hPs, ?_, rfl, rfl⟩
          intro B2 hB2
          rw [hB] at hB2
          have := Option.some.inj hB2
          subst this
          intro J hJ
          exact hq J (List.mem_reverse.mpr hJ)
        · subst hact
          simp only [if_true] at h
          obtain ⟨V, hstep⟩ := tryReorderInt_step hwf hr
          obtain ⟨h1, h2, h3, h4, h5⟩ := ih s1 s2 hstep.wf (hP s s1 op I.id V hwf hPs hgen hstep) h
          refine ⟨h1, h2, h3, ?_, ?_⟩
          · rw [h4]
            exact hstep.blocks.length_eq.symm
          · rw [h5]
            exact hstep.name_eq

/-! ## Quiet blocks stay quiet -/

theorem forall₂_getElem?_right {α β : Type} {P : α → β → Prop} :
    ∀ {l1 : List α} {l2 : List β}, List.Forall₂ P l1 l2 → ∀ (k : Nat) (y : β),
      l2[k]? = some y → ∃ x, l1[k]? = some x ∧ P x y := by
  intro l1 l2 h
  induction h with
  | nil => intro k y hy; simp at hy
  | cons hab _ ih =>
    intro k y hy
    cases k with
    | zero =>
      simp only [List.getElem?_cons_zero, Option.some.injEq] at hy
      subst hy
      exact ⟨_, by simp, hab⟩
    | succ k =>
      simp only [List.getElem?_cons_succ] at hy
      obtain ⟨x, hx, hp⟩ := ih k y hy
      exact ⟨x, by simpa using hx, hp⟩

/-- An operand that is an instruction of some opcode after the rewrite was one before it. -/
theorem RewriteStep.operand_mono {op : BinOp} {R : Nat} {V : Value} {s s2 : State}
    (h : RewriteStep op R V s s2) (hwf : WF s) {J : Instruction} (hJ : J ∈ s.insts)
    {v : Value} (hv : v ∈ J.operands) (op2 : BinOp)
    (hs : (dynCastBinOp s2 op2 (if v = .inst R then V else v)).isSome) :
    (dynCastBinOp s op2 v).isSome := by
  obtain ⟨⟨x, y⟩, hxy⟩ := Option.isSome_iff_exists.mp hs
  have hw : ∃ j, (if v = .inst R then V else v) = .inst j := by
    cases hwv : (if v = Value.inst R then V else v) with
    | inst j => exact ⟨j, rfl⟩
    | constInt bits val => rw [hwv] at hxy; simp [dynCastBinOp] at hxy
    | arg n => rw [hwv] at hxy; simp [dynCastBinOp] at hxy
  obtain ⟨j, hj⟩ := hw
  rw [hj] at hxy
  obtain ⟨K2, hK2, hk2⟩ := getInst?_of_dynCastBinOp hxy
  obtain ⟨hK2mem, hK2id⟩ := mem_insts_of_getInst? hK2
  by_cases hvR : v = .inst R
  · rw [if_pos hvR] at hj
    rw [hvR]
    have hlo : s.nextId ≤ j := by
      rcases h.newRoot with hc | ⟨j2, hj2, hlo⟩
      · rw [hj] at hc; cases hc
      · rw [hj] at hj2
        simp only [Value.inst.injEq] at hj2
        omega
    obtain ⟨_, a, b, hk⟩ := h.created K2 hK2mem (by omega)
    rw [hk] at hk2
    simp only [InstKind.binop.injEq] at hk2
    rw [← hk2.1]
    exact h.root
  · rw [if_neg hvR] at hj
    rw [hj] at hv ⊢
    have hjlt := hwf.closed J hJ j hv
    rcases h.insts K2 hK2mem with ⟨K, hK, he⟩ | hlo
    · rw [he] at hk2 hK2id
      obtain ⟨a, b, hk, _, _⟩ := kind_replaceUsesOfWith_binop hk2
      rw [id_replaceUsesOfWith] at hK2id
      rw [(dynCastBinOp_inst_eq_some_iff hwf.nodup op2 j a b).mpr ⟨K, hK, hK2id, hk⟩]
      rfl
    · omega

theorem RewriteStep.quietAt {op : BinOp} {R : Nat} {V : Value} {s s2 : State}
    (h : RewriteStep op R V s s2) (hwf : WF s) {k : Nat} (hq : QuietAt s k) :
    QuietAt s2 k := by
  intro B2 hB2 J2 hJ2
  obtain ⟨B, hB, hrel⟩ := forall₂_getElem?_right h.blocks k B2 hB2
  have hJ2mem : J2 ∈ s2.insts := mem_insts_of_block hB2 hJ2
  rcases hrel J2 hJ2 with ⟨J, hJ, he⟩ | hlo
  · have hJmem : J ∈ s.insts := mem_insts_of_block hB hJ
    rcases hq B hB J hJ with hgen | hnc
    · left
      rw [he, id_replaceUsesOfWith]
      exact (h.gen_iff _).mpr (Or.inl hgen)
    · right
      rintro ⟨op2, a2, b2, hk2, hg⟩
      rw [he] at hk2
      obtain ⟨a, b, hk, ha2, hb2⟩ := kind_replaceUsesOfWith_binop hk2
      apply hnc
      refine ⟨op2, a, b, hk, ?_⟩
      have hops : ∀ v, (v = a ∨ v = b) → v ∈ J.operands := by
        intro v hv
        simp only [Instruction.operands, hk, List.mem_cons, List.mem_singleton,
          List.not_mem_nil, or_false]
        exact hv
      rcases hg with hg | hg
      · left
        rw [ha2] at hg
        exact h.operand_mono hwf hJmem (hops a (Or.inl rfl)) op2 hg
      · right
        rw [hb2] at hg
        exact h.operand_mono hwf hJmem (hops b (Or.inr rfl)) op2 hg
  · left
    obtain ⟨hhi, _⟩ := h.created J2 hJ2mem hlo
    exact (h.gen_iff _).mpr (Or.inr ⟨J2.id, rfl, hlo, hhi⟩)

/-- When the loop over the blocks returns, every block visited is quiet, and so is every block
that was quiet before. -/
theorem forBlocks_quiet (fuel : Nat) :
    ∀ (cnt b : Nat) (s s2 : State), WF s → (∀ k, k < b → QuietAt s k) →
      forBlocks fuel cnt b s = some s2 →
      WF s2 ∧ (∀ k, k < b + cnt → QuietAt s2 k) ∧ s2.blocks.length = s.blocks.length ∧
        s2.name = s.name := by
  intro cnt
  induction cnt with
  | zero =>
    intro b s s2 hwf hq h
    simp only [forBlocks, Option.some.injEq] at h
    subst h
    exact ⟨hwf, hq, rfl, rfl⟩
  | succ cnt ih =>
    intro b s s2 hwf hq h
    rw [forBlocks] at h
    simp only [Option.bind_eq_some] at h
    obtain ⟨s1, hw, hrest⟩ := h
    obtain ⟨hwf1, hq1, hqb, hlen1, hname1⟩ :=
      whileAction_invariant (fun t => ∀ k, k < b → QuietAt t k)
        (fun t t2 op R V hwt hPt _ hstep k hk => hstep.quietAt hwt (hPt k hk))
        fuel b fuel s s1 hwf hq hw
    have hq1b : ∀ k, k < b + 1 → QuietAt s1 k := by
      intro k hk
      by_cases hkb : k = b
      · rw [hkb]; exact hqb
      · exact hq1 k (by omega)
    obtain ⟨hwf2, hq2, hlen2, hname2⟩ := ih (b + 1) s1 s2 hwf1 hq1b hrest
    refine ⟨hwf2, ?_, by rw [hlen2, hlen1], by rw [hname2, hname1]⟩
    intro k hk
    exact hq2 k (by omega)

/-- On a function all of whose blocks are quiet the loop over the blocks returns the state it
was given. -/
theorem forBlocks_of_quiet (fuel : Nat) (hfuel : 0 < fuel) {s : State} (hwf : WF s) :
    ∀ (cnt b : Nat), b + cnt ≤ s.blocks.length → (∀ k, k < b + cnt → QuietAt s k) →
      forBlocks fuel cnt b s = some s := by
  intro cnt
  induction cnt with
  | zero => intro b _ _; rfl
  | succ cnt ih =>
    intro b hlen hq
    have hb : b < s.blocks.length := by omega
    have hw : whileAction fuel fuel s b = some s := by
      obtain ⟨n, rfl⟩ : ∃ n, fuel = n + 1 := ⟨fuel - 1, by omega⟩
      rw [whileAction]
      have hB : s.blocks[b]? = some s.blocks[b] := List.getElem?_eq_getElem hb
      simp only [hB]
      have hscan := scanBlock_of_quiet hwf (n + 1) s.blocks[b].reverse
        (fun I hI => mem_insts_of_block hB (List.mem_reverse.mp hI))
        (fun I hI => hq b (by omega) _ hB I (List.mem_reverse.mp hI))
      simp only [hscan, Bool.false_eq_true, if_false]
    rw [forBlocks, hw]
    simp only [Option.some_bind]
    exact ih (b + 1) (by omega) (fun k hk => hq k (by omega))

/-! ## Idempotence of the pass -/

/-- C11. Once `runOnFunction` has returned on a well-formed function body, a second run on
the state it left (the same `generatedI`) returns that state unchanged: every block is as
before the second run, and no rewrite takes place since every instruction of every block is
in `generatedI` or fails the operand guard. -/
theorem runOnFunction_idempotent (fuel fuel2 : Nat) (st st1 : State) (b : Bool)
    (hwf : WF st) (hfuel2 : 0 < fuel2) (h : runOnFunction fuel st = some (b, st1)) :
    runOnFunction fuel2 st1 = some (false, st1) ∧
      ((nameContains "llvm.".toList st.name = false) → ∀ k, QuietAt st1 k) := by
  unfold runOnFunction at h
  by_cases hname : nameContains "llvm.".toList st.name = true
  · rw [if_pos hname] at h
    simp only [Option.some.injEq, Prod.mk.injEq] at h
    obtain ⟨_, rfl⟩ := h
    refine ⟨by unfold runOnFunction; rw [if_pos hname], ?_⟩
    intro hn
    rw [hn] at hname
    cases hname
  · rw [if_neg hname] at h
    simp only [Option.map_eq_some'] at h
    obtain ⟨s1, hfor, he⟩ := h
    simp only [Prod.mk.injEq] at he
    obtain ⟨_, rfl⟩ := he
    obtain ⟨hwf1, hq, hlen, hn⟩ := forBlocks_quiet fuel st.blocks.length 0 st s1 hwf
      (fun k hk => by omega) hfor
    have hq2 : ∀ k, k < 0 + s1.blocks.length → QuietAt s1 k := by
      intro k hk
      exact hq k (by omega)
    constructor
    · unfold runOnFunction
      rw [hn, if_neg hname, forBlocks_of_quiet fuel2 hfuel2 hwf1 s1.blocks.length 0 (by omega) hq2]
      rfl
    · intro _ k
      by_cases hk : k < s1.blocks.length
      · exact hq2 k (by omega)
      · intro B hB
        have : s1.blocks[k]? = none := List.getElem?_eq_none (by omega)
        rw [this] at hB
        cases hB

theorem runOnFunction_idempotent_witness :
    WF exampleTwoBlocks ∧ runOnFunction 20 exampleTwoBlocks = some (false, exampleTwoBlocksAfter) ∧
    runOnFunction 1 exampleTwoBlocksAfter = some (false, exampleTwoBlocksAfter) ∧
      ((nameContains "llvm.".toList exampleTwoBlocks.name = false) →
        ∀ k, QuietAt exampleTwoBlocksAfter k) :=
  ⟨WF_of_wfCheck (by decide), by decide,
    runOnFunction_idempotent 20 1 exampleTwoBlocks exampleTwoBlocksAfter false
      (WF_of_wfCheck (by decide)) (by decide) (by decide)⟩

/-! ## Generated instructions are never rewrite roots -/

theorem scanBlock_eq_with (fuel : Nat) :
    ∀ (B : List Instruction) (st : State),
      scanBlock fuel st B =
        scanBlockWith (tryReorderIntAdd fuel) (tryReorderIntMul fuel) st B := by
  intro B
  induction B with
  | nil => intro st; rfl
  | cons I rest ih =>
    intro st
    rw [scanBlock, scanBlockWith]
    simp only [ih]

theorem whileAction_eq_with (fuel : Nat) :
    ∀ (n : Nat) (st : State) (b : Nat),
      whileAction fuel n st b =
        whileActionWith (tryReorderIntAdd fuel) (tryReorderIntMul fuel) n st b := by
  intro n
  induction n with
  | zero => intro st b; rfl
  | succ n ih =>
    intro st b
    rw [whileAction, whileActionWith]
    cases st.blocks[b]? with
    | none => rfl
    | some B =>
      simp only
      rw [scanBlock_eq_with]
      cases scanBlockWith (tryReorderIntAdd fuel) (tryReorderIntMul fuel) st B.reverse with
      | none => rfl
      | some r =>
        obtain ⟨action, st1⟩ := r
        cases action
        · rfl
        · simp only [if_true]
          exact ih st1 b

theorem forBlocks_eq_with (fuel : Nat) :
    ∀ (cnt b : Nat) (st : State),
      forBlocks fuel cnt b st =
        forBlocksWith (tryReorderIntAdd fuel) (tryReorderIntMul fuel) fuel cnt b st := by
  intro cnt
  induction cnt with
  | zero => intro b st; rfl
  | succ cnt ih =>
    intro b st
    rw [forBlocks, forBlocksWith, whileAction_eq_with]
    cases whileActionWith (tryReorderIntAdd fuel) (tryReorderIntMul fuel) fuel st b with
    | none => rfl
    | some s1 => exact ih (b + 1) s1

theorem runOnFunction_eq_with (fuel : Nat) (st : State) :
    runOnFunction fuel st =
      runOnFunctionWith (tryReorderIntAdd fuel) (tryReorderIntMul fuel) fuel st := by
  unfold runOnFunction runOnFunctionWith
  rw [forBlocks_eq_with]

theorem scanBlockWith_guarded (f g : State → Nat → Option (Bool × State)) :
    ∀ (B : List Instruction) (st : State),
      scanBlockWith (guarded f) (guarded g) st B = scanBlockWith f g st B := by
  intro B
  induction B with
  | nil => intro st; rfl
  | cons I rest ih =>
    intro st
    rw [scanBlockWith, scanBlockWith]
    split
    · exact ih st
    · rename_i hgen
      simp only [guarded, if_neg hgen, ih]

theorem whileActionWith_guarded (f g : State → Nat → Option (Bool × State)) :
    ∀ (n : Nat) (st : State) (b : Nat),
      whileActionWith (guarded f) (guarded g) n st b = whileActionWith f g n st b := by
  intro n
  induction n with
  | zero => intro st b; rfl
  | succ n ih =>
    intro st b
    rw [whileActionWith, whileActionWith]
    cases st.blocks[b]? with
    | none => rfl
    | some B =>
      simp only
      rw [scanBlockWith_guarded]
      cases scanBlockWith f g st B.reverse with
      | none => rfl
      | some r =>
        obtain ⟨action, st1⟩ := r
        cases action
        · rfl
        · simp only [if_true]
          exact ih st1 b

theorem forBlocksWith_guarded (f g : State → Nat → Option (Bool × State)) (fuel : Nat) :
    ∀ (cnt b : Nat) (st : State),
      forBlocksWith (guarded f) (guarded g) fuel cnt b st = forBlocksWith f g fuel cnt b st := by
  intro cnt
  induction cnt with
  | zero => intro b st; rfl
  | succ cnt ih =>
    intro b st
    rw [forBlocksWith, forBlocksWith, whileActionWith_guarded]
    cases whileActionWith f g fuel st b with
    | none => rfl
    | some s1 => exact ih (b + 1) s1

/-- An invariant preserved by every successful rewrite of a root outside `generatedI` holds
when the loop over the blocks returns. -/
theorem forBlocks_invariant (P : State → Prop)
    (hP : ∀ s s2 op R V, WF s → P s → Value.inst R ∉ s.generatedI →
      RewriteStep op R V s s2 → P s2)
    (fuel : Nat) :
    ∀ (cnt b : Nat) (s s2 : State), WF s → P s → forBlocks fuel cnt b s = some s2 →
      WF s2 ∧ P s2 := by
  intro cnt
  induction cnt with
  | zero =>
    intro b s s2 hwf hPs h
    simp only [forBlocks, Option.some.injEq] at h
    subst h
    exact ⟨hwf, hPs⟩
  | succ cnt ih =>
    intro b s s2 hwf hPs h
    rw [forBlocks] at h
    simp only [Option.bind_eq_some] at h
    obtain ⟨s1, hw, hrest⟩ := h
    obtain ⟨hwf1, hP1, _⟩ := whileAction_invariant P hP fuel b fuel s s1 hwf hPs hw
    exact ih (b + 1) s1 s2 hwf1 hP1 hrest

/-- C12. (1) The value returned by a `Create` call of the builder is in `generatedI` in the
state the call returns, and an instruction of that state was there before the call or is
that value. (2) In the state the builder leaves before `replaceAllUsesWith`, every
instruction was there on entry of the rewrite or is in `generatedI`. (3) On return of
`runOnFunction` on a well-formed body, every instruction with an id from the counter on
entry on, these are the instructions created during the run, is in `generatedI`, and
`generatedI` has lost no member. (4) `runOnFunction` is equal to the pass run with rewrite
functions that have no result on a root in `generatedI`: such a root is never passed. -/
theorem generatedI_exclusion (fuel : Nat) (st : State) :
    (∀ op R s x y, (createAndRecord op R s x y).1 ∈ (createAndRecord op R s x y).2.generatedI ∧
      ∀ J ∈ (createAndRecord op R s x y).2.insts,
        J ∈ s.insts ∨ (createAndRecord op R s x y).1 = .inst J.id) ∧
    (∀ op R s L s1 V, WF s → buildStage op fuel s R = some (L, s1, V) →
      ∀ J ∈ s1.insts, J ∈ s.insts ∨ Value.inst J.id ∈ s1.generatedI) ∧
    (∀ b st1, WF st → runOnFunction fuel st = some (b, st1) →
      (∀ J ∈ st1.insts, st.nextId ≤ J.id → Value.inst J.id ∈ st1.generatedI) ∧
      (∀ v ∈ st.generatedI, v ∈ st1.generatedI)) ∧
    runOnFunctionWith (guarded (tryReorderIntAdd fuel)) (guarded (tryReorderIntMul fuel))
      fuel st = runOnFunction fuel st := by
  refine ⟨?_, ?_, ?_, ?_⟩
  · intro op R s x y
    constructor
    · simp only [createAndRecord]
      exact List.mem_insert_self _ _
    · intro J hJ
      have hins : (createAndRecord op R s x y).2.insts = (CreateBinOp op R s x y).2.insts := rfl
      rw [hins] at hJ
      have h1 : (createAndRecord op R s x y).1 = (CreateBinOp op R s x y).1 := rfl
      rw [h1]
      unfold CreateBinOp at hJ ⊢
      split at hJ
      · exact Or.inl hJ
      · simp only [State.insts, List.mem_flatten, List.mem_map] at hJ
        obtain ⟨B1, ⟨B, hB, rfl⟩, hJB⟩ := hJ
        rcases (mem_insertBeforeInBlock_iff _ _ _ _).mp hJB with h2 | h2
        · exact Or.inl (List.mem_flatten.mpr ⟨B, hB, h2⟩)
        · right
          rw [h2.1]
  · intro op R s L s1 V hwf hb J hJ
    unfold buildStage at hb
    cases hc : collectLeaves op fuel s R with
    | none => simp [hc] at hb
    | some r =>
      cases r with
      | none => simp [hc] at hb
      | some L2 =>
        simp only [hc, Option.map_eq_some'] at hb
        obtain ⟨built, hbuilt, he⟩ := hb
        simp only [Prod.mk.injEq] at he
        obtain ⟨rfl, rfl, rfl⟩ := he
        obtain ⟨_, _, _, _, _, _, _, _, _, _, _, _, hR, hcn, _, hclosed⟩ :=
          collectLeaves_facts hwf hc
        obtain ⟨hbuilding, _⟩ := buildTree_spec_of_some hwf hR hcn hclosed hbuilt
        rcases hbuilding.insts_mem J hJ with hold | hnew
        · exact Or.inl hold
        · right
          exact (hbuilding.gen_iff _).mpr
            (Or.inr ⟨J.id, rfl, hnew, hbuilding.wf.fresh J hJ⟩)
  · intro b st1 hwf h
    unfold runOnFunction at h
    split at h
    · simp only [Option.some.injEq, Prod.mk.injEq] at h
      obtain ⟨_, rfl⟩ := h
      refine ⟨?_, fun v hv => hv⟩
      intro J hJ hlo
      have := hwf.fresh J hJ
      omega
    · simp only [Option.map_eq_some'] at h
      obtain ⟨s1, hfor, he⟩ := h
      simp only [Prod.mk.injEq] at he
      obtain ⟨_, rfl⟩ := he
      have hinv := forBlocks_invariant
        (fun t => st.nextId ≤ t.nextId ∧
          (∀ J ∈ t.insts, st.nextId ≤ J.id → Value.inst J.id ∈ t.generatedI) ∧
          (∀ v ∈ st.generatedI, v ∈ t.generatedI))
        (fun t t2 op R V hwt hPt _ hstep => by
          obtain ⟨h1, h2, h3⟩ := hPt
          refine ⟨le_trans h1 hstep.nextId_le, ?_, ?_⟩
          · intro J2 hJ2 hlo
            rcases hstep.insts J2 hJ2 with ⟨J, hJ, he⟩ | hnew
            · rw [he, id_replaceUsesOfWith] at hlo ⊢
              exact (hstep.gen_iff _).mpr (Or.inl (h2 J hJ hlo))
            · exact (hstep.gen_iff _).mpr
                (Or.inr ⟨J2.id, rfl, hnew, (hstep.created J2 hJ2 hnew).1⟩)
          · intro v hv
            exact (hstep.gen_iff _).mpr (Or.inl (h3 v hv)))
        fuel st.blocks.length 0 st s1 hwf
        ⟨le_rfl, fun J hJ hlo => by have := hwf.fresh J hJ; omega, fun v hv => hv⟩ hfor
      exact hinv.2.2
  · rw [runOnFunction_eq_with]
    unfold runOnFunctionWith
    rw [forBlocksWith_guarded]

theorem generatedI_exclusion_witness :
    WF exampleTwoBlocks ∧
    runOnFunction 20 exampleTwoBlocks = some (false, exampleTwoBlocksAfter) ∧
    (∀ J ∈ exampleTwoBlocksAfter.insts, exampleTwoBlocks.nextId ≤ J.id →
      Value.inst J.id ∈ exampleTwoBlocksAfter.generatedI) ∧
    (∀ v ∈ exampleTwoBlocks.generatedI, v ∈ exampleTwoBlocksAfter.generatedI) :=
  ⟨WF_of_wfCheck (by decide), by decide,
    (generatedI_exclusion 20 exampleTwoBlocks).2.2.1 false exampleTwoBlocksAfter
      (WF_of_wfCheck (by decide)) (by decide)⟩

/-! ## Termination of the loop of a block -/

theorem mem_pendingRoots_iff (s : State) (I : Instruction) :
    I ∈ pendingRoots s ↔
      I ∈ s.insts ∧ (∃ op a b, I.kind = .binop op a b) ∧ Value.inst I.id ∉ s.generatedI := by
  unfold pendingRoots
  rw [List.mem_filter]
  cases hk : I.kind with
  | binop op a b => simp
  | load p vol => simp
  | other ops se => simp

/-- A successful rewrite of a root outside `generatedI` strictly decreases the number of
non-generated Add and Mul instructions. -/
theorem RewriteStep.numPending_lt {op : BinOp} {R : Nat} {V : Value} {s s2 : State}
    (h : RewriteStep op R V s s2) (hwf : WF s) (hgen : Value.inst R ∉ s.generatedI) :
    numPending s2 < numPending s := by
  have hnd2 : ((pendingRoots s2).map (fun I => I.id)).Nodup := by
    apply h.wf.nodup.sublist
    exact (List.filter_sublist _).map _
  obtain ⟨⟨x, y⟩, hxy⟩ := Option.isSome_iff_exists.mp h.root
  obtain ⟨IR, hIR, hIRid, hIRk⟩ := (dynCastBinOp_inst_eq_some_iff hwf.nodup op R x y).mp hxy
  have hRmem : R ∈ (pendingRoots s).map (fun I => I.id) := by
    refine List.mem_map.mpr ⟨IR, (mem_pendingRoots_iff s IR).mpr ⟨hIR, ⟨op, x, y, hIRk⟩, ?_⟩, hIRid⟩
    rw [hIRid]
    exact hgen
  have hsub : (pendingRoots s2).map (fun I => I.id) ⊆
      ((pendingRoots s).map (fun I => I.id)).erase R := by
    intro i hi
    obtain ⟨J2, hJ2, rfl⟩ := List.mem_map.mp hi
    obtain ⟨hJ2mem, ⟨o, a2, b2, hk2⟩, hng⟩ := (mem_pendingRoots_iff s2 J2).mp hJ2
    have hne : J2.id ≠ R := fun he => h.rootGone ⟨J2, hJ2mem, he⟩
    apply (List.mem_erase_of_ne hne).mpr
    rcases h.insts J2 hJ2mem with ⟨J, hJ, he⟩ | hlo
    · rw [he] at hk2 hng ⊢
      rw [id_replaceUsesOfWith] at hng ⊢
      obtain ⟨a, b, hk, _, _⟩ := kind_replaceUsesOfWith_binop hk2
      refine List.mem_map.mpr ⟨J, (mem_pendingRoots_iff s J).mpr ⟨hJ, ⟨o, a, b, hk⟩, ?_⟩, rfl⟩
      intro hg
      exact hng ((h.gen_iff _).mpr (Or.inl hg))
    · exfalso
      apply hng
      exact (h.gen_iff _).mpr (Or.inr ⟨J2.id, rfl, hlo, (h.created J2 hJ2mem hlo).1⟩)
  have hle := (List.subperm_of_subset hnd2 hsub).length_le
  have herase := List.length_erase_of_mem hRmem
  have hpos : 0 < ((pendingRoots s).map (fun I => I.id)).length :=
    List.length_pos_of_mem hRmem
  simp only [List.length_map] at hle herase hpos
  unfold numPending
  rw [herase] at hle
  omega

/-- In a function whose Add/Mul operand relation is well founded every value has a finite
chain tree. -/
theorem exists_chainTree_of_acyclic {s : State} (hac : Acyclic s) (op : BinOp) (v : Value) :
    ∃ T, ChainTree s op v T := by
  obtain ⟨rank, hrank⟩ := hac
  have key : ∀ n v, (∀ j, v = .inst j → rank j < n) → ∃ T, ChainTree s op v T := by
    intro n
    induction n with
    | zero =>
      intro v hv
      cases v with
      | inst j => exact absurd (hv j rfl) (by omega)
      | constInt bits val => exact ⟨_, .leaf _ (by simp [dynCastBinOp])⟩
      | arg k => exact ⟨_, .leaf _ (by simp [dynCastBinOp])⟩
    | succ n ih =>
      intro v hv
      cases hd : dynCastBinOp s op v with
      | none => exact ⟨_, .leaf _ hd⟩
      | some ab =>
        obtain ⟨a, b⟩ := ab
        cases v with
        | constInt bits val => simp [dynCastBinOp] at hd
        | arg k => simp [dynCastBinOp] at hd
        | inst j =>
          obtain ⟨I, hI, hk⟩ := getInst?_of_dynCastBinOp hd
          obtain ⟨hmem, hid⟩ := mem_insts_of_getInst? hI
          have hj := hv j rfl
          obtain ⟨Ta, hTa⟩ := ih a (by
            intro ja hja
            have := hrank I hmem op a b hk ja (Or.inl hja)
            rw [hid] at this
            omega)
          obtain ⟨Tb, hTb⟩ := ih b (by
            intro jb hjb
            have := hrank I hmem op a b hk jb (Or.inr hjb)
            rw [hid] at this
            omega)
          exact ⟨_, .node _ a b Ta Tb hd hTa hTb⟩
  cases v with
  | inst j => exact key (rank j + 1) _ (by intro j2 h2; cases h2; omega)
  | constInt bits val => exact ⟨_, .leaf _ (by simp [dynCastBinOp])⟩
  | arg k => exact ⟨_, .leaf _ (by simp [dynCastBinOp])⟩

theorem scanBlock_mono {fuel : Nat} :
    ∀ (B : List Instruction) (s : State) (r : Bool × State), scanBlock fuel s B = some r →
      ∀ fuel2, fuel ≤ fuel2 → scanBlock fuel2 s B = some r := by
  intro B
  induction B with
  | nil => intro s r h fuel2 _; exact h
  | cons I rest ih =>
    intro s r h fuel2 hle
    rw [scanBlock] at h ⊢
    split
    · rename_i hgen
      rw [if_pos hgen] at h
      exact ih s r h fuel2 hle
    · rename_i hgen
      rw [if_neg hgen] at h
      have hbin : ∀ op,
          (match tryReorderInt op fuel s I.id with
            | none => none
            | some (action, st1) =>
              if action then some (true, st1) else scanBlock fuel st1 rest) = some r →
          (match tryReorderInt op fuel2 s I.id with
            | none => none
            | some (action, st1) =>
              if action then some (true, st1) else scanBlock fuel2 st1 rest) = some r := by
        intro op h2
        cases hr : tryReorderInt op fuel s I.id with
        | none => rw [hr] at h2; cases h2
        | some q =>
          obtain ⟨action, st1⟩ := q
          rw [hr] at h2
          rw [tryReorderInt_mono hr fuel2 hle]
          cases action with
          | true => exact h2
          | false =>
            simp only [Bool.false_eq_true, if_false] at h2 ⊢
            exact ih st1 r h2 fuel2 hle
      cases hk : I.kind with
      | binop op a b =>
        cases op with
        | Add =>
          simp only [hk, tryReorderIntAdd] at h ⊢
          exact hbin .Add h
        | Mul =>
          simp only [hk, tryReorderIntMul] at h ⊢
          exact hbin .Mul h
      | load p vol =>
        simp only [hk, Bool.false_eq_true, if_false] at h ⊢
        exact ih s r h fuel2 hle
      | other ops se =>
        simp only [hk, Bool.false_eq_true, if_false] at h ⊢
        exact ih s r h fuel2 hle

/-- With enough fuel a scan of a list of instructions of a well-formed function with a well
founded operand relation returns. -/
theorem scanBlock_total {s : State} (hwf : WF s) (hac : Acyclic s) :
    ∀ (B : List Instruction), (∀ I ∈ B, I ∈ s.insts) →
      ∃ F r, scanBlock F s B = some r := by
  intro B
  induction B with
  | nil => intro _; exact ⟨0, (false, s), rfl⟩
  | cons I rest ih =>
    intro hmem
    obtain ⟨F, r, hrest⟩ := ih (fun J hJ => hmem J (List.mem_cons_of_mem _ hJ))
    have hImem := hmem I (List.mem_cons_self _ _)
    have hI : s.getInst? I.id = some I := (getInst?_eq_some_iff hwf.nodup I.id I).mpr ⟨hImem, rfl⟩
    by_cases hgen : Value.inst I.id ∈ s.generatedI
    · refine ⟨F, r, ?_⟩
      rw [scanBlock, if_pos hgen]
      exact hrest
    · have hbin : ∀ op a b, I.kind = .binop op a b → ∃ F2 r2,
          (match tryReorderInt op F2 s I.id with
            | none => none
            | some (action, st1) =>
              if action then some (true, st1) else scanBlock F2 st1 rest) = some r2 := by
        intro op a b hk
        by_cases hguard : (dynCastBinOp s op a).isSome ∨ (dynCastBinOp s op b).isSome
        · obtain ⟨T, hT⟩ := exists_chainTree_of_acyclic hac op (.inst I.id)
          obtain ⟨st2, h2⟩ := @tryReorderInt_total op (s.insts.length + T.leaves.length) s I.id I a b T
            hwf hI hk hguard hT le_rfl
          exact ⟨s.insts.length + T.leaves.length, (true, st2), by rw [h2]; rfl⟩
        · have hg := hguard
          simp only [not_or, Bool.not_eq_true, Option.not_isSome,
            Option.isNone_iff_eq_none] at hg
          have h2 := tryReorderInt_of_guard_fails op op F s I.id I a b hI hk hg.1 hg.2
          exact ⟨F, r, by simp only [h2, Bool.false_eq_true, if_false, hrest]⟩
      cases hk : I.kind with
      | binop op a b =>
        obtain ⟨F2, r2, h2⟩ := hbin op a b hk
        refine ⟨F2, r2, ?_⟩
        rw [scanBlock, if_neg hgen]
        cases op with
        | Add => simp only [hk, tryReorderIntAdd]; exact h2
        | Mul => simp only [hk, tryReorderIntMul]; exact h2
      | load p vol =>
        refine ⟨F, r, ?_⟩
        rw [scanBlock, if_neg hgen]
        simp only [hk, Bool.false_eq_true, if_false]
        exact hrest
      | other ops se =>
        refine ⟨F, r, ?_⟩
        rw [scanBlock, if_neg hgen]
        simp only [hk, Bool.false_eq_true, if_false]
        exact hrest

/-- The loop of a block returns after at most as many rewrites as there are non-generated
Add and Mul instructions, with the same state for every fuel from some bound on. -/
theorem whileAction_total (b : Nat) :
    ∀ (m : Nat) (s : State), numPending s ≤ m → WF s → Acyclic s → b < s.blocks.length →
      ∃ F s2, ∀ fuel n, F ≤ fuel → m + 1 ≤ n → whileAction fuel n s b = some s2 := by
  intro m
  induction m with
  | zero =>
    intro s hm hwf hac hb
    have hB : s.blocks[b]? = some s.blocks[b] := List.getElem?_eq_getElem hb
    have hmem : ∀ I ∈ s.blocks[b].reverse, I ∈ s.insts :=
      fun I hI => mem_insts_of_block hB (List.mem_reverse.mp hI)
    obtain ⟨F1, ⟨act, s1⟩, hscan⟩ := scanBlock_total hwf hac s.blocks[b].reverse hmem
    rcases scanBlock_cases hwf _ act s1 hmem hscan with
      ⟨hact, hs1, _⟩ | ⟨hact, I, _, hgen, op, a, b2, hk, hr⟩
    · subst hact
      subst hs1
      refine ⟨F1, s1, ?_⟩
      intro fuel n hf hn
      obtain ⟨n2, rfl⟩ : ∃ n2, n = n2 + 1 := ⟨n - 1, by omega⟩
      rw [whileAction]
      simp only [hB, scanBlock_mono _ _ _ hscan fuel hf, Bool.false_eq_true, if_false]
    · exfalso
      obtain ⟨V, hstep⟩ := tryReorderInt_step hwf hr
      have := hstep.numPending_lt hwf hgen
      omega
  | succ m ih =>
    intro s hm hwf hac hb
    have hB : s.blocks[b]? = some s.blocks[b] := List.getElem?_eq_getElem hb
    have hmem : ∀ I ∈ s.blocks[b].reverse, I ∈ s.insts :=
      fun I hI => mem_insts_of_block hB (List.mem_reverse.mp hI)
    obtain ⟨F1, ⟨act, s1⟩, hscan⟩ := scanBlock_total hwf hac s.blocks[b].reverse hmem
    rcases scanBlock_cases hwf _ act s1 hmem hscan with
      ⟨hact, hs1, _⟩ | ⟨hact, I, _, hgen, op, a, b2, hk, hr⟩
    · subst hact
      subst hs1
      refine ⟨F1, s1, ?_⟩
      intro fuel n hf hn
      obtain ⟨n2, rfl⟩ : ∃ n2, n = n2 + 1 := ⟨n - 1, by omega⟩
      rw [whileAction]
      simp only [hB, scanBlock_mono _ _ _ hscan fuel hf, Bool.false_eq_true, if_false]
    · subst hact
      obtain ⟨V, hstep⟩ := tryReorderInt_step hwf hr
      have hlt := hstep.numPending_lt hwf hgen
      have hb1 : b < s1.blocks.length := by
        rw [← hstep.blocks.length_eq]
        exact hb
      obtain ⟨F2, s2, h2⟩ := ih s1 (by omega) hstep.wf (hstep.acyclic hac) hb1
      refine ⟨max F1 F2, s2, ?_⟩
      intro fuel n hf hn
      obtain ⟨n2, rfl⟩ : ∃ n2, n = n2 + 1 := ⟨n - 1, by omega⟩
      rw [whileAction]
      simp only [hB, scanBlock_mono _ _ _ hscan fuel (by omega), if_true]
      exact h2 fuel n2 (by omega) (by omega)

/-- The loop over the blocks returns, with the same state for every fuel from some bound
on. -/
theorem forBlocks_total :
    ∀ (cnt b : Nat) (s : State), WF s → Acyclic s → b + cnt ≤ s.blocks.length →
      ∃ F s2, ∀ fuel, F ≤ fuel → forBlocks fuel cnt b s = some s2 := by
  intro cnt
  induction cnt with
  | zero => intro b s _ _ _; exact ⟨0, s, fun _ _ => rfl⟩
  | succ cnt ih =>
    intro b s hwf hac hlen
    obtain ⟨F1, s1, h1⟩ := whileAction_total b (numPending s) s le_rfl hwf hac (by omega)
    have hrun := h1 (max F1 (numPending s + 1)) (max F1 (numPending s + 1))
      (le_max_left _ _) (le_max_right _ _)
    obtain ⟨hwf1, hac1, _, hlen1, _⟩ := whileAction_invariant Acyclic
      (fun t t2 op R V _ hPt _ hstep => hstep.acyclic hPt) _ b _ s s1 hwf hac hrun
    obtain ⟨F2, s2, h2⟩ := ih (b + 1) s1 hwf1 hac1 (by omega)
    refine ⟨max (max F1 (numPending s + 1)) F2, s2, ?_⟩
    intro fuel hf
    rw [forBlocks, h1 fuel fuel (by omega) (by omega)]
    simp only [Option.some_bind]
    exact h2 fuel (by omega)

/-- C15. For a well-formed function body whose Add/Mul operand relation is well founded, and
a block `b` of it: (1) from some fuel on the loop `while (action)` of the block returns, with
one and the same state, within `numPending st + 1` passes of the loop, that is after at most
as many rewrites as the function has non-generated Add and Mul instructions; (2) every
successful rewrite of a root outside `generatedI` removes the root, leaves only instructions
that were there before or are in `generatedI`, and strictly decreases the number of
non-generated Add and Mul instructions; (3) from some fuel on `runOnFunction` returns. -/
theorem whileAction_terminates (st : State) (b : Nat) (hwf : WF st) (hac : Acyclic st)
    (hb : b < st.blocks.length) :
    (∃ F st2, ∀ fuel n, F ≤ fuel → numPending st + 1 ≤ n →
      whileAction fuel n st b = some st2) ∧
    (∀ op fuel s s2 R, WF s → Value.inst R ∉ s.generatedI →
      tryReorderInt op fuel s R = some (true, s2) →
      ¬ HasInst s2 R ∧
      (∀ J2 ∈ s2.insts, (∃ J ∈ s.insts, J2.id = J.id) ∨ Value.inst J2.id ∈ s2.generatedI) ∧
      numPending s2 < numPending s) ∧
    (∃ F st2, ∀ fuel, F ≤ fuel → runOnFunction fuel st = some (false, st2)) := by
  refine ⟨whileAction_total b (numPending st) st le_rfl hwf hac hb, ?_, ?_⟩
  · intro op fuel s s2 R hwfs hgen hr
    obtain ⟨V, hstep⟩ := tryReorderInt_step hwfs hr
    refine ⟨hstep.rootGone, ?_, hstep.numPending_lt hwfs hgen⟩
    intro J2 hJ2
    rcases hstep.insts J2 hJ2 with ⟨J, hJ, he⟩ | hlo
    · exact Or.inl ⟨J, hJ, by rw [he, id_replaceUsesOfWith]⟩
    · exact Or.inr ((hstep.gen_iff _).mpr
        (Or.inr ⟨J2.id, rfl, hlo, (hstep.created J2 hJ2 hlo).1⟩))
  · by_cases hname : nameContains "llvm.".toList st.name = true
    · refine ⟨0, st, ?_⟩
      intro fuel _
      unfold runOnFunction
      rw [if_pos hname]
    · obtain ⟨F, st2, h⟩ := forBlocks_total st.blocks.length 0 st hwf hac (by omega)
      refine ⟨F, st2, ?_⟩
      intro fuel hf
      unfold runOnFunction
      rw [if_neg hname, h fuel hf]
      rfl

theorem whileAction_terminates_witness :
    WF exampleTwoBlocks ∧ Acyclic exampleTwoBlocks ∧ 1 < exampleTwoBlocks.blocks.length ∧
    (∃ F st2, ∀ fuel n, F ≤ fuel → numPending exampleTwoBlocks + 1 ≤ n →
      whileAction fuel n exampleTwoBlocks 1 = some st2) ∧
    (∀ op fuel s s2 R, WF s → Value.inst R ∉ s.generatedI →
      tryReorderInt op fuel s R = some (true, s2) →
      ¬ HasInst s2 R ∧
      (∀ J2 ∈ s2.insts, (∃ J ∈ s.insts, J2.id = J.id) ∨ Value.inst J2.id ∈ s2.generatedI) ∧
      numPending s2 < numPending s) ∧
    (∃ F st2, ∀ fuel, F ≤ fuel → runOnFunction fuel exampleTwoBlocks = some (false, st2)) :=
  ⟨WF_of_wfCheck (by decide), Acyclic_of_acyclicCheck (by decide), by decide,
    whileAction_terminates exampleTwoBlocks 1 (WF_of_wfCheck (by decide))
      (Acyclic_of_acyclicCheck (by decide)) (by decide)⟩

end HI_LoadALAP
